import Mathlib

/-!
Verification development for the `rustsgf` SGF parser.

The definitions below are a shallow embedding of the Rust sources:
`src/ast/src/vertex.rs` (the AST, its `Display` rendering and `strip_key`),
`src/src/scanner.rs` (the lexical scanner) and `src/src/parser.rs`
(the recursive-descent parser).  Machine integers (`u64`, `usize`) are
modelled as `Nat` with explicit `% 2 ^ 64` where overflow matters; fallible
code returns `Except`.  The parser's cursor over the token buffer is
modelled by the remaining suffix of the token list (the code only ever
accesses `tokens[cur ..]`, plus the whole list inside `create_error`; the
bridge lemmas about `Parser.peek` / `Parser.read` relate the two views).
Loops whose progress comes from a subroutine call carry an explicit fuel
argument; the wrappers instantiate the fuel with a provably sufficient
bound, and the derived equations eliminate the fuel entirely.
-/

namespace Sgf

/-! ### Decimal rendering of unsigned integers (Rust `Display` for `u64`). -/

/-- One step list of decimal digit characters of `n`, most significant first;
`fuel ≥ n + 1` always suffices. -/
def natDigits : Nat → Nat → List Char → List Char
  | 0, _, acc => acc
  | fuel + 1, n, acc =>
    if n < 10 then Char.ofNat (48 + n) :: acc
    else natDigits fuel (n / 10) (Char.ofNat (48 + n % 10) :: acc)

/-- Decimal rendering of a natural number, as Rust's `Display` for `u64`. -/
def natRender (n : Nat) : String := String.mk (natDigits (n + 1) n [])

/-! ### The AST (`src/ast/src/vertex.rs`). -/

/-- `Property`: an identifier plus the list of bracketed value strings. -/
structure Property where
  ident : String
  values : List String
deriving Repr, DecidableEq

/-- `Node`: an ordered list of properties. -/
structure Node where
  props : List Property
deriving Repr, DecidableEq

/-- `Sequence`: an ordered list of nodes. -/
structure Sequence where
  nodes : List Node
deriving Repr, DecidableEq

/-- `GameTree`: a sequence plus child game trees (`Vec<Box<GameTree>>`). -/
inductive GameTree where
  | mk (sequence : Sequence) (gametrees : List GameTree) : GameTree
deriving Repr

/-- Projection mirroring the Rust field `GameTree::sequence`. -/
def GameTree.sequence : GameTree → Sequence
  | .mk s _ => s

/-- Projection mirroring the Rust field `GameTree::gametrees`. -/
def GameTree.gametrees : GameTree → List GameTree
  | .mk _ ts => ts

/-- `Collection`: the top-level list of game trees. -/
structure Collection where
  gametrees : List GameTree
deriving Repr

/-! ### `strip_key` (`src/ast/src/vertex.rs`). -/

/-- `Property::strip_key`: if the identifier differs from `key` the values are
copied; otherwise they are replaced by the single empty string. -/
def Property.strip_key (p : Property) (key : String) : Property :=
  let values := if p.ident ≠ key then p.values.map (fun v => v) else [""]
  { ident := p.ident, values := values }

/-- `Node::strip_key`. -/
def Node.strip_key (n : Node) (key : String) : Node :=
  { props := n.props.map (fun p => p.strip_key key) }

/-- `Sequence::strip_key`. -/
def Sequence.strip_key (s : Sequence) (key : String) : Sequence :=
  { nodes := s.nodes.map (fun n => n.strip_key key) }

/-- `GameTree::strip_key`: recurses into every child tree and the sequence. -/
def GameTree.strip_key : GameTree → String → GameTree
  | .mk s ts, key => .mk (s.strip_key key) (ts.attach.map (fun c => c.1.strip_key key))
termination_by t => sizeOf t
decreasing_by
  have := List.sizeOf_lt_of_mem c.2
  simp only [GameTree.mk.sizeOf_spec]
  omega

/-! ### Canonical rendering (`impl fmt::Display` in `vertex.rs`). -/

/-- `Display` for `Property`: the identifier followed by each value in brackets. -/
def Property.render (p : Property) : String :=
  p.ident ++ String.join (p.values.map (fun v => "[" ++ v ++ "]"))

/-- `Display` for `Node`: a semicolon followed by the properties. -/
def Node.render (n : Node) : String :=
  ";" ++ String.join (n.props.map (fun p => p.render))

/-- `Display` for `Sequence`: the concatenation of the node renderings. -/
def Sequence.render (s : Sequence) : String :=
  String.join (s.nodes.map (fun n => n.render))

/-- `Display` for `GameTree`: the sequence and the children inside parentheses. -/
def GameTree.render : GameTree → String
  | .mk s ts => "(" ++ s.render ++ String.join (ts.attach.map (fun c => c.1.render)) ++ ")"
termination_by t => sizeOf t
decreasing_by
  have := List.sizeOf_lt_of_mem c.2
  simp only [GameTree.mk.sizeOf_spec]
  omega

/-- `Display` for `Collection`: the concatenation of the tree renderings. -/
def Collection.render (c : Collection) : String :=
  String.join (c.gametrees.map (fun t => t.render))

/-- Structural induction principle for `GameTree` (nested in `List`). -/
theorem GameTree.my_ind {motive : GameTree → Prop}
    (h : ∀ s ts, (∀ t ∈ ts, motive t) → motive (.mk s ts)) : ∀ t, motive t
  | .mk s ts => h s ts (fun t ht => GameTree.my_ind h t)
termination_by t => sizeOf t
decreasing_by
  have := List.sizeOf_lt_of_mem ht
  simp only [GameTree.mk.sizeOf_spec]
  omega

/-! ### Positions and tokens (`src/src/scanner.rs`). -/

/-- Alias for Lean's floating-point type, used by the (never produced)
`Token::Float` variant. -/
abbrev FloatVal := Float

/-- `Position`: a (row, column) location.  Note that the Rust `PartialEq`
instance for `Position` ignores the fields; equality of the Lean model is
structural, and no theorem below depends on position equality. -/
structure Position where
  row : Nat
  col : Nat
deriving Repr, DecidableEq

/-- `Display` for `Position`: `(row:col)`. -/
def Position.render (p : Position) : String :=
  "(" ++ natRender p.row ++ ":" ++ natRender p.col ++ ")"

/-- `Token`: the scanner's lexical categories. -/
inductive Token where
  | Eof : Token
  | Whitespace : Token
  | Newline (pos : Position) : Token
  | Identifier (pos : Position) (s : String) : Token
  | UcLetter (pos : Position) (s : String) : Token
  | OpenParen (pos : Position) : Token
  | CloseParen (pos : Position) : Token
  | OpenSquare (pos : Position) : Token
  | CloseSquare (pos : Position) : Token
  | Semicolon (pos : Position) : Token
  | Float (pos : Position) (f : FloatVal) : Token
  | Integer (pos : Position) (i : Nat) : Token
  | Escaped (pos : Position) (s : String) : Token
  | Ascii (pos : Position) (s : String) : Token
  | Bytes (pos : Position) (s : String) : Token
deriving Repr

/-- `Token::position`. -/
def Token.position : Token → Position
  | .Eof => ⟨0, 0⟩
  | .Whitespace => ⟨0, 0⟩
  | .Newline pos => pos
  | .Identifier pos _ => pos
  | .UcLetter pos _ => pos
  | .OpenParen pos => pos
  | .CloseParen pos => pos
  | .OpenSquare pos => pos
  | .CloseSquare pos => pos
  | .Semicolon pos => pos
  | .Float pos _ => pos
  | .Integer pos _ => pos
  | .Escaped pos _ => pos
  | .Ascii pos _ => pos
  | .Bytes pos _ => pos

/-- `Display` for `Token`.  `Integer` renders in decimal (Rust `u64` display),
`Escaped` renders as a backslash followed by the escaped character. -/
def Token.render : Token → String
  | .Eof => ""
  | .Whitespace => " "
  | .Newline _ => "\n"
  | .Identifier _ s => s
  | .UcLetter _ s => s
  | .OpenParen _ => "("
  | .CloseParen _ => ")"
  | .OpenSquare _ => "["
  | .CloseSquare _ => "]"
  | .Semicolon _ => ";"
  | .Float _ f => toString f
  | .Integer _ i => natRender i
  | .Escaped _ s => "\\" ++ s
  | .Ascii _ s => s
  | .Bytes _ s => s

/-- `scanner::Error`: a scan error with message, or the end-of-input marker.
The `eof` variant is never constructed by the scanner; the fueled loop below
reuses it as its (provably unreachable) out-of-fuel result. -/
inductive ScannerError where
  | scanError (msg : String) : ScannerError
  | eof : ScannerError
deriving Repr, DecidableEq

/-- `Display` for `scanner::Error`. -/
def ScannerError.render : ScannerError → String
  | .scanError s => s
  | .eof => "EOF"

/-! ### The scanner (`src/src/scanner.rs`).  The cursor over the immutable
character buffer is modelled by the remaining suffix `rem` of the input;
`Scanner::peek(0)` is `rem.headD '\x00'` and `Scanner::read` takes the head
(returning `'\x00'` and leaving the state unchanged past the end, exactly as
the Rust `read` returns `'\0'` without touching `pos`). -/

/-- Scanner state: remaining input and current position. -/
structure SState where
  rem : List Char
  pos : Position
deriving Repr, DecidableEq

/-- Position update performed by `Scanner::read` for one character. -/
def posAdvance (p : Position) (c : Char) : Position :=
  if c = '\n' then ⟨p.row + 1, 0⟩ else ⟨p.row, p.col + 1⟩

/-- `Scanner::read`: return the current character (or `'\0'` past the end)
and advance. -/
def sread : SState → Char × SState
  | ⟨[], p⟩ => ('\x00', ⟨[], p⟩)
  | ⟨c :: rest, p⟩ => (c, ⟨rest, posAdvance p c⟩)

/-- `Scanner::peek(0)`: the current character, `'\0'` past the end. -/
def speek (s : SState) : Char := s.rem.headD '\x00'

/-- The character class consumed by `scan_whitespace`. -/
def isWsChar (c : Char) : Bool := c = ' ' ∨ c = '\t' ∨ c = '\r'

/-- `is_digit` from `scanner.rs`. -/
def isDigitChar (c : Char) : Bool := '0' ≤ c ∧ c ≤ '9'

/-- `is_identifier_start` from `scanner.rs`. -/
def isIdentStart (c : Char) : Bool :=
  ('a' ≤ c ∧ c ≤ 'z') ∨ ('A' ≤ c ∧ c ≤ 'Z') ∨ c = '_'

/-- `is_identifier` from `scanner.rs`. -/
def isIdentChar (c : Char) : Bool := isDigitChar c ∨ isIdentStart c

/-- Printable ASCII (the `'\u{20}'..='\u{7e}'` arm of `scan_token`). -/
def isPrintableAscii (c : Char) : Bool := '\x20' ≤ c ∧ c ≤ '\x7e'

/-- `Scanner::scan_whitespace`: consume a maximal run of space/tab/CR. -/
def scan_whitespace : List Char → Position → SState
  | c :: rest, p => if isWsChar c then scan_whitespace rest (posAdvance p c) else ⟨c :: rest, p⟩
  | [], p => ⟨[], p⟩

/-- `Scanner::scan_newlines`: consume a maximal run of `'\n'`. -/
def scan_newlines : List Char → Position → SState
  | c :: rest, p => if c = '\n' then scan_newlines rest (posAdvance p c) else ⟨c :: rest, p⟩
  | [], p => ⟨[], p⟩

/-- `Scanner::scan_escaped`: consume the backslash and exactly one following
character (`'\0'` when past the end). -/
def scan_escaped (s : SState) : Token × SState :=
  let s1 := (sread s).2
  let (c, s2) := sread s1
  (Token.Escaped s2.pos (String.mk [c]), s2)

/-- `Scanner::scan_ascii`: one printable character as an `Ascii` token. -/
def scan_ascii (s : SState) : Token × SState :=
  let (c, s1) := sread s
  (Token.Ascii s1.pos (String.mk [c]), s1)

/-- `Scanner::scan_bytes`: one pass-through character as a `Bytes` token. -/
def scan_bytes (s : SState) : Token × SState :=
  let (c, s1) := sread s
  (Token.Bytes s1.pos (String.mk [c]), s1)

/-- The digit-run collector inside `Scanner::scan_number`. -/
def scanDigitRun : List Char → Position → List Char × SState
  | c :: rest, p =>
    if isDigitChar c then
      let (ds, st) := scanDigitRun rest (posAdvance p c)
      (c :: ds, st)
    else ([], ⟨c :: rest, p⟩)
  | [], p => ([], ⟨[], p⟩)

/-- Decimal value of a big-endian digit-character list (`str::parse::<u64>`
on an all-digit string computes this, failing above `u64::MAX`). -/
def natOfDigits (ds : List Char) : Nat := ds.foldl (fun a c => 10 * a + (c.toNat - 48)) 0

/-- `Scanner::scan_number`: a maximal digit run parsed as `u64`; overflow is
a scan error (the `ParseIntError` message). -/
def scan_number (s : SState) : SState × Except ScannerError Token :=
  let (ds, st) := scanDigitRun s.rem s.pos
  let n := natOfDigits ds
  if n < 2 ^ 64 then (st, .ok (Token.Integer st.pos n))
  else (st, .error (.scanError "number too large to fit in target type"))

/-- The identifier-run collector inside `Scanner::scan_identifier`, tracking
the `upper` flag (`c < 'A' || c > 'Z'` clears it). -/
def scanIdentRun : List Char → Position → Bool → List Char × Bool × SState
  | c :: rest, p, upper =>
    if isIdentChar c then
      let upper' := if c < 'A' ∨ 'Z' < c then false else upper
      let (cs, u, st) := scanIdentRun rest (posAdvance p c) upper'
      (c :: cs, u, st)
    else ([], upper, ⟨c :: rest, p⟩)
  | [], p, upper => ([], upper, ⟨[], p⟩)

/-- `Scanner::scan_identifier`: a maximal identifier run, classified as
`UcLetter` when every character was an uppercase ASCII letter. -/
def scan_identifier (s : SState) : Token × SState :=
  let (cs, upper, st) := scanIdentRun s.rem s.pos true
  if upper then (Token.UcLetter st.pos (String.mk cs), st)
  else (Token.Identifier st.pos (String.mk cs), st)

/-- `Scanner::scan_token`: dispatch on the lookahead character, in the order
of the Rust `match`. -/
def scan_token (s : SState) : SState × Except ScannerError Token :=
  let c := speek s
  if c = '\x00' then (s, .ok Token.Eof)
  else if isWsChar c then (scan_whitespace s.rem s.pos, .ok Token.Whitespace)
  else if c = '\n' then
    let st := scan_newlines s.rem s.pos
    (st, .ok (Token.Newline st.pos))
  else if c = '\\' then
    let (t, st) := scan_escaped s
    (st, .ok t)
  else if c = '(' then ((sread s).2, .ok (Token.OpenParen s.pos))
  else if c = ')' then ((sread s).2, .ok (Token.CloseParen s.pos))
  else if c = '[' then ((sread s).2, .ok (Token.OpenSquare s.pos))
  else if c = ']' then ((sread s).2, .ok (Token.CloseSquare s.pos))
  else if isDigitChar c then scan_number s
  else if isIdentStart c then
    let (t, st) := scan_identifier s
    (st, .ok t)
  else if c = ';' then ((sread s).2, .ok (Token.Semicolon s.pos))
  else if isPrintableAscii c then
    let (t, st) := scan_ascii s
    (st, .ok t)
  else
    let (t, st) := scan_bytes s
    (st, .ok t)

/-- The loop of `Scanner::scan`, with fuel (each iteration except the final
`Eof` consumes at least one character, so `rem.length + 1` suffices; see
`scanGoF_suff`).  A scan error is wrapped by `create_error` with the current
position. -/
def scanGoF (fuel : Nat) (s : SState) (acc : List Token) : Except ScannerError (List Token) :=
  match fuel with
  | 0 => .error .eof
  | fuel + 1 =>
    let (s', r) := scan_token s
    match r with
    | .ok .Eof => .ok acc.reverse
    | .ok t => scanGoF fuel s' (t :: acc)
    | .error e =>
      .error (.scanError ("scan_error at " ++ s'.pos.render ++ ": " ++ e.render))

/-- `Scanner::scan` on a whole input string (initial position `(1:0)`). -/
def scan (input : String) : Except ScannerError (List Token) :=
  scanGoF (input.data.length + 1) ⟨input.data, ⟨1, 0⟩⟩ []

/-! ### The parser (`src/src/parser.rs`).  The cursor is modelled by the
remaining suffix of the token list; `create_error` additionally needs the
full original token list (for the `empty file` check and the last-token
fallback position), which is threaded as the immutable context `PCtx`.
The indexed `Parser` structure further below models `Parser::peek` /
`Parser::read` with the exact `usize` arithmetic of the source. -/

/-- `parser::Error`: a parse error with message, or the end-of-input marker.
The `eof` variant is never constructed by the parser; the fueled loops below
reuse it as their (provably unreachable) out-of-fuel result. -/
inductive ParserError where
  | parseError (msg : String) : ParserError
  | eof : ParserError
deriving Repr, DecidableEq

/-- `From<scanner::Error> for parser::Error`. -/
def ParserError.fromScan (e : ScannerError) : ParserError := .parseError e.render

/-- The parser's immutable token buffer (`self.tokens`). -/
structure PCtx where
  tokens : List Token

/-- `Parser::peek(0)` seen through the remaining-suffix view. -/
def peekTok : List Token → Token
  | [] => .Eof
  | t :: _ => t

/-- `Parser::read` seen through the remaining-suffix view: return the head
(`Eof` past the end) and the new suffix. -/
def pread : List Token → Token × List Token
  | [] => (.Eof, [])
  | t :: r => (t, r)

/-- `Parser::create_error`: `empty file` when the buffer is empty, otherwise
a message positioned at the current token (falling back to the last token
when the cursor is past the end). -/
def create_error (ctx : PCtx) (rem : List Token) (msg : String) : ParserError :=
  if ctx.tokens.length = 0 then .parseError "empty file"
  else
    match rem with
    | [] =>
      .parseError ("parse_error at " ++ (ctx.tokens.getLastD Token.Eof).position.render
        ++ ": " ++ msg)
    | t :: _ => .parseError ("parse_error at " ++ t.position.render ++ ": " ++ msg)

/-- `Parser::unexpected`: read the offending token, then report. -/
def unexpected (ctx : PCtx) (rem : List Token) (msg : String) : ParserError :=
  let (t, rem1) := pread rem
  create_error ctx rem1 ("unexpected " ++ t.render ++ " " ++ msg)

/-- The token class skipped by `Parser::consume_whitespace`. -/
def isWsTok : Token → Bool
  | .Whitespace => true
  | .Newline _ => true
  | _ => false

/-- `Parser::consume_whitespace`. -/
def consume_whitespace : List Token → List Token
  | t :: rest => if isWsTok t then consume_whitespace rest else t :: rest
  | [] => []

/-- The accumulation loop of `Parser::parse_propvalue`: concatenate the
rendering of every token until the lookahead is `]`; end of input first is
an error. -/
def pvLoop (ctx : PCtx) : List Token → String → Except ParserError (String × List Token)
  | [], _ => .error (unexpected ctx [] "eof while waiting for ']'")
  | t :: r, s =>
    match t with
    | .CloseSquare _ => .ok (s, t :: r)
    | .Eof => .error (unexpected ctx (t :: r) "eof while waiting for ']'")
    | _ => pvLoop ctx r (s ++ t.render)

/-- `Parser::parse_propvalue`: consume `[`, accumulate until `]`, consume it. -/
def parse_propvalue (ctx : PCtx) (rem : List Token) : Except ParserError (String × List Token) :=
  match peekTok rem with
  | .OpenSquare _ =>
    match pvLoop ctx (pread rem).2 "" with
    | .error e => .error e
    | .ok (s, rem2) =>
      match peekTok rem2 with
      | .CloseSquare _ => .ok (s, (pread rem2).2)
      | _ => .error (unexpected ctx rem2 "needed ']' in parse_propvalue")
  | _ => .error (unexpected ctx rem "needed '[' in parse_propvalue")

/-- `Parser::parse_propident`: the read token must be an `UcLetter`. -/
def parse_propident (ctx : PCtx) (rem : List Token) : Except ParserError (String × List Token) :=
  match pread rem with
  | (.UcLetter _ s, r) => .ok (s, r)
  | (_, r) => .error (create_error ctx r "expected uppercase identifier")

/-- The value loop of `Parser::parse_property`, with fuel (each iteration
consumes the opening `[`, so `rem.length + 1` suffices). -/
def valueLoopF (ctx : PCtx) : Nat → List Token → List String →
    Except ParserError (List String × List Token)
  | 0, _, _ => .error .eof
  | fuel + 1, rem, values =>
    match peekTok rem with
    | .OpenSquare _ =>
      match parse_propvalue ctx rem with
      | .error e => .error e
      | .ok (v, rem1) => valueLoopF ctx fuel (consume_whitespace rem1) (values ++ [v])
    | _ => .ok (values, rem)

/-- `Parser::parse_property`: identifier, then one or more bracketed values;
zero values is an error. -/
def parse_property (ctx : PCtx) (rem : List Token) : Except ParserError (Property × List Token) :=
  match parse_propident ctx rem with
  | .error e => .error e
  | .ok (ident, rem1) =>
    let rem2 := consume_whitespace rem1
    match valueLoopF ctx (rem2.length + 1) rem2 [] with
    | .error e => .error e
    | .ok (values, rem3) =>
      if values.length = 0 then .error (create_error ctx rem3 "cannot have empty property list")
      else .ok ({ ident := ident, values := values }, rem3)

/-- The property loop of `Parser::parse_node`, with fuel. -/
def propLoopF (ctx : PCtx) : Nat → List Token → List Property →
    Except ParserError (List Property × List Token)
  | 0, _, _ => .error .eof
  | fuel + 1, rem, props =>
    match peekTok rem with
    | .UcLetter _ _ =>
      match parse_property ctx rem with
      | .error e => .error e
      | .ok (p, rem1) => propLoopF ctx fuel (consume_whitespace rem1) (props ++ [p])
    | _ => .ok (props, rem)

/-- `Parser::parse_node`: consume `;`, skip whitespace, then zero or more
properties while the lookahead is an uppercase identifier. -/
def parse_node (ctx : PCtx) (rem : List Token) : Except ParserError (Node × List Token) :=
  let rem2 := consume_whitespace (pread rem).2
  match propLoopF ctx (rem2.length + 1) rem2 [] with
  | .error e => .error e
  | .ok (props, rem3) => .ok ({ props := props }, rem3)

/-- The node loop of `Parser::parse_sequence`, with fuel. -/
def nodeLoopF (ctx : PCtx) : Nat → List Token → List Node →
    Except ParserError (List Node × List Token)
  | 0, _, _ => .error .eof
  | fuel + 1, rem, nodes =>
    match peekTok rem with
    | .Semicolon _ =>
      match parse_node ctx rem with
      | .error e => .error e
      | .ok (n, rem1) => nodeLoopF ctx fuel (consume_whitespace rem1) (nodes ++ [n])
    | _ => .ok (nodes, rem)

/-- `Parser::parse_sequence`: one or more nodes; zero nodes is an error. -/
def parse_sequence (ctx : PCtx) (rem : List Token) : Except ParserError (Sequence × List Token) :=
  match nodeLoopF ctx (rem.length + 1) rem [] with
  | .error e => .error e
  | .ok (nodes, rem1) =>
    if nodes.length = 0 then .error (create_error ctx rem1 "cannot have empty node list")
    else .ok ({ nodes := nodes }, rem1)

mutual

/-- `Parser::parse_gametree` (fueled): consume `(`, skip whitespace, one
sequence, skip whitespace, then nested trees or the closing `)`. -/
def pgF (ctx : PCtx) : Nat → List Token → Except ParserError (GameTree × List Token)
  | 0, _ => .error .eof
  | fuel + 1, rem =>
    match parse_sequence ctx (consume_whitespace (pread rem).2) with
    | .error e => .error e
    | .ok (seq, rem3) =>
      match childLoopF ctx fuel (consume_whitespace rem3) [] with
      | .error e => .error e
      | .ok (trees, rem5) => .ok (GameTree.mk seq trees, rem5)

/-- The child loop of `Parser::parse_gametree` (fueled): a nested tree on
`(`, stop consuming the `)`, anything else is an error. -/
def childLoopF (ctx : PCtx) : Nat → List Token → List GameTree →
    Except ParserError (List GameTree × List Token)
  | 0, _, _ => .error .eof
  | fuel + 1, rem, trees =>
    match peekTok rem with
    | .OpenParen _ =>
      match pgF ctx fuel rem with
      | .error e => .error e
      | .ok (t, rem1) => childLoopF ctx fuel (consume_whitespace rem1) (trees ++ [t])
    | .CloseParen _ => .ok (trees, (pread rem).2)
    | _ => .error (unexpected ctx rem "in parse_gametree")

end

/-- `Parser::parse_gametree` with its sufficient fuel (`pgF_suff`). -/
def parse_gametree (ctx : PCtx) (rem : List Token) : Except ParserError (GameTree × List Token) :=
  pgF ctx (2 * rem.length + 2) rem

/-- The game-tree loop of `Parser::parse`, with fuel. -/
def treeLoopF (ctx : PCtx) : Nat → List Token → List GameTree →
    Except ParserError (List GameTree × List Token)
  | 0, _, _ => .error .eof
  | fuel + 1, rem, trees =>
    match peekTok rem with
    | .OpenParen _ =>
      match parse_gametree ctx rem with
      | .error e => .error e
      | .ok (t, rem1) => treeLoopF ctx fuel rem1 (trees ++ [t])
    | _ => .ok (trees, rem)

/-- The leading-garbage loop of `Parser::parse`: discard tokens until the
lookahead is `(` or end of input. -/
def skipGarbage : List Token → List Token
  | [] => []
  | t :: r =>
    match t with
    | .OpenParen _ => t :: r
    | .Eof => t :: r
    | _ => skipGarbage r

/-- `Parser::parse`: skip whitespace, skip leading garbage, parse one or
more game trees; zero trees is an error. -/
def parse (ctx : PCtx) (rem : List Token) : Except ParserError Collection :=
  let rem2 := skipGarbage (consume_whitespace rem)
  match treeLoopF ctx (rem2.length + 1) rem2 [] with
  | .error e => .error e
  | .ok (gametrees, _) =>
    if gametrees.length = 0 then .error (create_error ctx rem2 "cannot have empty collection")
    else .ok { gametrees := gametrees }

/-- `Parser::new(data)?.parse()`: scan (wrapping a scan error into a parse
error) and parse the whole token list. -/
def parseInput (input : String) : Except ParserError Collection :=
  match scan input with
  | .error e => .error (ParserError.fromScan e)
  | .ok tokens => parse ⟨tokens⟩ tokens

/-! ### The indexed cursor (`Parser::peek` / `Parser::read`).  `peek` computes
`self.tokens.len() - n` in `usize` arithmetic, which wraps around on
underflow (`n` greater than the buffer length), after which the index
`self.cur + n` is out of bounds: the panic is modelled as `none`. -/

/-- The parser structure of the source: token buffer plus cursor. -/
structure Parser where
  tokens : List Token
  cur : Nat

/-- Wrapping `usize` subtraction (for values below `2 ^ 64`). -/
def usizeSub (a b : Nat) : Nat := (2 ^ 64 + a - b) % 2 ^ 64

/-- `Parser::peek(n)`: `tokens[cur + n]` when `cur < tokens.len() - n` (in
wrapping `usize` arithmetic), `Token::Eof` otherwise; an out-of-bounds index
(a Rust panic) is `none`. -/
def Parser.peek (p : Parser) (n : Nat) : Option Token :=
  if p.cur < usizeSub p.tokens.length n then p.tokens[(p.cur + n) % 2 ^ 64]?
  else some Token.Eof

/-- `Parser::read`: past the end return `Token::Eof` and still advance the
cursor; otherwise return the current token and advance. -/
def Parser.read (p : Parser) : Token × Parser :=
  if p.tokens.length ≤ p.cur then (Token.Eof, ⟨p.tokens, p.cur + 1⟩)
  else (p.tokens.getD p.cur Token.Eof, ⟨p.tokens, p.cur + 1⟩)

/-! ### Plain equations for the nested-recursive tree functions. -/

/-- `GameTree.render` unfolded on a constructor. -/
theorem GameTree.render_mk (s : Sequence) (ts : List GameTree) :
    GameTree.render (.mk s ts) =
      "(" ++ s.render ++ String.join (ts.map (fun t => t.render)) ++ ")" := by
  rw [GameTree.render]
  rw [List.attach_map_coe ts (fun t => t.render)]

/-- `GameTree.strip_key` unfolded on a constructor. -/
theorem GameTree.strip_key_mk (s : Sequence) (ts : List GameTree) (key : String) :
    GameTree.strip_key (.mk s ts) key =
      .mk (s.strip_key key) (ts.map (fun t => t.strip_key key)) := by
  rw [GameTree.strip_key]
  rw [List.attach_map_coe ts (fun t => t.strip_key key)]

/-! ### Structure-preserving property map and key occurrence, used to state
what `strip_key` does (claim C3). -/

/-- Apply `f` to every property of the tree, preserving the shape. -/
def GameTree.mapProps (f : Property → Property) : GameTree → GameTree
  | .mk s ts =>
    .mk ⟨s.nodes.map (fun n => ⟨n.props.map f⟩)⟩ (ts.attach.map (fun c => c.1.mapProps f))
termination_by t => sizeOf t
decreasing_by
  have := List.sizeOf_lt_of_mem c.2
  simp only [GameTree.mk.sizeOf_spec]
  omega

/-- `GameTree.mapProps` unfolded on a constructor. -/
theorem GameTree.mapProps_mk (f : Property → Property) (s : Sequence) (ts : List GameTree) :
    GameTree.mapProps f (.mk s ts) =
      .mk ⟨s.nodes.map (fun n => ⟨n.props.map f⟩)⟩ (ts.map (fun t => t.mapProps f)) := by
  rw [GameTree.mapProps]
  rw [List.attach_map_coe ts (fun t => t.mapProps f)]

/-- Whether some property of the tree has identifier `key`. -/
def GameTree.mentions (key : String) : GameTree → Bool
  | .mk s ts =>
    s.nodes.any (fun n => n.props.any (fun p => p.ident = key))
      || ts.attach.any (fun c => c.1.mentions key)
termination_by t => sizeOf t
decreasing_by
  have := List.sizeOf_lt_of_mem c.2
  simp only [GameTree.mk.sizeOf_spec]
  omega

/-- `List.any` over an attached list, forgetting the membership proofs. -/
theorem attachAny {α : Type} (l : List α) (g : α → Bool) :
    (l.attach.any fun c => g c.1) = l.any g := by
  rw [Bool.eq_iff_iff]
  simp [List.any_eq_true]

/-- `GameTree.mentions` unfolded on a constructor. -/
theorem GameTree.mentions_mk (key : String) (s : Sequence) (ts : List GameTree) :
    GameTree.mentions key (.mk s ts) =
      (s.nodes.any (fun n => n.props.any (fun p => p.ident = key))
        || ts.any (fun t => t.mentions key)) := by
  rw [GameTree.mentions]
  congr 1
  exact attachAny ts (fun t => t.mentions key)

/-! ### Claim C3: `strip_key` replaces matching properties and is the
identity when the key is absent. -/

/-- `Property.strip_key` computes the pointwise replacement the spec
describes. -/
theorem Property.strip_key_eq_prop (p : Property) (key : String) :
    p.strip_key key = if p.ident = key then { ident := p.ident, values := [""] } else p := by
  cases p with
  | mk ident values =>
    by_cases h : ident = key
    · simp [Property.strip_key, h]
    · simp [Property.strip_key, h]

theorem Node.strip_key_eq_node (n : Node) (key : String) :
    n.strip_key key = ⟨n.props.map (fun p =>
      if p.ident = key then { ident := p.ident, values := [""] } else p)⟩ := by
  cases n with
  | mk props =>
    simp only [Node.strip_key, Node.mk.injEq]
    exact List.map_congr_left (fun p _ => Property.strip_key_eq_prop p key)

theorem GameTree.strip_key_eq_tree (t : GameTree) (key : String) :
    t.strip_key key = t.mapProps (fun p =>
      if p.ident = key then { ident := p.ident, values := [""] } else p) := by
  induction t using GameTree.my_ind with
  | h s ts ih =>
    rw [GameTree.strip_key_mk, GameTree.mapProps_mk]
    congr 1
    · cases s with
      | mk nodes =>
        simp only [Sequence.strip_key, Sequence.mk.injEq]
        exact List.map_congr_left (fun n _ => Node.strip_key_eq_node n key)
    · exact List.map_congr_left ih

theorem GameTree.strip_key_absent (t : GameTree) (key : String)
    (h : t.mentions key = false) : t.strip_key key = t := by
  induction t using GameTree.my_ind with
  | h s ts ih =>
    rw [GameTree.mentions_mk, Bool.or_eq_false_iff] at h
    rw [GameTree.strip_key_mk]
    have hseq : s.strip_key key = s := by
      cases s with
      | mk nodes =>
        simp only [List.any_eq_false, decide_eq_false_iff_not] at h
        simp only [Sequence.strip_key, Sequence.mk.injEq]
        have : ∀ n ∈ nodes, n.strip_key key = n := by
          intro n hn
          rw [Node.strip_key_eq_node]
          have hps := h.1 n hn
          simp only [List.any_eq_true, decide_eq_true_eq, not_exists, not_and] at hps
          have hid : ∀ p ∈ n.props,
              (if p.ident = key then ({ ident := p.ident, values := [""] } : Property) else p)
                = p := by
            intro p hp
            simp [hps p hp]
          have hmap : n.props.map (fun p =>
              if p.ident = key then { ident := p.ident, values := [""] } else p) = n.props :=
            (List.map_congr_left hid).trans (List.map_id _)
          rw [hmap]
        exact (List.map_congr_left this).trans (List.map_id _)
    have htrees : ∀ c ∈ ts, c.strip_key key = c := by
      intro c hc
      apply ih c hc
      simp only [List.any_eq_false] at h
      simpa using h.2 c hc
    rw [hseq]
    rw [(List.map_congr_left htrees).trans (List.map_id _)]

/-- C3: for every tree and key, `strip_key` yields the structure-preserving
map that replaces each property whose identifier equals the key by one with
the same identifier and the single empty-string value, leaving all other
properties unchanged; and stripping a key mentioned nowhere in the tree is
the identity. -/
theorem c3_strip_key_correct (t : GameTree) (k : String) :
    t.strip_key k = t.mapProps (fun p =>
        if p.ident = k then { ident := p.ident, values := [""] } else p)
      ∧ (t.mentions k = false → t.strip_key k = t) :=
  ⟨GameTree.strip_key_eq_tree t k, GameTree.strip_key_absent t k⟩

/-- Witness for C3 at the spec's own example: stripping `"PB"` blanks
`PB[Black]` and leaves `PW[White]` alone; stripping from a tree without the
key is the identity. -/
theorem c3_strip_key_correct_witness :
    GameTree.strip_key (.mk ⟨[⟨[⟨"PB", ["Black"]⟩, ⟨"PW", ["White"]⟩]⟩]⟩ []) "PB"
        = .mk ⟨[⟨[⟨"PB", [""]⟩, ⟨"PW", ["White"]⟩]⟩]⟩ []
      ∧ GameTree.strip_key (.mk ⟨[⟨[⟨"PW", ["White"]⟩]⟩]⟩ []) "PB"
        = .mk ⟨[⟨[⟨"PW", ["White"]⟩]⟩]⟩ [] := by
  constructor
  · rw [(c3_strip_key_correct (.mk ⟨[⟨[⟨"PB", ["Black"]⟩, ⟨"PW", ["White"]⟩]⟩]⟩ []) "PB").1]
    rw [GameTree.mapProps_mk]
    simp
  · exact (c3_strip_key_correct (.mk ⟨[⟨[⟨"PW", ["White"]⟩]⟩]⟩ []) "PB").2
      (by rw [GameTree.mentions_mk]; simp)

/-! ### Claim C6: `Parser::peek` / `Parser::read` past the end. -/

/-- Bridge between the indexed cursor and the remaining-suffix view:
`peek(0)` never panics and is the head of the remaining suffix, and `read`
returns the head of the remaining suffix and advances to its tail. -/
theorem Parser.peek_zero_read_bridge (toks : List Token) (cur : Nat)
    (h : toks.length < 2 ^ 64) :
    Parser.peek ⟨toks, cur⟩ 0 = some (peekTok (toks.drop cur))
      ∧ (Parser.read ⟨toks, cur⟩).1 = (pread (toks.drop cur)).1
      ∧ (Parser.read ⟨toks, cur⟩).2.1.drop (Parser.read ⟨toks, cur⟩).2.2
          = (pread (toks.drop cur)).2 := by
  have hp : ∀ l : List Token, peekTok l = l.head?.getD Token.Eof := by
    intro l
    cases l <;> rfl
  have hsub : usizeSub toks.length 0 = toks.length := by
    unfold usizeSub
    omega
  refine ⟨?_, ?_, ?_⟩
  · rw [Parser.peek]
    simp only [hsub]
    by_cases hc : cur < toks.length
    · have : (cur + 0) % 2 ^ 64 = cur := by omega
      rw [if_pos hc, this, hp, List.head?_drop, List.getElem?_eq_getElem hc]
      rfl
    · rw [if_neg hc, hp, List.head?_drop, List.getElem?_eq_none (by omega)]
      rfl
  · rw [Parser.read]
    by_cases hc : toks.length ≤ cur
    · rw [if_pos hc]
      have : toks.drop cur = [] := List.drop_eq_nil_of_le hc
      rw [this]
      rfl
    · rw [if_neg hc]
      have h1 : toks.getD cur Token.Eof = toks.head?.getD Token.Eof ∨ True := Or.inr trivial
      have hc' : cur < toks.length := by omega
      have : toks.getD cur Token.Eof = (toks.drop cur).head?.getD Token.Eof := by
        rw [List.head?_drop, List.getD_eq_getElem?_getD]
      rw [this, ← hp]
      cases hde : toks.drop cur with
      | nil =>
        have := List.drop_eq_nil_iff.mp hde
        omega
      | cons a l => rfl
  · rw [Parser.read]
    by_cases hc : toks.length ≤ cur
    · rw [if_pos hc]
      have h1 : toks.drop cur = [] := List.drop_eq_nil_of_le hc
      have h2 : toks.drop (cur + 1) = [] := List.drop_eq_nil_of_le (by omega)
      rw [h1, h2]
      rfl
    · rw [if_neg hc]
      have : (pread (toks.drop cur)).2 = (toks.drop cur).tail := by
        cases toks.drop cur <;> rfl
      rw [this, List.tail_drop]

/-- Counterexample to C6 as stated: with an empty token buffer, `peek(1)`
computes `0 - 1` in wrapping `usize` arithmetic and then indexes out of
bounds (a panic, modelled as `none`) instead of returning `Token::Eof`. -/
theorem c6_counterexample :
    Parser.peek ⟨[], 0⟩ 1 = none ∧ ¬Parser.peek ⟨[], 0⟩ 1 = some Token.Eof := by
  constructor
  · rfl
  · intro h
    exact Option.noConfusion ((rfl : (none : Option Token) = Parser.peek ⟨[], 0⟩ 1).trans h)

/-- C6 (amended): as long as the lookahead distance does not exceed the
buffer length (so that `tokens.len() - n` does not underflow), `peek`
never panics and returns the end-of-input sentinel exactly when
`cur + n` is at or past the end; `read` past the end always returns the
sentinel and never fails. -/
theorem c6_peek_read_eof (toks : List Token) (cur n : Nat)
    (hlen : toks.length < 2 ^ 64) (hn : n ≤ toks.length) :
    (∃ t, Parser.peek ⟨toks, cur⟩ n = some t)
      ∧ (toks.length ≤ cur + n → Parser.peek ⟨toks, cur⟩ n = some Token.Eof)
      ∧ (toks.length ≤ cur → (Parser.read ⟨toks, cur⟩).1 = Token.Eof) := by
  have hsub : usizeSub toks.length n = toks.length - n := by
    unfold usizeSub
    omega
  refine ⟨?_, ?_, ?_⟩
  · rw [Parser.peek]
    simp only [hsub]
    by_cases hc : cur < toks.length - n
    · rw [if_pos hc]
      have hlt : cur + n < toks.length := by omega
      have : (cur + n) % 2 ^ 64 = cur + n := by omega
      rw [this, List.getElem?_eq_getElem hlt]
      exact ⟨_, rfl⟩
    · rw [if_neg hc]
      exact ⟨_, rfl⟩
  · intro hpast
    rw [Parser.peek]
    simp only [hsub]
    rw [if_neg (by omega)]
  · intro hpast
    rw [Parser.read, if_pos hpast]

/-- Witness for C6 (amended) at a concrete state: one token, cursor `5`. -/
theorem c6_peek_read_eof_witness :
    (∃ t, Parser.peek ⟨[Token.Semicolon ⟨1, 1⟩], 5⟩ 1 = some t)
      ∧ ([Token.Semicolon ⟨1, 1⟩].length ≤ 5 + 1 →
          Parser.peek ⟨[Token.Semicolon ⟨1, 1⟩], 5⟩ 1 = some Token.Eof)
      ∧ ([Token.Semicolon ⟨1, 1⟩].length ≤ 5 →
          (Parser.read ⟨[Token.Semicolon ⟨1, 1⟩], 5⟩).1 = Token.Eof) :=
  c6_peek_read_eof [Token.Semicolon ⟨1, 1⟩] 5 1 (by norm_num) (by norm_num)

/-! ### Claim C5: the escaped bracket example. -/

/-- Counterexample to C5 as stated: the value text of `(;ZZ[aoeu [1k\]])`
does contain the escaping backslash (the `Display` of an `Escaped` token
keeps it), so the parenthetical "the escaping backslash is not part of the
value text" fails. -/
theorem c5_counterexample :
    parseInput "(;ZZ[aoeu [1k\\]])" =
        .ok ⟨[.mk ⟨[⟨[⟨"ZZ", ["aoeu [1k\\]"]⟩]⟩]⟩ []]⟩
      ∧ '\\' ∈ "aoeu [1k\\]".data := by
  exact ⟨rfl, by decide⟩

/-- C5 (amended): parsing `(;ZZ[aoeu [1k\]])` succeeds with exactly one
property `ZZ` holding exactly one value, whose text contains the literal
`[`, a `]` character, and the escaping backslash immediately before it
(`Token::Escaped` renders backslash-then-character). -/
theorem c5_escaped_value :
    parseInput "(;ZZ[aoeu [1k\\]])" =
        .ok ⟨[.mk ⟨[⟨[⟨"ZZ", ["aoeu [1k\\]"]⟩]⟩]⟩ []]⟩
      ∧ ']' ∈ "aoeu [1k\\]".data ∧ '[' ∈ "aoeu [1k\\]".data
      ∧ List.IsInfix ['\\', ']'] "aoeu [1k\\]".data := by
  refine ⟨rfl, by decide, by decide, ⟨['a', 'o', 'e', 'u', ' ', '[', '1', 'k'], [], by decide⟩⟩

/-! ### Claim C8: identifier case sensitivity. -/

/-- `create_error` always produces the `ParseError` variant. -/
theorem create_error_is_parseError (ctx : PCtx) (rem : List Token) (msg : String) :
    ∃ m, create_error ctx rem msg = .parseError m := by
  unfold create_error
  by_cases h : ctx.tokens.length = 0
  · rw [if_pos h]
    exact ⟨_, rfl⟩
  · rw [if_neg h]
    cases rem with
    | nil => exact ⟨_, rfl⟩
    | cons t r => exact ⟨_, rfl⟩

/-- `unexpected` always produces the `ParseError` variant. -/
theorem unexpected_is_parseError (ctx : PCtx) (rem : List Token) (msg : String) :
    ∃ m, unexpected ctx rem msg = .parseError m :=
  create_error_is_parseError ctx (pread rem).2 _

/-- C8: `(;GM[1])` parses successfully; `(;gm[1])` fails with a parse error
at the lowercase identifier; and in general `parse_propident` rejects any
lookahead that is not an all-uppercase identifier token. -/
theorem c8_case_sensitive :
    parseInput "(;GM[1])" = .ok ⟨[.mk ⟨[⟨[⟨"GM", ["1"]⟩]⟩]⟩ []]⟩
      ∧ parseInput "(;gm[1])" =
          .error (.parseError "parse_error at (1:4): unexpected gm in parse_gametree")
      ∧ (∀ (ctx : PCtx) (rem : List Token),
          (∀ p s, peekTok rem ≠ Token.UcLetter p s) →
          ∃ msg, parse_propident ctx rem = .error (.parseError msg)) := by
  refine ⟨rfl, rfl, ?_⟩
  intro ctx rem h
  have key : parse_propident ctx rem =
      .error (create_error ctx (pread rem).2 "expected uppercase identifier") := by
    cases rem with
    | nil => rfl
    | cons t r =>
      cases t with
      | UcLetter p s => exact absurd rfl (h p s)
      | Eof => rfl
      | Whitespace => rfl
      | Newline p => rfl
      | Identifier p s => rfl
      | OpenParen p => rfl
      | CloseParen p => rfl
      | OpenSquare p => rfl
      | CloseSquare p => rfl
      | Semicolon p => rfl
      | Float p f => rfl
      | Integer p i => rfl
      | Escaped p s => rfl
      | Ascii p s => rfl
      | Bytes p s => rfl
  obtain ⟨m, hm⟩ := create_error_is_parseError ctx (pread rem).2 "expected uppercase identifier"
  exact ⟨m, by rw [key, hm]⟩

/-- Witness for C8 at the lowercase identifier token of `(;gm[1])`. -/
theorem c8_case_sensitive_witness :
    ∃ msg, parse_propident ⟨[]⟩ [Token.Identifier ⟨1, 4⟩ "gm"] = .error (.parseError msg) := by
  refine c8_case_sensitive.2.2 ⟨[]⟩ [Token.Identifier ⟨1, 4⟩ "gm"] ?_
  intro p s h
  exact Token.noConfusion h

/-! ### Scanner run lemmas: maximal whitespace/newline/digit runs. -/

theorem wsChar_cases {c : Char} (h : isWsChar c = true) : c = ' ' ∨ c = '\t' ∨ c = '\r' := by
  simpa [isWsChar, decide_eq_true_eq] using h

theorem ws_dispatch {c : Char} (h : isWsChar c = true) : c ≠ '\x00' := by
  rcases wsChar_cases h with rfl | rfl | rfl <;> decide

theorem digit_dispatch {c : Char} (h : isDigitChar c = true) :
    c ≠ '\x00' ∧ isWsChar c = false ∧ c ≠ '\n' ∧ c ≠ '\\'
      ∧ c ≠ '(' ∧ c ≠ ')' ∧ c ≠ '[' ∧ c ≠ ']' := by
  simp only [isDigitChar, decide_eq_true_eq] at h
  obtain ⟨h1, h2⟩ := h
  refine ⟨?_, ?_, ?_, ?_, ?_, ?_, ?_, ?_⟩
  · intro hc; subst hc; revert h1 h2; decide
  · rw [show (false : Bool) = decide False from rfl]
    simp only [isWsChar]
    rw [decide_eq_decide]
    constructor
    · rintro (rfl | rfl | rfl) <;> revert h1 h2 <;> decide
    · exact False.elim
  · intro hc; subst hc; revert h1 h2; decide
  · intro hc; subst hc; revert h1 h2; decide
  · intro hc; subst hc; revert h1 h2; decide
  · intro hc; subst hc; revert h1 h2; decide
  · intro hc; subst hc; revert h1 h2; decide
  · intro hc; subst hc; revert h1 h2; decide

theorem scan_whitespace_run : ∀ (w rest : List Char) (p : Position),
    (∀ c ∈ w, isWsChar c = true) → isWsChar (rest.headD '\x00') = false →
    ∃ q, scan_whitespace (w ++ rest) p = ⟨rest, q⟩
  | [], rest, p, _, hr => by
    cases rest with
    | nil => exact ⟨p, rfl⟩
    | cons c r =>
      simp only [List.headD_cons] at hr
      refine ⟨p, ?_⟩
      simp [scan_whitespace, hr]
  | c :: w, rest, p, hw, hr => by
    have hc := hw c (List.mem_cons_self c w)
    obtain ⟨q, hq⟩ := scan_whitespace_run w rest (posAdvance p c)
      (fun x hx => hw x (List.mem_cons_of_mem c hx)) hr
    refine ⟨q, ?_⟩
    rw [List.cons_append]
    simp only [scan_whitespace, hc]
    simpa using hq

theorem scan_newlines_run : ∀ (w rest : List Char) (p : Position),
    (∀ c ∈ w, c = '\n') → (rest.headD '\x00' ≠ '\n') →
    ∃ q, scan_newlines (w ++ rest) p = ⟨rest, q⟩
  | [], rest, p, _, hr => by
    cases rest with
    | nil => exact ⟨p, by simp [scan_newlines]⟩
    | cons c r =>
      simp only [List.headD_cons] at hr
      refine ⟨p, ?_⟩
      simp [scan_newlines, hr]
  | c :: w, rest, p, hw, hr => by
    have hc := hw c (List.mem_cons_self c w)
    subst hc
    obtain ⟨q, hq⟩ := scan_newlines_run w rest (posAdvance p '\n')
      (fun x hx => hw x (List.mem_cons_of_mem _ hx)) hr
    refine ⟨q, ?_⟩
    rw [List.cons_append]
    simp only [scan_newlines]
    simpa using hq

theorem scanDigitRun_run : ∀ (ds rest : List Char) (p : Position),
    (∀ c ∈ ds, isDigitChar c = true) → isDigitChar (rest.headD '\x00') = false →
    ∃ q, scanDigitRun (ds ++ rest) p = (ds, ⟨rest, q⟩)
  | [], rest, p, _, hr => by
    cases rest with
    | nil => exact ⟨p, rfl⟩
    | cons c r =>
      simp only [List.headD_cons] at hr
      refine ⟨p, ?_⟩
      simp [scanDigitRun, hr]
  | c :: ds, rest, p, hd, hr => by
    have hc := hd c (List.mem_cons_self c ds)
    obtain ⟨q, hq⟩ := scanDigitRun_run ds rest (posAdvance p c)
      (fun x hx => hd x (List.mem_cons_of_mem c hx)) hr
    refine ⟨q, ?_⟩
    rw [List.cons_append]
    simp only [scanDigitRun, hc]
    simp [hq]

theorem scan_token_ws_run (w rest : List Char) (p : Position) (hne : w ≠ [])
    (hw : ∀ c ∈ w, isWsChar c = true) (hr : isWsChar (rest.headD '\x00') = false) :
    ∃ q, scan_token ⟨w ++ rest, p⟩ = (⟨rest, q⟩, .ok Token.Whitespace) := by
  obtain ⟨c, w', rfl⟩ := List.exists_cons_of_ne_nil hne
  have hc := hw c (List.mem_cons_self c w')
  have h0 : ¬(c = '\x00') := ws_dispatch hc
  obtain ⟨q, hq⟩ := scan_whitespace_run (c :: w') rest p hw hr
  refine ⟨q, ?_⟩
  rw [List.cons_append]
  simp only [scan_token, speek, List.headD_cons]
  rw [if_neg h0, if_pos hc]
  simpa using hq

theorem scan_token_nl_run (w rest : List Char) (p : Position) (hne : w ≠ [])
    (hw : ∀ c ∈ w, c = '\n') (hr : rest.headD '\x00' ≠ '\n') :
    ∃ q, scan_token ⟨w ++ rest, p⟩ = (⟨rest, q⟩, .ok (Token.Newline q)) := by
  obtain ⟨c, w', rfl⟩ := List.exists_cons_of_ne_nil hne
  have hc := hw c (List.mem_cons_self c w')
  subst hc
  obtain ⟨q, hq⟩ := scan_newlines_run ('\n' :: w') rest p hw hr
  refine ⟨q, ?_⟩
  rw [List.cons_append]
  simp only [scan_token, speek, List.headD_cons]
  rw [if_neg (by decide), if_neg (by decide), if_pos trivial]
  have hq' : scan_newlines ('\n' :: (w' ++ rest)) p = ⟨rest, q⟩ := by simpa using hq
  simp [hq']

theorem scan_token_digit_run (ds rest : List Char) (p : Position) (hne : ds ≠ [])
    (hd : ∀ c ∈ ds, isDigitChar c = true) (hr : isDigitChar (rest.headD '\x00') = false) :
    ∃ q, scan_token ⟨ds ++ rest, p⟩ =
      (⟨rest, q⟩,
        if natOfDigits ds < 2 ^ 64 then .ok (Token.Integer q (natOfDigits ds))
        else .error (.scanError "number too large to fit in target type")) := by
  obtain ⟨c, ds', rfl⟩ := List.exists_cons_of_ne_nil hne
  have hc := hd c (List.mem_cons_self c ds')
  obtain ⟨h0, h1, h2, h3, h4, h5, h6, h7⟩ := digit_dispatch hc
  obtain ⟨q, hq⟩ := scanDigitRun_run (c :: ds') rest p hd hr
  refine ⟨q, ?_⟩
  rw [List.cons_append]
  simp only [scan_token, speek, List.headD_cons]
  rw [if_neg h0, if_neg (by simp [h1]), if_neg h2, if_neg h3, if_neg h4, if_neg h5,
    if_neg h6, if_neg h7, if_pos hc]
  have hq' : scanDigitRun (c :: (ds' ++ rest)) p = (c :: ds', ⟨rest, q⟩) := by simpa using hq
  simp only [scan_number, hq']
  by_cases hb : natOfDigits (c :: ds') < 2 ^ 64
  · rw [if_pos hb, if_pos hb]
  · rw [if_neg hb, if_neg hb]

/-! ### Claim C4: whitespace inside bracketed values. -/

/-- Counterexample to C4 as stated: a run of two spaces inside a value is
not preserved verbatim; the parsed value of `(;AB[a  b])` is `"a b"`. -/
theorem c4_counterexample :
    parseInput "(;AB[a  b])" = .ok ⟨[.mk ⟨[⟨[⟨"AB", ["a b"]⟩]⟩]⟩ []]⟩
      ∧ ¬("a b" = "a  b") := ⟨rfl, by decide⟩

/-- C4 (amended): inside a bracketed value a maximal run of space/tab/CR
characters is scanned as a single `Whitespace` token whose rendering is one
space, and a maximal run of newlines as a single `Newline` token whose
rendering is one newline, so such runs are normalized rather than preserved
verbatim (a lone space or lone newline is preserved). -/
theorem c4_ws_normalized :
    (∀ (w rest : List Char) (p : Position), w ≠ [] → (∀ c ∈ w, isWsChar c = true) →
      isWsChar (rest.headD '\x00') = false →
      ∃ q, scan_token ⟨w ++ rest, p⟩ = (⟨rest, q⟩, .ok Token.Whitespace))
    ∧ Token.Whitespace.render = " "
    ∧ (∀ (w rest : List Char) (p : Position), w ≠ [] → (∀ c ∈ w, c = '\n') →
      rest.headD '\x00' ≠ '\n' →
      ∃ q, scan_token ⟨w ++ rest, p⟩ = (⟨rest, q⟩, .ok (Token.Newline q)))
    ∧ (∀ p, (Token.Newline p).render = "\n")
    ∧ parseInput "(;AB[a \t\r b])" = .ok ⟨[.mk ⟨[⟨[⟨"AB", ["a b"]⟩]⟩]⟩ []]⟩ :=
  ⟨scan_token_ws_run, rfl, scan_token_nl_run, fun _ => rfl, rfl⟩

/-- Witness for C4 (amended): a two-space run before `'b'`, and a two-newline
run before `'b'`. -/
theorem c4_ws_normalized_witness :
    (∃ q, scan_token ⟨[' ', ' '] ++ ['b'], ⟨1, 5⟩⟩ = (⟨['b'], q⟩, .ok Token.Whitespace))
      ∧ (∃ q, scan_token ⟨['\n', '\n'] ++ ['b'], ⟨1, 5⟩⟩ =
          (⟨['b'], q⟩, .ok (Token.Newline q))) :=
  ⟨c4_ws_normalized.1 [' ', ' '] ['b'] ⟨1, 5⟩ (by decide) (by decide) (by decide),
    c4_ws_normalized.2.2.1 ['\n', '\n'] ['b'] ⟨1, 5⟩ (by decide) (by decide) (by decide)⟩

/-! ### Claim C10: digit runs inside values. -/

/-- C10: a maximal digit run is scanned as one `u64` `Integer` token (a value
at or above `2 ^ 64` is a scan error), an `Integer` token contributes its
canonical decimal rendering to a value text, `KM[0.00]` parses to the value
`"0.0"`, and a too-large digit run makes the whole parse fail. -/
theorem c10_number_tokens :
    (∀ (ds rest : List Char) (p : Position), ds ≠ [] → (∀ c ∈ ds, isDigitChar c = true) →
      isDigitChar (rest.headD '\x00') = false →
      ∃ q, scan_token ⟨ds ++ rest, p⟩ =
        (⟨rest, q⟩,
          if natOfDigits ds < 2 ^ 64 then .ok (Token.Integer q (natOfDigits ds))
          else .error (.scanError "number too large to fit in target type")))
    ∧ (∀ p n, (Token.Integer p n).render = natRender n)
    ∧ parseInput "(;KM[0.00])" = .ok ⟨[.mk ⟨[⟨[⟨"KM", ["0.0"]⟩]⟩]⟩ []]⟩
    ∧ parseInput "(;KM[18446744073709551616])" =
        .error (.parseError "scan_error at (1:25): number too large to fit in target type") :=
  ⟨scan_token_digit_run, fun _ _ => rfl, rfl, rfl⟩

/-- Witness for C10: the two-digit run `07` before a closing bracket scans
to the single integer token `7` (leading zero dropped). -/
theorem c10_number_tokens_witness :
    ∃ q, scan_token ⟨['0', '7'] ++ [']'], ⟨1, 6⟩⟩ =
      (⟨[']'], q⟩,
        if natOfDigits ['0', '7'] < 2 ^ 64 then .ok (Token.Integer q (natOfDigits ['0', '7']))
        else .error (.scanError "number too large to fit in target type")) :=
  c10_number_tokens.1 ['0', '7'] [']'] ⟨1, 6⟩ (by decide) (by decide) (by decide)

/-! ### Claim C2: non-emptiness invariants of parse results. -/


/-- The non-emptiness invariant of a parsed tree: its sequence has at least
one node and every property throughout has at least one value. -/
def GameTree.inv : GameTree → Prop
  | .mk s ts => s.nodes ≠ [] ∧ (∀ n ∈ s.nodes, ∀ p ∈ n.props, p.values ≠ [])
      ∧ ∀ c ∈ ts.attach, GameTree.inv c.1
termination_by t => sizeOf t
decreasing_by
  have := List.sizeOf_lt_of_mem c.2
  simp only [GameTree.mk.sizeOf_spec]
  omega

theorem GameTree.inv_mk (s : Sequence) (ts : List GameTree) :
    GameTree.inv (.mk s ts) ↔
      (s.nodes ≠ [] ∧ (∀ n ∈ s.nodes, ∀ p ∈ n.props, p.values ≠ [])
        ∧ ∀ c ∈ ts, c.inv) := by
  rw [GameTree.inv]
  constructor
  · rintro ⟨h1, h2, h3⟩
    exact ⟨h1, h2, fun c hc => h3 ⟨c, hc⟩ (List.mem_attach _ _)⟩
  · rintro ⟨h1, h2, h3⟩
    exact ⟨h1, h2, fun c _ => h3 c.1 c.2⟩

/-- The non-emptiness invariant of a parsed collection. -/
def Collection.invariant (c : Collection) : Prop :=
  c.gametrees ≠ [] ∧ ∀ t ∈ c.gametrees, t.inv

/-- Splitting an `if`-guarded error: success implies the guard is false. -/
theorem ite_error_ok {α : Type} {c : Prop} [Decidable c] {e : ParserError} {x y : α}
    (h : (if c then Except.error e else Except.ok x) = Except.ok y) : ¬c ∧ x = y := by
  split at h
  · exact Except.noConfusion h
  · exact ⟨by assumption, by rwa [Except.ok.injEq] at h⟩

theorem parse_property_values (ctx : PCtx) (rem : List Token) (p : Property) (r : List Token)
    (h : parse_property ctx rem = .ok (p, r)) : p.values ≠ [] := by
  simp only [parse_property] at h
  split at h
  · exact Except.noConfusion h
  · split at h
    · exact Except.noConfusion h
    · obtain ⟨hlen, heq⟩ := ite_error_ok h
      rw [Prod.mk.injEq] at heq
      obtain ⟨rfl, rfl⟩ := heq
      intro hnil
      exact hlen (by simpa using congrArg List.length hnil)

theorem propLoopF_values (ctx : PCtx) : ∀ (fuel : Nat) (rem : List Token)
    (acc : List Property) (props : List Property) (r : List Token),
    propLoopF ctx fuel rem acc = .ok (props, r) →
    (∀ p ∈ acc, p.values ≠ []) → ∀ p ∈ props, p.values ≠ []
  | 0, rem, acc, props, r, h, hacc => by exact Except.noConfusion h
  | fuel + 1, rem, acc, props, r, h, hacc => by
    rw [propLoopF] at h
    split at h
    · split at h
      · exact Except.noConfusion h
      · rename_i prop rem1 hp
        refine propLoopF_values ctx fuel _ _ props r h ?_
        intro p hp'
        rcases List.mem_append.mp hp' with hl | hr
        · exact hacc p hl
        · rw [List.mem_singleton] at hr
          subst hr
          exact parse_property_values ctx _ p rem1 hp
    · rw [Except.ok.injEq, Prod.mk.injEq] at h
      obtain ⟨rfl, rfl⟩ := h
      exact hacc

theorem parse_node_values (ctx : PCtx) (rem : List Token) (n : Node) (r : List Token)
    (h : parse_node ctx rem = .ok (n, r)) : ∀ p ∈ n.props, p.values ≠ [] := by
  simp only [parse_node] at h
  split at h
  · exact Except.noConfusion h
  · rename_i props rem3 hp
    rw [Except.ok.injEq, Prod.mk.injEq] at h
    obtain ⟨⟨rfl⟩, _⟩ := h
    exact propLoopF_values ctx _ _ [] props rem3 hp (by simp)

theorem nodeLoopF_values (ctx : PCtx) : ∀ (fuel : Nat) (rem : List Token)
    (acc : List Node) (nodes : List Node) (r : List Token),
    nodeLoopF ctx fuel rem acc = .ok (nodes, r) →
    (∀ n ∈ acc, ∀ p ∈ n.props, p.values ≠ []) →
    ∀ n ∈ nodes, ∀ p ∈ n.props, p.values ≠ []
  | 0, rem, acc, nodes, r, h, hacc => by exact Except.noConfusion h
  | fuel + 1, rem, acc, nodes, r, h, hacc => by
    rw [nodeLoopF] at h
    split at h
    · split at h
      · exact Except.noConfusion h
      · rename_i nd rem1 hn
        refine nodeLoopF_values ctx fuel _ _ nodes r h ?_
        intro n hn'
        rcases List.mem_append.mp hn' with hl | hr
        · exact hacc n hl
        · rw [List.mem_singleton] at hr
          subst hr
          exact parse_node_values ctx _ n rem1 hn
    · rw [Except.ok.injEq, Prod.mk.injEq] at h
      obtain ⟨rfl, rfl⟩ := h
      exact hacc

theorem parse_sequence_inv (ctx : PCtx) (rem : List Token) (s : Sequence) (r : List Token)
    (h : parse_sequence ctx rem = .ok (s, r)) :
    s.nodes ≠ [] ∧ ∀ n ∈ s.nodes, ∀ p ∈ n.props, p.values ≠ [] := by
  simp only [parse_sequence] at h
  split at h
  · exact Except.noConfusion h
  · rename_i nodes rem1 hn
    obtain ⟨hlen, heq⟩ := ite_error_ok h
    rw [Prod.mk.injEq] at heq
    obtain ⟨rfl, rfl⟩ := heq
    refine ⟨fun hnil => hlen (by simpa using congrArg List.length hnil), ?_⟩
    exact nodeLoopF_values ctx _ _ [] nodes rem1 hn (by simp)


theorem pg_child_inv (ctx : PCtx) : ∀ (fuel : Nat),
    (∀ rem t r, pgF ctx fuel rem = .ok (t, r) → t.inv)
    ∧ (∀ rem acc trees r, childLoopF ctx fuel rem acc = .ok (trees, r) →
        (∀ t ∈ acc, t.inv) → ∀ t ∈ trees, t.inv)
  | 0 =>
    ⟨fun _ _ _ h => Except.noConfusion h, fun _ _ _ _ h _ => Except.noConfusion h⟩
  | fuel + 1 => by
    obtain ⟨ihp, ihc⟩ := pg_child_inv ctx fuel
    constructor
    · intro rem t r h
      rw [pgF] at h
      split at h
      · exact Except.noConfusion h
      · rename_i seq rem3 hseq
        split at h
        · exact Except.noConfusion h
        · rename_i trees rem5 hch
          rw [Except.ok.injEq, Prod.mk.injEq] at h
          obtain ⟨rfl, rfl⟩ := h
          rw [GameTree.inv_mk]
          obtain ⟨h1, h2⟩ := parse_sequence_inv ctx _ seq _ hseq
          exact ⟨h1, h2, ihc _ [] trees _ hch (by simp)⟩
    · intro rem acc trees r h hacc
      rw [childLoopF] at h
      split at h
      · split at h
        · exact Except.noConfusion h
        · rename_i t1 rem1 hpg
          refine ihc _ _ trees r h ?_
          intro t ht
          rcases List.mem_append.mp ht with hl | hr
          · exact hacc t hl
          · rw [List.mem_singleton] at hr
            subst hr
            exact ihp _ t rem1 hpg
      · rw [Except.ok.injEq, Prod.mk.injEq] at h
        obtain ⟨rfl, rfl⟩ := h
        exact hacc
      · exact Except.noConfusion h

theorem parse_gametree_inv (ctx : PCtx) (rem : List Token) (t : GameTree) (r : List Token)
    (h : parse_gametree ctx rem = .ok (t, r)) : t.inv :=
  (pg_child_inv ctx (2 * rem.length + 2)).1 rem t r h

theorem treeLoopF_inv (ctx : PCtx) : ∀ (fuel : Nat) (rem : List Token)
    (acc trees : List GameTree) (r : List Token),
    treeLoopF ctx fuel rem acc = .ok (trees, r) →
    (∀ t ∈ acc, t.inv) → ∀ t ∈ trees, t.inv
  | 0, _, _, _, _, h, _ => Except.noConfusion h
  | fuel + 1, rem, acc, trees, r, h, hacc => by
    rw [treeLoopF] at h
    split at h
    · split at h
      · exact Except.noConfusion h
      · rename_i t1 rem1 hpg
        refine treeLoopF_inv ctx fuel _ _ trees r h ?_
        intro t ht
        rcases List.mem_append.mp ht with hl | hr
        · exact hacc t hl
        · rw [List.mem_singleton] at hr
          subst hr
          exact parse_gametree_inv ctx _ t rem1 hpg
    · rw [Except.ok.injEq, Prod.mk.injEq] at h
      obtain ⟨rfl, rfl⟩ := h
      exact hacc

theorem parse_invariant (ctx : PCtx) (rem : List Token) (c : Collection)
    (h : parse ctx rem = .ok c) : Collection.invariant c := by
  simp only [parse] at h
  split at h
  · exact Except.noConfusion h
  · rename_i gametrees rem3 ht
    obtain ⟨hlen, heq⟩ := ite_error_ok h
    subst heq
    refine ⟨fun hnil => hlen (by simpa using congrArg List.length hnil), ?_⟩
    exact treeLoopF_inv ctx _ _ [] gametrees rem3 ht (by simp)

/-- C2: whenever the public parse entry point succeeds, the resulting
collection has at least one game tree, every sequence in it has at least one
node, and every property has at least one value (inputs violating these
produce a parse error, never a degenerate success). -/
theorem c2_nonempty_invariants (input : String) (c : Collection)
    (h : parseInput input = .ok c) : Collection.invariant c := by
  simp only [parseInput] at h
  split at h
  · exact Except.noConfusion h
  · exact parse_invariant _ _ c h

/-- Witness for C2 at `(;GM[1])`. -/
theorem c2_nonempty_invariants_witness :
    Collection.invariant ⟨[.mk ⟨[⟨[⟨"GM", ["1"]⟩]⟩]⟩ []]⟩ :=
  c2_nonempty_invariants "(;GM[1])" _ rfl



/-! ### Suffix and extension lemmas for the parser, used for the
leading-garbage (C7) and trailing-garbage (C9) claims. -/

theorem cw_suffix (l : List Token) : consume_whitespace l <:+ l := by
  induction l with
  | nil => exact List.suffix_refl []
  | cons t r ih =>
    rw [consume_whitespace]
    split
    · exact ih.trans (List.suffix_cons t r)
    · exact List.suffix_refl _

theorem pvLoop_suffix (ctx : PCtx) : ∀ (rem : List Token) (s v : String) (r : List Token),
    pvLoop ctx rem s = .ok (v, r) → r <:+ rem
  | [], _, v, r, h => Except.noConfusion h
  | t :: rem, s, v, r, h => by
    cases t
    case CloseSquare p =>
      have h1 : (Except.ok (s, Token.CloseSquare p :: rem) :
          Except ParserError (String × List Token)) = .ok (v, r) := h
      rw [Except.ok.injEq, Prod.mk.injEq] at h1
      obtain ⟨rfl, rfl⟩ := h1
      exact List.suffix_refl _
    case Eof => exact Except.noConfusion h
    all_goals exact (pvLoop_suffix ctx rem _ v r h).trans (List.suffix_cons _ rem)

theorem parse_propvalue_suffix (ctx : PCtx) (rem : List Token) (v : String) (r : List Token)
    (h : parse_propvalue ctx rem = .ok (v, r)) : r <:+ rem := by
  simp only [parse_propvalue] at h
  split at h
  · rename_i p hpk
    split at h
    · exact Except.noConfusion h
    · rename_i s rem2 hpv
      split at h
      · rename_i q hck
        rw [Except.ok.injEq, Prod.mk.injEq] at h
        obtain ⟨rfl, rfl⟩ := h
        cases rem with
        | nil => exact Token.noConfusion hpk
        | cons t rem1 =>
          have h1 : (pread rem2).2 <:+ rem2 := by
            cases rem2 with
            | nil => exact Token.noConfusion hck
            | cons u rem3 => exact List.suffix_cons u rem3
          have h2 : rem2 <:+ rem1 := pvLoop_suffix ctx rem1 "" s rem2 hpv
          exact (h1.trans h2).trans (List.suffix_cons t rem1)
      · exact Except.noConfusion h
  · exact Except.noConfusion h

theorem parse_propident_suffix (ctx : PCtx) (rem : List Token) (v : String) (r : List Token)
    (h : parse_propident ctx rem = .ok (v, r)) : r <:+ rem := by
  cases rem with
  | nil => exact Except.noConfusion h
  | cons t rem1 =>
    cases t
    case UcLetter p s =>
      have h1 : (Except.ok (s, rem1) : Except ParserError (String × List Token)) = .ok (v, r) := h
      rw [Except.ok.injEq, Prod.mk.injEq] at h1
      obtain ⟨rfl, rfl⟩ := h1
      exact List.suffix_cons _ _
    all_goals exact Except.noConfusion h

theorem valueLoopF_suffix (ctx : PCtx) : ∀ (fuel : Nat) (rem : List Token)
    (acc vs : List String) (r : List Token),
    valueLoopF ctx fuel rem acc = .ok (vs, r) → r <:+ rem
  | 0, _, _, _, _, h => Except.noConfusion h
  | fuel + 1, rem, acc, vs, r, h => by
    rw [valueLoopF] at h
    split at h
    · split at h
      · exact Except.noConfusion h
      · rename_i v rem1 hpv
        have h1 := valueLoopF_suffix ctx fuel _ _ vs r h
        have h2 := cw_suffix rem1
        have h3 := parse_propvalue_suffix ctx rem v rem1 hpv
        exact (h1.trans h2).trans h3
    · rw [Except.ok.injEq, Prod.mk.injEq] at h
      obtain ⟨rfl, rfl⟩ := h
      exact List.suffix_refl _

theorem parse_property_suffix (ctx : PCtx) (rem : List Token) (p : Property) (r : List Token)
    (h : parse_property ctx rem = .ok (p, r)) : r <:+ rem := by
  simp only [parse_property] at h
  split at h
  · exact Except.noConfusion h
  · rename_i id rem1 hid
    split at h
    · exact Except.noConfusion h
    · rename_i vs rem3 hvl
      obtain ⟨hlen, heq⟩ := ite_error_ok h
      rw [Prod.mk.injEq] at heq
      obtain ⟨rfl, rfl⟩ := heq
      have h1 := valueLoopF_suffix ctx _ _ _ _ _ hvl
      have h2 := cw_suffix rem1
      have h3 := parse_propident_suffix ctx rem id rem1 hid
      exact (h1.trans h2).trans h3

theorem propLoopF_suffix (ctx : PCtx) : ∀ (fuel : Nat) (rem : List Token)
    (acc ps : List Property) (r : List Token),
    propLoopF ctx fuel rem acc = .ok (ps, r) → r <:+ rem
  | 0, _, _, _, _, h => Except.noConfusion h
  | fuel + 1, rem, acc, ps, r, h => by
    rw [propLoopF] at h
    split at h
    · split at h
      · exact Except.noConfusion h
      · rename_i p rem1 hp
        have h1 := propLoopF_suffix ctx fuel _ _ ps r h
        have h2 := cw_suffix rem1
        have h3 := parse_property_suffix ctx rem p rem1 hp
        exact (h1.trans h2).trans h3
    · rw [Except.ok.injEq, Prod.mk.injEq] at h
      obtain ⟨rfl, rfl⟩ := h
      exact List.suffix_refl _

theorem parse_node_suffix (ctx : PCtx) (rem : List Token) (n : Node) (r : List Token)
    (h : parse_node ctx rem = .ok (n, r)) : r <:+ rem := by
  simp only [parse_node] at h
  split at h
  · exact Except.noConfusion h
  · rename_i ps rem3 hpl
    rw [Except.ok.injEq, Prod.mk.injEq] at h
    obtain ⟨rfl, rfl⟩ := h
    have h1 := propLoopF_suffix ctx _ _ _ _ _ hpl
    have h2 := cw_suffix (pread rem).2
    have h3 : (pread rem).2 <:+ rem := by
      cases rem with
      | nil => exact List.suffix_refl _
      | cons t r1 => exact List.suffix_cons t r1
    exact (h1.trans h2).trans h3

theorem nodeLoopF_suffix (ctx : PCtx) : ∀ (fuel : Nat) (rem : List Token)
    (acc ns : List Node) (r : List Token),
    nodeLoopF ctx fuel rem acc = .ok (ns, r) → r <:+ rem
  | 0, _, _, _, _, h => Except.noConfusion h
  | fuel + 1, rem, acc, ns, r, h => by
    rw [nodeLoopF] at h
    split at h
    · split at h
      · exact Except.noConfusion h
      · rename_i n rem1 hn
        have h1 := nodeLoopF_suffix ctx fuel _ _ ns r h
        have h2 := cw_suffix rem1
        have h3 := parse_node_suffix ctx rem n rem1 hn
        exact (h1.trans h2).trans h3
    · rw [Except.ok.injEq, Prod.mk.injEq] at h
      obtain ⟨rfl, rfl⟩ := h
      exact List.suffix_refl _

theorem parse_sequence_suffix (ctx : PCtx) (rem : List Token) (s : Sequence) (r : List Token)
    (h : parse_sequence ctx rem = .ok (s, r)) : r <:+ rem := by
  simp only [parse_sequence] at h
  split at h
  · exact Except.noConfusion h
  · rename_i ns rem1 hnl
    obtain ⟨hlen, heq⟩ := ite_error_ok h
    rw [Prod.mk.injEq] at heq
    obtain ⟨rfl, rfl⟩ := heq
    exact nodeLoopF_suffix ctx _ _ _ _ _ hnl



theorem pg_child_suffix (ctx : PCtx) : ∀ (fuel : Nat),
    (∀ rem t r, pgF ctx fuel rem = .ok (t, r) → r <:+ rem)
    ∧ (∀ rem acc trees r, childLoopF ctx fuel rem acc = .ok (trees, r) → r <:+ rem)
  | 0 => ⟨fun _ _ _ h => Except.noConfusion h, fun _ _ _ _ h => Except.noConfusion h⟩
  | fuel + 1 => by
    obtain ⟨ihp, ihc⟩ := pg_child_suffix ctx fuel
    constructor
    · intro rem t r h
      rw [pgF] at h
      split at h
      · exact Except.noConfusion h
      · rename_i seq rem3 hseq
        split at h
        · exact Except.noConfusion h
        · rename_i trees rem5 hch
          rw [Except.ok.injEq, Prod.mk.injEq] at h
          obtain ⟨rfl, rfl⟩ := h
          have h1 := ihc _ _ trees rem5 hch
          have h2 := cw_suffix rem3
          have h3 := parse_sequence_suffix ctx _ seq rem3 hseq
          have h4 := cw_suffix (pread rem).2
          have h5 : (pread rem).2 <:+ rem := by
            cases rem with
            | nil => exact List.suffix_refl _
            | cons a b => exact List.suffix_cons a b
          exact (((h1.trans h2).trans h3).trans h4).trans h5
    · intro rem acc trees r h
      rw [childLoopF] at h
      split at h
      · split at h
        · exact Except.noConfusion h
        · rename_i t1 rem1 hpg
          have h1 := ihc _ _ trees r h
          have h2 := cw_suffix rem1
          have h3 := ihp _ t1 rem1 hpg
          exact (h1.trans h2).trans h3
      · rename_i q hck
        rw [Except.ok.injEq, Prod.mk.injEq] at h
        obtain ⟨rfl, rfl⟩ := h
        cases rem with
        | nil => exact Token.noConfusion hck
        | cons u r1 => exact List.suffix_cons u r1
      · exact Except.noConfusion h

theorem parse_gametree_suffix (ctx : PCtx) (rem : List Token) (t : GameTree) (r : List Token)
    (h : parse_gametree ctx rem = .ok (t, r)) : r <:+ rem :=
  (pg_child_suffix ctx (2 * rem.length + 2)).1 rem t r h

theorem treeLoopF_suffix (ctx : PCtx) : ∀ (fuel : Nat) (rem : List Token)
    (acc trees : List GameTree) (r : List Token),
    treeLoopF ctx fuel rem acc = .ok (trees, r) → r <:+ rem
  | 0, _, _, _, _, h => Except.noConfusion h
  | fuel + 1, rem, acc, trees, r, h => by
    rw [treeLoopF] at h
    split at h
    · split at h
      · exact Except.noConfusion h
      · rename_i t1 rem1 hpg
        exact (treeLoopF_suffix ctx fuel _ _ trees r h).trans
          (parse_gametree_suffix ctx rem t1 rem1 hpg)
    · rw [Except.ok.injEq, Prod.mk.injEq] at h
      obtain ⟨rfl, rfl⟩ := h
      exact List.suffix_refl _

theorem childLoopF_ok_ne (ctx : PCtx) (fuel : Nat) (acc : List GameTree)
    (x : List GameTree × List Token) (h : childLoopF ctx fuel [] acc = .ok x) : False := by
  cases fuel with
  | zero => exact Except.noConfusion h
  | succ f => exact Except.noConfusion h



theorem cw_append_cons (l : List Token) (x : Token) (r ext : List Token)
    (h : consume_whitespace l = x :: r) :
    consume_whitespace (l ++ ext) = x :: (r ++ ext) := by
  induction l with
  | nil => exact List.noConfusion h
  | cons t l1 ih =>
    rw [consume_whitespace] at h
    rw [List.cons_append, consume_whitespace]
    split at h
    · rename_i hws
      rw [if_pos hws]
      exact ih h
    · rename_i hws
      rw [if_neg hws]
      rw [List.cons.injEq] at h
      obtain ⟨rfl, rfl⟩ := h
      rfl

theorem pvLoop_append (ctx ctx' : PCtx) : ∀ (rem : List Token) (s v : String) (r ext : List Token),
    pvLoop ctx rem s = .ok (v, r) → pvLoop ctx' (rem ++ ext) s = .ok (v, r ++ ext)
  | [], _, v, r, ext, h => Except.noConfusion h
  | t :: rem, s, v, r, ext, h => by
    cases t
    case CloseSquare p =>
      have h1 : (Except.ok (s, Token.CloseSquare p :: rem) :
          Except ParserError (String × List Token)) = .ok (v, r) := h
      rw [Except.ok.injEq, Prod.mk.injEq] at h1
      obtain ⟨rfl, rfl⟩ := h1
      rfl
    case Eof => exact Except.noConfusion h
    all_goals exact pvLoop_append ctx ctx' rem _ v r ext h

theorem parse_propvalue_append (ctx ctx' : PCtx) (rem : List Token) (v : String) (r ext : List Token)
    (h : parse_propvalue ctx rem = .ok (v, r)) :
    parse_propvalue ctx' (rem ++ ext) = .ok (v, r ++ ext) := by
  simp only [parse_propvalue] at h
  split at h
  · rename_i p hpk
    cases rem with
    | nil => exact Token.noConfusion hpk
    | cons t rem1 =>
      have ht : t = Token.OpenSquare p := hpk
      subst ht
      split at h
      · exact Except.noConfusion h
      · rename_i s rem2 hpv
        split at h
        · rename_i q hck
          rw [Except.ok.injEq, Prod.mk.injEq] at h
          obtain ⟨rfl, rfl⟩ := h
          cases rem2 with
          | nil => exact Token.noConfusion hck
          | cons u rem3 =>
            have hu : u = Token.CloseSquare q := hck
            subst hu
            have hpv' := pvLoop_append ctx ctx' rem1 "" s (Token.CloseSquare q :: rem3) ext hpv
            rw [List.cons_append]
            simp only [parse_propvalue, peekTok, pread]
            rw [hpv']
            rfl
        · exact Except.noConfusion h
  · exact Except.noConfusion h

theorem parse_propident_append (ctx ctx' : PCtx) (rem : List Token) (v : String) (r ext : List Token)
    (h : parse_propident ctx rem = .ok (v, r)) :
    parse_propident ctx' (rem ++ ext) = .ok (v, r ++ ext) := by
  cases rem with
  | nil => exact Except.noConfusion h
  | cons t rem1 =>
    cases t
    case UcLetter p s =>
      have h1 : (Except.ok (s, rem1) : Except ParserError (String × List Token)) = .ok (v, r) := h
      rw [Except.ok.injEq, Prod.mk.injEq] at h1
      obtain ⟨rfl, rfl⟩ := h1
      rfl
    all_goals exact Except.noConfusion h



theorem valueLoopF_append (ctx ctx' : PCtx) : ∀ (f f' : Nat) (rem : List Token)
    (acc vs : List String) (r ext : List Token),
    valueLoopF ctx f rem acc = .ok (vs, r) → f ≤ f' → r ≠ [] →
    valueLoopF ctx' f' (rem ++ ext) acc = .ok (vs, r ++ ext)
  | 0, _, _, _, _, _, _, h, _, _ => Except.noConfusion h
  | f + 1, 0, _, _, _, _, _, _, hle, _ => absurd hle (by omega)
  | f + 1, f' + 1, rem, acc, vs, r, ext, h, hle, hne => by
    rw [valueLoopF] at h
    rw [valueLoopF]
    split at h
    · rename_i p hpk
      cases rem with
      | nil => exact Token.noConfusion hpk
      | cons t rem1 =>
        have ht : t = Token.OpenSquare p := hpk
        subst ht
        split at h
        · exact Except.noConfusion h
        · rename_i v rem2 hpv
          have hpv' := parse_propvalue_append ctx ctx' (Token.OpenSquare p :: rem1) v rem2 ext hpv
          have hsuf := valueLoopF_suffix ctx f (consume_whitespace rem2) (acc ++ [v]) vs r h
          have hcw : consume_whitespace rem2 ≠ [] := by
            intro hnil
            rw [hnil] at hsuf
            exact hne (List.suffix_nil.mp hsuf)
          obtain ⟨x, r2, hx⟩ := List.exists_cons_of_ne_nil hcw
          have hcw' := cw_append_cons rem2 x r2 ext hx
          have ih := valueLoopF_append ctx ctx' f f' (consume_whitespace rem2)
            (acc ++ [v]) vs r ext h (by omega) hne
          rw [List.cons_append]
          simp only [peekTok]
          rw [List.cons_append] at hpv'
          rw [hpv']
          show valueLoopF ctx' f' (consume_whitespace (rem2 ++ ext)) (acc ++ [v])
            = .ok (vs, r ++ ext)
          rw [hcw']
          rw [hx, List.cons_append] at ih
          exact ih
    · rename_i hnp
      rw [Except.ok.injEq, Prod.mk.injEq] at h
      obtain ⟨rfl, rfl⟩ := h
      cases rem with
      | nil => exact absurd rfl hne
      | cons x rem1 =>
        rw [List.cons_append]
        cases x
        case OpenSquare p => exact absurd rfl (hnp p)
        all_goals rfl


theorem parse_property_append (ctx ctx' : PCtx) (rem : List Token) (p : Property)
    (r ext : List Token) (h : parse_property ctx rem = .ok (p, r)) (hne : r ≠ []) :
    parse_property ctx' (rem ++ ext) = .ok (p, r ++ ext) := by
  simp only [parse_property] at h
  split at h
  · exact Except.noConfusion h
  · rename_i id rem1 hid
    split at h
    · exact Except.noConfusion h
    · rename_i vs rem3 hvl
      obtain ⟨hlen, heq⟩ := ite_error_ok h
      rw [Prod.mk.injEq] at heq
      obtain ⟨rfl, rfl⟩ := heq
      have hsuf := valueLoopF_suffix ctx _ _ _ _ _ hvl
      have hcw : consume_whitespace rem1 ≠ [] := by
        intro hnil
        rw [hnil] at hsuf
        exact hne (List.suffix_nil.mp hsuf)
      obtain ⟨x, r2, hx⟩ := List.exists_cons_of_ne_nil hcw
      have hceq : consume_whitespace (rem1 ++ ext) = consume_whitespace rem1 ++ ext := by
        rw [cw_append_cons rem1 x r2 ext hx, hx, List.cons_append]
      have hfle : (consume_whitespace rem1).length + 1
          ≤ (consume_whitespace (rem1 ++ ext)).length + 1 := by
        rw [hceq]
        simp
      have ih := valueLoopF_append ctx ctx' _ ((consume_whitespace (rem1 ++ ext)).length + 1)
        (consume_whitespace rem1) [] vs rem3 ext hvl hfle hne
      rw [← hceq] at ih
      simp only [parse_property, parse_propident_append ctx ctx' rem id rem1 ext hid, ih]
      rw [if_neg hlen]

theorem propLoopF_append (ctx ctx' : PCtx) : ∀ (f f' : Nat) (rem : List Token)
    (acc ps : List Property) (r ext : List Token),
    propLoopF ctx f rem acc = .ok (ps, r) → f ≤ f' → r ≠ [] →
    propLoopF ctx' f' (rem ++ ext) acc = .ok (ps, r ++ ext)
  | 0, _, _, _, _, _, _, h, _, _ => Except.noConfusion h
  | f + 1, 0, _, _, _, _, _, _, hle, _ => absurd hle (by omega)
  | f + 1, f' + 1, rem, acc, ps, r, ext, h, hle, hne => by
    rw [propLoopF] at h
    rw [propLoopF]
    split at h
    · rename_i pos ident hpk
      cases rem with
      | nil => exact Token.noConfusion hpk
      | cons t rem1 =>
        have ht : t = Token.UcLetter pos ident := hpk
        subst ht
        split at h
        · exact Except.noConfusion h
        · rename_i pr rem2 hpp
          have hsuf := propLoopF_suffix ctx f (consume_whitespace rem2) (acc ++ [pr]) ps r h
          have hcw : consume_whitespace rem2 ≠ [] := by
            intro hnil
            rw [hnil] at hsuf
            exact hne (List.suffix_nil.mp hsuf)
          obtain ⟨x, r2, hx⟩ := List.exists_cons_of_ne_nil hcw
          have hceq : consume_whitespace (rem2 ++ ext) = consume_whitespace rem2 ++ ext := by
            rw [cw_append_cons rem2 x r2 ext hx, hx, List.cons_append]
          have hrem2ne : rem2 ≠ [] := by
            intro hnil
            rw [hnil] at hcw
            exact hcw rfl
          have hpp' := parse_property_append ctx ctx' (Token.UcLetter pos ident :: rem1) pr rem2
            ext hpp hrem2ne
          rw [List.cons_append] at hpp'
          have ih := propLoopF_append ctx ctx' f f' (consume_whitespace rem2)
            (acc ++ [pr]) ps r ext h (by omega) hne
          rw [← hceq] at ih
          rw [List.cons_append]
          simp only [peekTok]
          rw [hpp']
          exact ih
    · rename_i hnp
      rw [Except.ok.injEq, Prod.mk.injEq] at h
      obtain ⟨rfl, rfl⟩ := h
      cases rem with
      | nil => exact absurd rfl hne
      | cons x rem1 =>
        rw [List.cons_append]
        cases x
        case UcLetter pos s => exact absurd rfl (hnp pos s)
        all_goals rfl



theorem parse_sequence_nil (ctx : PCtx) :
    parse_sequence ctx [] = .error (create_error ctx [] "cannot have empty node list") := rfl

theorem parse_node_append (ctx ctx' : PCtx) (rem : List Token) (n : Node)
    (r ext : List Token) (h : parse_node ctx rem = .ok (n, r)) (hne : r ≠ [])
    (hrem : rem ≠ []) : parse_node ctx' (rem ++ ext) = .ok (n, r ++ ext) := by
  cases rem with
  | nil => exact absurd rfl hrem
  | cons t rem1 =>
    simp only [parse_node, pread] at h
    split at h
    · exact Except.noConfusion h
    · rename_i props rem3 hpl
      rw [Except.ok.injEq, Prod.mk.injEq] at h
      obtain ⟨rfl, rfl⟩ := h
      have hsuf := propLoopF_suffix ctx _ _ _ _ _ hpl
      have hcw : consume_whitespace rem1 ≠ [] := by
        intro hnil
        rw [hnil] at hsuf
        exact hne (List.suffix_nil.mp hsuf)
      obtain ⟨x, r2, hx⟩ := List.exists_cons_of_ne_nil hcw
      have hceq : consume_whitespace (rem1 ++ ext) = consume_whitespace rem1 ++ ext := by
        rw [cw_append_cons rem1 x r2 ext hx, hx, List.cons_append]
      have hfle : (consume_whitespace rem1).length + 1
          ≤ (consume_whitespace (rem1 ++ ext)).length + 1 := by
        rw [hceq]
        simp
      have ih := propLoopF_append ctx ctx' _ ((consume_whitespace (rem1 ++ ext)).length + 1)
        (consume_whitespace rem1) [] props rem3 ext hpl hfle hne
      rw [← hceq] at ih
      rw [List.cons_append]
      simp only [parse_node, pread, ih]

theorem nodeLoopF_append (ctx ctx' : PCtx) : ∀ (f f' : Nat) (rem : List Token)
    (acc ns : List Node) (r ext : List Token),
    nodeLoopF ctx f rem acc = .ok (ns, r) → f ≤ f' → r ≠ [] →
    nodeLoopF ctx' f' (rem ++ ext) acc = .ok (ns, r ++ ext)
  | 0, _, _, _, _, _, _, h, _, _ => Except.noConfusion h
  | f + 1, 0, _, _, _, _, _, _, hle, _ => absurd hle (by omega)
  | f + 1, f' + 1, rem, acc, ns, r, ext, h, hle, hne => by
    rw [nodeLoopF] at h
    rw [nodeLoopF]
    split at h
    · rename_i pos hpk
      cases rem with
      | nil => exact Token.noConfusion hpk
      | cons t rem1 =>
        have ht : t = Token.Semicolon pos := hpk
        subst ht
        split at h
        · exact Except.noConfusion h
        · rename_i nd rem2 hpn
          have hsuf := nodeLoopF_suffix ctx f (consume_whitespace rem2) (acc ++ [nd]) ns r h
          have hcw : consume_whitespace rem2 ≠ [] := by
            intro hnil
            rw [hnil] at hsuf
            exact hne (List.suffix_nil.mp hsuf)
          obtain ⟨x, r2, hx⟩ := List.exists_cons_of_ne_nil hcw
          have hceq : consume_whitespace (rem2 ++ ext) = consume_whitespace rem2 ++ ext := by
            rw [cw_append_cons rem2 x r2 ext hx, hx, List.cons_append]
          have hrem2ne : rem2 ≠ [] := by
            intro hnil
            rw [hnil] at hcw
            exact hcw rfl
          have hpn' := parse_node_append ctx ctx' (Token.Semicolon pos :: rem1) nd rem2
            ext hpn hrem2ne (by simp)
          rw [List.cons_append] at hpn'
          have ih := nodeLoopF_append ctx ctx' f f' (consume_whitespace rem2)
            (acc ++ [nd]) ns r ext h (by omega) hne
          rw [← hceq] at ih
          rw [List.cons_append]
          simp only [peekTok]
          rw [hpn']
          exact ih
    · rename_i hnp
      rw [Except.ok.injEq, Prod.mk.injEq] at h
      obtain ⟨rfl, rfl⟩ := h
      cases rem with
      | nil => exact absurd rfl hne
      | cons x rem1 =>
        rw [List.cons_append]
        cases x
        case Semicolon pos => exact absurd rfl (hnp pos)
        all_goals rfl

theorem parse_sequence_append (ctx ctx' : PCtx) (rem : List Token) (s : Sequence)
    (r ext : List Token) (h : parse_sequence ctx rem = .ok (s, r)) (hne : r ≠ []) :
    parse_sequence ctx' (rem ++ ext) = .ok (s, r ++ ext) := by
  simp only [parse_sequence] at h
  split at h
  · exact Except.noConfusion h
  · rename_i ns rem1 hnl
    obtain ⟨hlen, heq⟩ := ite_error_ok h
    rw [Prod.mk.injEq] at heq
    obtain ⟨rfl, rfl⟩ := heq
    have hfle : rem.length + 1 ≤ (rem ++ ext).length + 1 := by
      simp
    have ih := nodeLoopF_append ctx ctx' (rem.length + 1) ((rem ++ ext).length + 1)
      rem [] ns rem1 ext hnl hfle hne
    simp only [parse_sequence, ih]
    rw [if_neg hlen]



theorem pg_child_append (ctx ctx' : PCtx) : ∀ (f f' : Nat), f ≤ f' →
    (∀ rem t r ext, pgF ctx f rem = .ok (t, r) →
      pgF ctx' f' (rem ++ ext) = .ok (t, r ++ ext))
    ∧ (∀ rem acc trees r ext, childLoopF ctx f rem acc = .ok (trees, r) →
      childLoopF ctx' f' (rem ++ ext) acc = .ok (trees, r ++ ext))
  | 0, _, _ =>
    ⟨fun _ _ _ _ h => Except.noConfusion h, fun _ _ _ _ _ h => Except.noConfusion h⟩
  | f + 1, 0, hle => absurd hle (by omega)
  | f + 1, f' + 1, hle => by
    obtain ⟨ihp, ihc⟩ := pg_child_append ctx ctx' f f' (by omega)
    constructor
    · intro rem t r ext h
      rw [pgF] at h
      rw [pgF]
      split at h
      · exact Except.noConfusion h
      · rename_i seq rem3 hseq
        split at h
        · exact Except.noConfusion h
        · rename_i trees rem5 hch
          rw [Except.ok.injEq, Prod.mk.injEq] at h
          obtain ⟨rfl, rfl⟩ := h
          cases rem with
          | nil => exact Except.noConfusion ((parse_sequence_nil ctx).symm.trans hseq)
          | cons u rem1 =>
            have hchne : consume_whitespace rem3 ≠ [] := by
              intro hnil
              rw [hnil] at hch
              exact childLoopF_ok_ne ctx f [] _ hch
            have hrem3ne : rem3 ≠ [] := by
              intro hnil
              rw [hnil] at hchne
              exact hchne rfl
            have hseq' := parse_sequence_append ctx ctx' (consume_whitespace rem1) seq rem3
              ext hseq hrem3ne
            have hsuf1 := parse_sequence_suffix ctx _ _ _ hseq
            simp only [pread] at hsuf1
            have hcw1 : consume_whitespace rem1 ≠ [] := by
              intro hnil
              rw [hnil] at hsuf1
              exact hrem3ne (List.suffix_nil.mp hsuf1)
            obtain ⟨x1, r1, hx1⟩ := List.exists_cons_of_ne_nil hcw1
            have hceq1 : consume_whitespace (rem1 ++ ext) = consume_whitespace rem1 ++ ext := by
              rw [cw_append_cons rem1 x1 r1 ext hx1, hx1, List.cons_append]
            obtain ⟨x3, r3, hx3⟩ := List.exists_cons_of_ne_nil hchne
            have hceq3 : consume_whitespace (rem3 ++ ext) = consume_whitespace rem3 ++ ext := by
              rw [cw_append_cons rem3 x3 r3 ext hx3, hx3, List.cons_append]
            have ihch := ihc (consume_whitespace rem3) [] trees rem5 ext hch
            rw [← hceq3] at ihch
            rw [List.cons_append]
            simp only [pread, hceq1, hseq', ihch]
    · intro rem acc trees r ext h
      rw [childLoopF] at h
      rw [childLoopF]
      split at h
      · rename_i p hpk
        cases rem with
        | nil => exact Token.noConfusion hpk
        | cons u rem1 =>
          have hu : u = Token.OpenParen p := hpk
          subst hu
          split at h
          · exact Except.noConfusion h
          · rename_i t1 rem2 hpg
            have hchne : consume_whitespace rem2 ≠ [] := by
              intro hnil
              rw [hnil] at h
              exact childLoopF_ok_ne ctx f (acc ++ [t1]) _ h
            obtain ⟨x2, r2, hx2⟩ := List.exists_cons_of_ne_nil hchne
            have hceq2 : consume_whitespace (rem2 ++ ext) = consume_whitespace rem2 ++ ext := by
              rw [cw_append_cons rem2 x2 r2 ext hx2, hx2, List.cons_append]
            have hpg' := ihp (Token.OpenParen p :: rem1) t1 rem2 ext hpg
            rw [List.cons_append] at hpg'
            have ih := ihc (consume_whitespace rem2) (acc ++ [t1]) trees r ext h
            rw [← hceq2] at ih
            rw [List.cons_append]
            simp only [peekTok]
            rw [hpg']
            show childLoopF ctx' f' (consume_whitespace (rem2 ++ ext)) (acc ++ [t1])
              = .ok (trees, r ++ ext)
            exact ih
      · rename_i p hpk
        rw [Except.ok.injEq, Prod.mk.injEq] at h
        obtain ⟨rfl, rfl⟩ := h
        cases rem with
        | nil => exact Token.noConfusion hpk
        | cons u rem1 =>
          have hu : u = Token.CloseParen p := hpk
          subst hu
          rw [List.cons_append]
          rfl
      · exact Except.noConfusion h

theorem parse_gametree_append (ctx ctx' : PCtx) (rem : List Token) (t : GameTree)
    (r ext : List Token) (h : parse_gametree ctx rem = .ok (t, r)) :
    parse_gametree ctx' (rem ++ ext) = .ok (t, r ++ ext) :=
  (pg_child_append ctx ctx' (2 * rem.length + 2) (2 * (rem ++ ext).length + 2)
    (by simp only [List.length_append]; omega)).1 rem t r ext h

theorem treeLoopF_append (ctx ctx' : PCtx) : ∀ (f f' : Nat) (rem : List Token)
    (acc trees : List GameTree) (r ext : List Token),
    treeLoopF ctx f rem acc = .ok (trees, r) → f ≤ f' →
    (∀ p, peekTok ext ≠ Token.OpenParen p) →
    ∃ r', treeLoopF ctx' f' (rem ++ ext) acc = .ok (trees, r')
  | 0, _, _, _, _, _, _, h, _, _ => Except.noConfusion h
  | f + 1, 0, _, _, _, _, _, _, hle, _ => absurd hle (by omega)
  | f + 1, f' + 1, rem, acc, trees, r, ext, h, hle, hext => by
    rw [treeLoopF] at h
    rw [treeLoopF]
    split at h
    · rename_i p hpk
      cases rem with
      | nil => exact Token.noConfusion hpk
      | cons u rem1 =>
        have hu : u = Token.OpenParen p := hpk
        subst hu
        split at h
        · exact Except.noConfusion h
        · rename_i t1 rem2 hpg
          have hpg' := parse_gametree_append ctx ctx' (Token.OpenParen p :: rem1) t1 rem2 ext hpg
          rw [List.cons_append] at hpg'
          obtain ⟨r', ih⟩ := treeLoopF_append ctx ctx' f f' rem2 (acc ++ [t1]) trees r ext h
            (by omega) hext
          refine ⟨r', ?_⟩
          rw [List.cons_append]
          simp only [peekTok]
          rw [hpg']
          exact ih
    · rename_i hnp
      rw [Except.ok.injEq, Prod.mk.injEq] at h
      obtain ⟨rfl, rfl⟩ := h
      cases rem with
      | nil =>
        refine ⟨ext, ?_⟩
        rw [List.nil_append]
        split
        · rename_i p hpk
          exact absurd hpk (hext p)
        · rfl
      | cons x rem1 =>
        refine ⟨x :: rem1 ++ ext, ?_⟩
        rw [List.cons_append]
        cases x
        case OpenParen p => exact absurd rfl (hnp p)
        all_goals rfl



theorem skipGarbage_cw : ∀ l : List Token, skipGarbage (consume_whitespace l) = skipGarbage l
  | [] => rfl
  | t :: l1 => by
    rw [consume_whitespace]
    split
    · rename_i hws
      rw [skipGarbage_cw l1]
      cases t
      case Whitespace => rfl
      case Newline p => rfl
      all_goals exact Bool.noConfusion hws
    · rfl

theorem skipGarbage_all : ∀ l : List Token,
    (∀ t ∈ l, (∀ p, t ≠ Token.OpenParen p) ∧ t ≠ Token.Eof) → skipGarbage l = []
  | [], _ => rfl
  | t :: l1, h => by
    obtain ⟨hp, he⟩ := h t (List.mem_cons_self t l1)
    have ih := skipGarbage_all l1 (fun x hx => h x (List.mem_cons_of_mem t hx))
    cases t
    case OpenParen p => exact absurd rfl (hp p)
    case Eof => exact absurd rfl he
    all_goals exact ih

theorem skipGarbage_append_all : ∀ (g rest : List Token),
    (∀ t ∈ g, (∀ p, t ≠ Token.OpenParen p) ∧ t ≠ Token.Eof) →
    skipGarbage (g ++ rest) = skipGarbage rest
  | [], rest, _ => rfl
  | t :: g1, rest, h => by
    obtain ⟨hp, he⟩ := h t (List.mem_cons_self t g1)
    have ih := skipGarbage_append_all g1 rest (fun x hx => h x (List.mem_cons_of_mem t hx))
    rw [List.cons_append]
    cases t
    case OpenParen p => exact absurd rfl (hp p)
    case Eof => exact absurd rfl he
    all_goals exact ih

theorem skipGarbage_cons : ∀ (l : List Token) (x : Token) (r ext : List Token),
    skipGarbage l = x :: r → skipGarbage (l ++ ext) = x :: (r ++ ext)
  | [], x, r, ext, h => List.noConfusion h
  | t :: l1, x, r, ext, h => by
    rw [List.cons_append]
    cases t
    case OpenParen p =>
      have h1 : Token.OpenParen p :: l1 = x :: r := h
      rw [List.cons.injEq] at h1
      obtain ⟨rfl, rfl⟩ := h1
      rfl
    case Eof =>
      have h1 : Token.Eof :: l1 = x :: r := h
      rw [List.cons.injEq] at h1
      obtain ⟨rfl, rfl⟩ := h1
      rfl
    all_goals exact skipGarbage_cons l1 x r ext h

theorem parse_ok_transfer (ctx ctx' : PCtx) (rem rem' : List Token) (c : Collection)
    (h : parse ctx rem = .ok c)
    (hd : skipGarbage (consume_whitespace rem) = skipGarbage (consume_whitespace rem')) :
    parse ctx' rem' = .ok c := by
  simp only [parse] at h ⊢
  rw [← hd]
  split at h
  · exact Except.noConfusion h
  · rename_i gts r3 htl
    obtain ⟨hlen, heq⟩ := ite_error_ok h
    subst heq
    obtain ⟨r', htl'⟩ := treeLoopF_append ctx ctx' _ _ _ [] gts r3 [] htl (Nat.le_refl _)
      (fun p hp => Token.noConfusion hp)
    rw [List.append_nil] at htl'
    simp only [htl']
    rw [if_neg hlen]

/-- C7: the parser skips whitespace and discards every token before the
first `(`; the empty token stream yields the distinct `empty file` error;
a nonempty stream without `(` yields the `cannot have empty collection`
error positioned at the last token; and a leading-garbage prefix without
`(` has no effect on whether (and with which collection) parsing succeeds. -/
theorem c7_leading_garbage :
    parse ⟨[]⟩ [] = .error (.parseError "empty file")
    ∧ parseInput "" = .error (.parseError "empty file")
    ∧ (∀ ts : List Token, ts ≠ [] →
        (∀ t ∈ ts, (∀ p, t ≠ Token.OpenParen p) ∧ t ≠ Token.Eof) →
        parse ⟨ts⟩ ts = .error (.parseError ("parse_error at "
          ++ (ts.getLastD Token.Eof).position.render ++ ": cannot have empty collection")))
    ∧ (∀ (g rest : List Token) (c : Collection),
        (∀ t ∈ g, (∀ p, t ≠ Token.OpenParen p) ∧ t ≠ Token.Eof) →
        (parse ⟨g ++ rest⟩ (g ++ rest) = .ok c ↔ parse ⟨rest⟩ rest = .ok c)) := by
  refine ⟨rfl, rfl, ?_, ?_⟩
  · intro ts hne h
    simp only [parse]
    rw [skipGarbage_cw, skipGarbage_all ts h]
    show (Except.error (create_error ⟨ts⟩ [] "cannot have empty collection")
      : Except ParserError Collection) = _
    unfold create_error
    rw [if_neg (by simpa using hne)]
    show Except.error (ParserError.parseError (("parse_error at "
      ++ (ts.getLastD Token.Eof).position.render ++ ": ") ++ "cannot have empty collection")) = _
    rw [String.append_assoc]
    rfl
  · intro g rest c hg
    have hd : skipGarbage (consume_whitespace (g ++ rest))
        = skipGarbage (consume_whitespace rest) := by
      rw [skipGarbage_cw, skipGarbage_cw, skipGarbage_append_all g rest hg]
    exact ⟨fun h => parse_ok_transfer _ _ _ _ c h hd,
      fun h => parse_ok_transfer _ _ _ _ c h hd.symm⟩

/-- Witness for C7 at a concrete garbage prefix and the collection `(;)`. -/
theorem c7_leading_garbage_witness :
    parse ⟨[Token.Identifier ⟨1, 0⟩ "x"]⟩ [Token.Identifier ⟨1, 0⟩ "x"]
        = .error (.parseError "parse_error at (1:0): cannot have empty collection")
      ∧ parse ⟨[Token.Identifier ⟨1, 0⟩ "x", Token.OpenParen ⟨1, 1⟩, Token.Semicolon ⟨1, 2⟩,
            Token.CloseParen ⟨1, 3⟩]⟩
          [Token.Identifier ⟨1, 0⟩ "x", Token.OpenParen ⟨1, 1⟩, Token.Semicolon ⟨1, 2⟩,
            Token.CloseParen ⟨1, 3⟩]
        = .ok ⟨[.mk ⟨[⟨[]⟩]⟩ []]⟩ := by
  constructor
  · exact c7_leading_garbage.2.2.1 [Token.Identifier ⟨1, 0⟩ "x"] (by simp)
      (by intro t ht; simp at ht; subst ht; exact ⟨fun p => Token.noConfusion, Token.noConfusion⟩)
  · exact (c7_leading_garbage.2.2.2 [Token.Identifier ⟨1, 0⟩ "x"]
      [Token.OpenParen ⟨1, 1⟩, Token.Semicolon ⟨1, 2⟩, Token.CloseParen ⟨1, 3⟩]
      ⟨[.mk ⟨[⟨[]⟩]⟩ []]⟩
      (by intro t ht; simp at ht; subst ht; exact ⟨fun p => Token.noConfusion, Token.noConfusion⟩)).mpr rfl

/-- C9: when parse succeeds on a token stream, appending trailing tokens
whose first token is not `(` leaves the result unchanged: the trailing
garbage is silently ignored and does not appear in the collection. -/
theorem c9_trailing_garbage (ts ext : List Token) (c : Collection)
    (h : parse ⟨ts⟩ ts = .ok c) (hext : ∀ p, peekTok ext ≠ Token.OpenParen p) :
    parse ⟨ts ++ ext⟩ (ts ++ ext) = .ok c := by
  simp only [parse] at h ⊢
  rw [skipGarbage_cw] at h ⊢
  split at h
  · exact Except.noConfusion h
  · rename_i gts r3 htl
    obtain ⟨hlen, heq⟩ := ite_error_ok h
    subst heq
    cases hd : skipGarbage ts with
    | nil =>
      rw [hd] at htl
      have h1 : (Except.ok (([] : List GameTree), ([] : List Token))
          : Except ParserError (List GameTree × List Token)) = .ok (gts, r3) := htl
      rw [Except.ok.injEq, Prod.mk.injEq] at h1
      obtain ⟨h2, _⟩ := h1
      exact absurd (by simp [← h2]) hlen
    | cons x r =>
      rw [hd] at htl
      have hd' := skipGarbage_cons ts x r ext hd
      rw [hd']
      obtain ⟨r', htl'⟩ := treeLoopF_append ⟨ts⟩ ⟨ts ++ ext⟩ ((x :: r).length + 1)
        ((x :: (r ++ ext)).length + 1) (x :: r) [] gts r3 ext htl (by simp) hext
      rw [List.cons_append] at htl'
      simp only [htl']
      rw [if_neg hlen]

/-- Witness for C9: the collection `(;)` followed by a junk identifier. -/
theorem c9_trailing_garbage_witness :
    parse ⟨[Token.OpenParen ⟨1, 0⟩, Token.Semicolon ⟨1, 1⟩, Token.CloseParen ⟨1, 2⟩,
        Token.Identifier ⟨1, 3⟩ "junk"]⟩
      [Token.OpenParen ⟨1, 0⟩, Token.Semicolon ⟨1, 1⟩, Token.CloseParen ⟨1, 2⟩,
        Token.Identifier ⟨1, 3⟩ "junk"] = .ok ⟨[.mk ⟨[⟨[]⟩]⟩ []]⟩ := by
  have h0 := c9_trailing_garbage
    [Token.OpenParen ⟨1, 0⟩, Token.Semicolon ⟨1, 1⟩, Token.CloseParen ⟨1, 2⟩]
    [Token.Identifier ⟨1, 3⟩ "junk"] ⟨[.mk ⟨[⟨[]⟩]⟩ []]⟩ rfl
    (fun p hp => Token.noConfusion hp)
  simpa using h0

/-! ### Decimal rendering round-trip, towards claim C1. -/

theorem natDigits_acc : ∀ (f n : Nat) (acc : List Char),
    natDigits f n acc = natDigits f n [] ++ acc
  | 0, n, acc => rfl
  | f + 1, n, acc => by
    rw [natDigits, natDigits]
    split
    · rfl
    · rw [natDigits_acc f (n / 10) [Char.ofNat (48 + n % 10)],
        natDigits_acc f (n / 10) (Char.ofNat (48 + n % 10) :: acc)]
      simp

theorem natDigits_extra : ∀ (f g n : Nat), n < f → n < g →
    natDigits f n [] = natDigits g n []
  | 0, _, _, hf, _ => absurd hf (by omega)
  | _ + 1, 0, _, _, hg => absurd hg (by omega)
  | f + 1, g + 1, n, hf, hg => by
    rw [natDigits, natDigits]
    split
    · rfl
    · rename_i hn
      rw [natDigits_acc f _ _, natDigits_acc g _ _]
      have : n / 10 < f ∧ n / 10 < g := by omega
      rw [natDigits_extra f g (n / 10) this.1 this.2]

theorem digitChar_isDigit {m : Nat} (h : m < 10) :
    isDigitChar (Char.ofNat (48 + m)) = true := by
  interval_cases m <;> decide

theorem digitChar_toNat {m : Nat} (h : m < 10) : (Char.ofNat (48 + m)).toNat = 48 + m := by
  interval_cases m <;> decide

theorem natDigits_all_digits : ∀ (f n : Nat) (c : Char),
    c ∈ natDigits f n [] → isDigitChar c = true
  | 0, n, c, hc => absurd hc (by simp [natDigits])
  | f + 1, n, c, hc => by
    rw [natDigits] at hc
    split at hc
    · rename_i hn
      rw [List.mem_singleton] at hc
      subst hc
      exact digitChar_isDigit hn
    · rw [natDigits_acc] at hc
      rcases List.mem_append.mp hc with h1 | h2
      · exact natDigits_all_digits f (n / 10) c h1
      · rw [List.mem_singleton] at h2
        subst h2
        exact digitChar_isDigit (by omega)

theorem natDigits_ne_nil : ∀ (f n : Nat), 0 < f → natDigits f n [] ≠ []
  | 0, _, hf => absurd hf (by omega)
  | f + 1, n, _ => by
    rw [natDigits]
    split
    · simp
    · rw [natDigits_acc]
      intro hx
      exact absurd (List.append_eq_nil.mp hx).2 (by simp)

theorem natOfDigits_append (l1 l2 : List Char) :
    natOfDigits (l1 ++ l2) = l2.foldl (fun a c => 10 * a + (c.toNat - 48)) (natOfDigits l1) := by
  rw [natOfDigits, List.foldl_append]
  rfl

theorem natOfDigits_natDigits : ∀ (f n : Nat), n < f → natOfDigits (natDigits f n []) = n := by
  intro f n
  induction n using Nat.strongRecOn generalizing f with
  | _ n ih =>
    intro hf
    cases f with
    | zero => omega
    | succ f =>
      rw [natDigits]
      split
      · rename_i hn
        simp only [natOfDigits, List.foldl_cons, List.foldl_nil]
        rw [digitChar_toNat hn]
        omega
      · rename_i hn
        rw [natDigits_acc, natOfDigits_append]
        simp only [List.foldl_cons, List.foldl_nil]
        rw [digitChar_toNat (by omega)]
        have h10 : n / 10 < f := by omega
        rw [ih (n / 10) (by omega) f h10]
        omega

theorem natRender_data (n : Nat) : (natRender n).data = natDigits (n + 1) n [] := rfl

theorem natRender_roundtrip (n : Nat) : natOfDigits (natRender n).data = n :=
  natOfDigits_natDigits (n + 1) n (by omega)

theorem natRender_ne_nil (n : Nat) : (natRender n).data ≠ [] :=
  natDigits_ne_nil (n + 1) n (by omega)

theorem natRender_all_digits (n : Nat) (c : Char) (hc : c ∈ (natRender n).data) :
    isDigitChar c = true :=
  natDigits_all_digits (n + 1) n c hc

/-! ### Provenance of scanned tokens: token well-formedness and the
boundary discipline between consecutive tokens, towards claim C1. -/

/-- Uppercase ASCII letter. -/
def isUcChar (c : Char) : Bool := 'A' ≤ c ∧ c ≤ 'Z'

/-- One of the five structural single-character tokens. -/
def isStructChar (c : Char) : Bool := c = '(' ∨ c = ')' ∨ c = '[' ∨ c = ']' ∨ c = ';'

/-- A printable ASCII character that reaches the `scan_ascii` arm. -/
def isOtherAsciiChar (c : Char) : Bool :=
  isPrintableAscii c && !isWsChar c && !(c = '\\') && !isStructChar c
    && !isDigitChar c && !isIdentStart c

/-- A character that reaches the `scan_bytes` arm. -/
def isBytesChar (c : Char) : Bool :=
  !(c = '\x00') && !isWsChar c && !(c = '\n') && !(c = '\\') && !isStructChar c
    && !isDigitChar c && !isIdentStart c && !isPrintableAscii c

/-- The shape invariant of every token the scanner can produce. -/
def TokOK : Token → Prop
  | .Eof => False
  | .Whitespace => True
  | .Newline _ => True
  | .Identifier _ s =>
    s.data ≠ [] ∧ isIdentStart (s.data.headD 'a') = true ∧ (∀ c ∈ s.data, isIdentChar c = true)
      ∧ s.data.all (fun c => isUcChar c) = false
  | .UcLetter _ s => s.data ≠ [] ∧ ∀ c ∈ s.data, isUcChar c = true
  | .OpenParen _ => True
  | .CloseParen _ => True
  | .OpenSquare _ => True
  | .CloseSquare _ => True
  | .Semicolon _ => True
  | .Float _ _ => False
  | .Integer _ n => n < 2 ^ 64
  | .Escaped _ s => ∃ c, s.data = [c]
  | .Ascii _ s => ∃ c, s.data = [c] ∧ isOtherAsciiChar c = true
  | .Bytes _ s => ∃ c, s.data = [c] ∧ isBytesChar c = true

/-- The first character of a token's rendering (`']'` for the empty one). -/
def leadCharD (t : Token) : Char := t.render.data.headD ']'

/-- The maximality discipline: the character following a token in the
scanned text cannot extend the token's run. -/
def boundaryOK (t : Token) (c : Char) : Prop :=
  (t = Token.Whitespace → isWsChar c = false)
  ∧ (∀ p, t = Token.Newline p → c ≠ '\n')
  ∧ (∀ p s, t = Token.Identifier p s → isIdentChar c = false)
  ∧ (∀ p s, t = Token.UcLetter p s → isIdentChar c = false)
  ∧ (∀ p n, t = Token.Integer p n → isDigitChar c = false)

/-- The provenance invariant of a scanned token list. -/
def GoodToks (l : List Token) : Prop :=
  (∀ t ∈ l, TokOK t) ∧ List.Chain' (fun a b => boundaryOK a (leadCharD b)) l

/-- `']'` can never extend a run, whatever the preceding token. -/
theorem boundaryOK_rbrack (t : Token) : boundaryOK t ']' := by
  refine ⟨fun _ => by decide, fun p h => by decide, fun p s h => by decide,
    fun p s h => by decide, fun p n h => by decide⟩

theorem scan_whitespace_peek : ∀ (l : List Char) (p : Position),
    isWsChar (speek (scan_whitespace l p)) = false
  | [], p => by simp [scan_whitespace, speek, isWsChar]
  | c :: rest, p => by
    rw [scan_whitespace]
    split
    · exact scan_whitespace_peek rest (posAdvance p c)
    · rename_i hc
      simpa [speek] using hc

theorem scan_newlines_peek : ∀ (l : List Char) (p : Position),
    ¬speek (scan_newlines l p) = '\n'
  | [], p => by simp [scan_newlines, speek]
  | c :: rest, p => by
    rw [scan_newlines]
    split
    · exact scan_newlines_peek rest (posAdvance p c)
    · rename_i hc
      simpa [speek] using hc

theorem scanDigitRun_spec : ∀ (l : List Char) (p : Position),
    isDigitChar (speek ⟨(scanDigitRun l p).2.rem, (scanDigitRun l p).2.pos⟩) = false
      ∧ (∀ c ∈ (scanDigitRun l p).1, isDigitChar c = true)
  | [], p => by
    constructor
    · simp [scanDigitRun, speek, isDigitChar]
    · intro c hc
      simp [scanDigitRun] at hc
  | c :: rest, p => by
    rw [scanDigitRun]
    split
    · rename_i hc
      obtain ⟨h1, h2⟩ := scanDigitRun_spec rest (posAdvance p c)
      refine ⟨h1, ?_⟩
      intro x hx
      rw [List.mem_cons] at hx
      rcases hx with rfl | hx
      · exact hc
      · exact h2 x hx
    · rename_i hc
      constructor
      · simpa [speek] using hc
      · intro x hx
        simp at hx
  
theorem scanIdentRun_upper : ∀ (l : List Char) (p : Position) (u : Bool),
    (scanIdentRun l p u).2.1 = (u && (scanIdentRun l p u).1.all (fun c => isUcChar c))
  | [], p, u => by simp [scanIdentRun]
  | c :: rest, p, u => by
    rw [scanIdentRun]
    split
    · rename_i hc
      have ih := scanIdentRun_upper rest (posAdvance p c) (if c < 'A' ∨ 'Z' < c then false else u)
      rw [ih]
      have : (if c < 'A' ∨ 'Z' < c then false else u) = (u && isUcChar c) := by
        split
        · rename_i hlt
          simp only [isUcChar]
          rcases hlt with hlt | hlt
          · rw [decide_eq_false (by intro ⟨ha, _⟩; exact absurd hlt (not_lt.mpr ha))]
            simp
          · rw [decide_eq_false (by intro ⟨_, hb⟩; exact absurd hlt (not_lt.mpr hb))]
            simp
        · rename_i hlt
          push_neg at hlt
          simp only [isUcChar]
          rw [decide_eq_true (by exact ⟨hlt.1, hlt.2⟩)]
          simp
      rw [this]
      simp [Bool.and_assoc, Bool.and_comm, Bool.and_left_comm]
    · simp

theorem scanIdentRun_spec : ∀ (l : List Char) (p : Position) (u : Bool),
    isIdentChar (speek ⟨(scanIdentRun l p u).2.2.rem, (scanIdentRun l p u).2.2.pos⟩) = false
      ∧ (∀ c ∈ (scanIdentRun l p u).1, isIdentChar c = true)
  | [], p, u => by
    constructor
    · simp [scanIdentRun, speek, isIdentChar, isDigitChar, isIdentStart]
    · intro c hc
      simp [scanIdentRun] at hc
  | c :: rest, p, u => by
    rw [scanIdentRun]
    split
    · rename_i hc
      obtain ⟨h1, h2⟩ := scanIdentRun_spec rest (posAdvance p c) _
      refine ⟨h1, ?_⟩
      intro x hx
      rw [List.mem_cons] at hx
      rcases hx with rfl | hx
      · exact hc
      · exact h2 x hx
    · rename_i hc
      constructor
      · simpa [speek] using hc
      · intro x hx
        simp at hx

theorem scanIdentRun_head : ∀ (l : List Char) (p : Position) (u : Bool) (c : Char),
    l.headD '\x00' = c → isIdentChar c = true →
    ∃ cs, (scanIdentRun l p u).1 = c :: cs := by
  intro l p u c hh hc
  cases l with
  | nil =>
    simp only [List.headD_nil] at hh
    subst hh
    exact absurd hc (by decide)
  | cons x rest =>
    simp only [List.headD_cons] at hh
    subst hh
    rw [scanIdentRun]
    rw [if_pos hc]
    exact ⟨_, rfl⟩

/-- Vacuous boundary obligation for tokens that are not runs. -/
theorem boundaryOK_other (t : Token) (c : Char)
    (h1 : t ≠ Token.Whitespace) (h2 : ∀ p, t ≠ Token.Newline p)
    (h3 : ∀ p s, t ≠ Token.Identifier p s) (h4 : ∀ p s, t ≠ Token.UcLetter p s)
    (h5 : ∀ p n, t ≠ Token.Integer p n) : boundaryOK t c :=
  ⟨fun hh => absurd hh h1, fun p hh => absurd hh (h2 p), fun p s hh => absurd hh (h3 p s),
    fun p s hh => absurd hh (h4 p s), fun p n hh => absurd hh (h5 p n)⟩

theorem boundaryOK_nonrun (p : Position) (c : Char) :
    boundaryOK (Token.OpenParen p) c ∧ boundaryOK (Token.CloseParen p) c
      ∧ boundaryOK (Token.OpenSquare p) c ∧ boundaryOK (Token.CloseSquare p) c
      ∧ boundaryOK (Token.Semicolon p) c := by
  refine ⟨?_, ?_, ?_, ?_, ?_⟩ <;>
    exact boundaryOK_other _ _ (fun hh => Token.noConfusion hh)
      (fun q hh => Token.noConfusion hh) (fun q s1 hh => Token.noConfusion hh)
      (fun q s1 hh => Token.noConfusion hh) (fun q n hh => Token.noConfusion hh)

/-- Every token produced by one `scan_token` step is well-formed and the
state is left just after the token's maximal run. -/
theorem scan_token_ok (s s' : SState) (t : Token)
    (h : scan_token s = (s', .ok t)) (hne : t ≠ Token.Eof) :
    TokOK t ∧ boundaryOK t (speek s') := by
  unfold scan_token at h
  by_cases h0 : speek s = '\x00'
  · rw [if_pos h0, Prod.mk.injEq, Except.ok.injEq] at h
    exact absurd h.2.symm hne
  rw [if_neg h0] at h
  by_cases hws : isWsChar (speek s) = true
  · rw [if_pos hws, Prod.mk.injEq, Except.ok.injEq] at h
    obtain ⟨hs, ht⟩ := h
    subst hs
    rw [← ht]
    refine ⟨trivial, fun _ => scan_whitespace_peek s.rem s.pos,
      fun p hp => Token.noConfusion hp, fun p s1 hp => Token.noConfusion hp,
      fun p s1 hp => Token.noConfusion hp, fun p n hp => Token.noConfusion hp⟩
  rw [if_neg hws] at h
  by_cases hnl : speek s = '\n'
  · rw [if_pos hnl] at h
    rw [Prod.mk.injEq, Except.ok.injEq] at h
    obtain ⟨hs, ht⟩ := h
    subst hs
    rw [← ht]
    refine ⟨trivial, fun hp => Token.noConfusion hp,
      fun p hp => scan_newlines_peek s.rem s.pos,
      fun p s1 hp => Token.noConfusion hp,
      fun p s1 hp => Token.noConfusion hp, fun p n hp => Token.noConfusion hp⟩
  rw [if_neg hnl] at h
  by_cases hbs : speek s = '\\'
  · rw [if_pos hbs] at h
    rcases hesc : scan_escaped s with ⟨t1, st1⟩
    rw [hesc, Prod.mk.injEq, Except.ok.injEq] at h
    obtain ⟨hs, ht⟩ := h
    subst hs
    rw [← ht]
    simp only [scan_escaped, Prod.mk.injEq] at hesc
    obtain ⟨ht1, _⟩ := hesc
    rw [← ht1]
    refine ⟨⟨_, rfl⟩, ?_⟩
    exact boundaryOK_other _ _ (fun hh => Token.noConfusion hh)
      (fun q hh => Token.noConfusion hh) (fun q s1 hh => Token.noConfusion hh)
      (fun q s1 hh => Token.noConfusion hh) (fun q n hh => Token.noConfusion hh)
  rw [if_neg hbs] at h
  by_cases hop : speek s = '('
  · rw [if_pos hop, Prod.mk.injEq, Except.ok.injEq] at h
    obtain ⟨hs, ht⟩ := h
    rw [← ht]
    exact ⟨trivial, (boundaryOK_nonrun s.pos _).1⟩
  rw [if_neg hop] at h
  by_cases hcp : speek s = ')'
  · rw [if_pos hcp, Prod.mk.injEq, Except.ok.injEq] at h
    obtain ⟨hs, ht⟩ := h
    rw [← ht]
    exact ⟨trivial, (boundaryOK_nonrun s.pos _).2.1⟩
  rw [if_neg hcp] at h
  by_cases hos : speek s = '['
  · rw [if_pos hos, Prod.mk.injEq, Except.ok.injEq] at h
    obtain ⟨hs, ht⟩ := h
    rw [← ht]
    exact ⟨trivial, (boundaryOK_nonrun s.pos _).2.2.1⟩
  rw [if_neg hos] at h
  by_cases hcs : speek s = ']'
  · rw [if_pos hcs, Prod.mk.injEq, Except.ok.injEq] at h
    obtain ⟨hs, ht⟩ := h
    rw [← ht]
    exact ⟨trivial, (boundaryOK_nonrun s.pos _).2.2.2.1⟩
  rw [if_neg hcs] at h
  by_cases hdg : isDigitChar (speek s) = true
  · rw [if_pos hdg] at h
    simp only [scan_number] at h
    split at h
    · rename_i hlt
      rw [Prod.mk.injEq, Except.ok.injEq] at h
      obtain ⟨hs, ht⟩ := h
      subst hs
      rw [← ht]
      refine ⟨hlt, fun hp => Token.noConfusion hp, fun p hp => Token.noConfusion hp,
        fun p s1 hp => Token.noConfusion hp, fun p s1 hp => Token.noConfusion hp,
        fun p n hp => (scanDigitRun_spec s.rem s.pos).1⟩
    · rw [Prod.mk.injEq] at h
      exact Except.noConfusion h.2
  rw [if_neg hdg] at h
  by_cases hid : isIdentStart (speek s) = true
  · rw [if_pos hid] at h
    rw [Prod.mk.injEq, Except.ok.injEq] at h
    obtain ⟨hs, ht⟩ := h
    subst hs
    rw [← ht]
    obtain ⟨hpeek, hall⟩ := scanIdentRun_spec s.rem s.pos true
    obtain ⟨cs, hcs2⟩ := scanIdentRun_head s.rem s.pos true (speek s) rfl
      (by simp [isIdentChar, hid])
    simp only [scan_identifier]
    split
    · rename_i hup
      have hu := scanIdentRun_upper s.rem s.pos true
      rw [hup, Bool.true_and] at hu
      refine ⟨⟨by simp [hcs2], fun c hc => List.all_eq_true.mp hu.symm c hc⟩,
        fun hp => Token.noConfusion hp, fun p hp => Token.noConfusion hp,
        fun p s1 hp => Token.noConfusion hp, fun p s1 hp => hpeek,
        fun p n hp => Token.noConfusion hp⟩
    · rename_i hup
      have hu := scanIdentRun_upper s.rem s.pos true
      rw [Bool.true_and] at hu
      refine ⟨⟨by simp [hcs2], ?_, fun c hc => hall c hc,
        by show (scanIdentRun s.rem s.pos true).1.all (fun c => isUcChar c) = false
           rw [← hu]; simpa using hup⟩,
        fun hp => Token.noConfusion hp, fun p hp => Token.noConfusion hp,
        fun p s1 hp => hpeek, fun p s1 hp => Token.noConfusion hp,
        fun p n hp => Token.noConfusion hp⟩
      rw [hcs2]
      simp only [List.headD_cons]
      exact hid
  rw [if_neg hid] at h
  by_cases hsc : speek s = ';'
  · rw [if_pos hsc, Prod.mk.injEq, Except.ok.injEq] at h
    obtain ⟨hs, ht⟩ := h
    rw [← ht]
    exact ⟨trivial, (boundaryOK_nonrun s.pos _).2.2.2.2⟩
  rw [if_neg hsc] at h
  by_cases hpr : isPrintableAscii (speek s) = true
  · rw [if_pos hpr] at h
    rw [Prod.mk.injEq, Except.ok.injEq] at h
    obtain ⟨hs, ht⟩ := h
    rw [← ht]
    obtain ⟨srem, spos⟩ := s
    cases srem with
    | nil =>
      exact absurd rfl h0
    | cons c0 rest =>
      have hc0 : speek ⟨c0 :: rest, spos⟩ = c0 := rfl
      rw [hc0] at h0 hws hnl hbs hop hcp hos hcs hdg hid hsc hpr
      simp only [scan_ascii, sread]
      refine ⟨⟨c0, rfl, ?_⟩, ?_⟩
      · simp only [isOtherAsciiChar, isStructChar, Bool.and_eq_true, Bool.not_eq_true']
        refine ⟨⟨⟨⟨⟨hpr, by simpa using hws⟩, by simp [hbs]⟩, ?_⟩,
          by simpa using hdg⟩, by simpa using hid⟩
        simp only [decide_eq_false_iff_not]
        push_neg
        exact ⟨hop, hcp, hos, hcs, hsc⟩
      · exact boundaryOK_other _ _ (fun hh => Token.noConfusion hh)
          (fun q hh => Token.noConfusion hh) (fun q s1 hh => Token.noConfusion hh)
          (fun q s1 hh => Token.noConfusion hh) (fun q n hh => Token.noConfusion hh)
  rw [if_neg hpr] at h
  rw [Prod.mk.injEq, Except.ok.injEq] at h
  obtain ⟨hs, ht⟩ := h
  rw [← ht]
  obtain ⟨srem, spos⟩ := s
  cases srem with
  | nil =>
    exact absurd rfl h0
  | cons c0 rest =>
    have hc0 : speek ⟨c0 :: rest, spos⟩ = c0 := rfl
    rw [hc0] at h0 hws hnl hbs hop hcp hos hcs hdg hid hsc hpr
    simp only [scan_bytes, sread]
    refine ⟨⟨c0, rfl, ?_⟩, ?_⟩
    · simp only [isBytesChar, isStructChar, Bool.and_eq_true, Bool.not_eq_true']
      refine ⟨⟨⟨⟨⟨⟨⟨by simp [h0], by simpa using hws⟩, by simp [hnl]⟩,
        by simp [hbs]⟩, ?_⟩, by simpa using hdg⟩, by simpa using hid⟩,
        by simpa using hpr⟩
      simp only [decide_eq_false_iff_not]
      push_neg
      exact ⟨hop, hcp, hos, hcs, hsc⟩
    · exact boundaryOK_other _ _ (fun hh => Token.noConfusion hh)
        (fun q hh => Token.noConfusion hh) (fun q s1 hh => Token.noConfusion hh)
        (fun q s1 hh => Token.noConfusion hh) (fun q n hh => Token.noConfusion hh)

/-- The boundary-relevant character classes agree between `d` and `c`. -/
def classEq (d c : Char) : Prop :=
  isWsChar d = isWsChar c ∧ (d = '\n' ↔ c = '\n')
    ∧ isIdentChar d = isIdentChar c ∧ isDigitChar d = isDigitChar c

theorem classEq_refl (c : Char) : classEq c c := ⟨rfl, Iff.rfl, rfl, rfl⟩

theorem classEq_digits {d c : Char} (hd : isDigitChar d = true) (hc : isDigitChar c = true) :
    classEq d c :=
  ⟨(digit_dispatch hd).2.1.trans (digit_dispatch hc).2.1.symm,
    iff_of_false (digit_dispatch hd).2.2.1 (digit_dispatch hc).2.2.1,
    by simp [isIdentChar, hd, hc], hd.trans hc.symm⟩

theorem natRender_head_digit (n : Nat) :
    isDigitChar ((natRender n).data.headD ']') = true := by
  cases hdata : (natRender n).data with
  | nil => exact absurd hdata (natRender_ne_nil n)
  | cons c cs =>
    rw [List.headD_cons]
    exact natRender_all_digits n c (hdata ▸ List.mem_cons_self c cs)

/-- The head character of the rendering of a freshly scanned token is in the
same boundary class as the character the scan started at. -/
theorem scan_token_lead (s s' : SState) (u : Token)
    (h : scan_token s = (s', .ok u)) (hne : u ≠ Token.Eof) :
    classEq (leadCharD u) (speek s) := by
  unfold scan_token at h
  by_cases h0 : speek s = '\x00'
  · rw [if_pos h0, Prod.mk.injEq, Except.ok.injEq] at h
    exact absurd h.2.symm hne
  rw [if_neg h0] at h
  by_cases hws : isWsChar (speek s) = true
  · rw [if_pos hws, Prod.mk.injEq, Except.ok.injEq] at h
    rw [← h.2]
    rcases wsChar_cases hws with h1 | h1 | h1 <;> rw [h1] <;>
      exact ⟨by decide, by decide, by decide, by decide⟩
  rw [if_neg hws] at h
  by_cases hnl : speek s = '\n'
  · rw [if_pos hnl, Prod.mk.injEq, Except.ok.injEq] at h
    rw [← h.2, hnl]
    exact classEq_refl _
  rw [if_neg hnl] at h
  by_cases hbs : speek s = '\\'
  · rw [if_pos hbs] at h
    rcases hesc : scan_escaped s with ⟨t1, st1⟩
    rw [hesc, Prod.mk.injEq, Except.ok.injEq] at h
    simp only [scan_escaped, Prod.mk.injEq] at hesc
    rw [← h.2, ← hesc.1, hbs]
    have : leadCharD (Token.Escaped (sread (sread s).2).2.pos
        (String.mk [(sread (sread s).2).1])) = '\\' := by
      simp [leadCharD, Token.render]
    rw [this]
    exact classEq_refl _
  rw [if_neg hbs] at h
  by_cases hop : speek s = '('
  · rw [if_pos hop, Prod.mk.injEq, Except.ok.injEq] at h
    rw [← h.2, hop]
    exact classEq_refl _
  rw [if_neg hop] at h
  by_cases hcp : speek s = ')'
  · rw [if_pos hcp, Prod.mk.injEq, Except.ok.injEq] at h
    rw [← h.2, hcp]
    exact classEq_refl _
  rw [if_neg hcp] at h
  by_cases hos : speek s = '['
  · rw [if_pos hos, Prod.mk.injEq, Except.ok.injEq] at h
    rw [← h.2, hos]
    exact classEq_refl _
  rw [if_neg hos] at h
  by_cases hcs : speek s = ']'
  · rw [if_pos hcs, Prod.mk.injEq, Except.ok.injEq] at h
    rw [← h.2, hcs]
    exact classEq_refl _
  rw [if_neg hcs] at h
  by_cases hdg : isDigitChar (speek s) = true
  · rw [if_pos hdg] at h
    simp only [scan_number] at h
    split at h
    · rw [Prod.mk.injEq, Except.ok.injEq] at h
      rw [← h.2]
      exact classEq_digits (natRender_head_digit _) hdg
    · rw [Prod.mk.injEq] at h
      exact Except.noConfusion h.2
  rw [if_neg hdg] at h
  by_cases hid : isIdentStart (speek s) = true
  · rw [if_pos hid] at h
    rw [Prod.mk.injEq, Except.ok.injEq] at h
    rw [← h.2]
    obtain ⟨cs, hcs2⟩ := scanIdentRun_head s.rem s.pos true (speek s) rfl
      (by simp [isIdentChar, hid])
    simp only [scan_identifier]
    split
    · have : leadCharD (Token.UcLetter (scanIdentRun s.rem s.pos true).2.2.pos
          (String.mk (scanIdentRun s.rem s.pos true).1)) = speek s := by
        simp [leadCharD, Token.render, hcs2]
      rw [this]
      exact classEq_refl _
    · have : leadCharD (Token.Identifier (scanIdentRun s.rem s.pos true).2.2.pos
          (String.mk (scanIdentRun s.rem s.pos true).1)) = speek s := by
        simp [leadCharD, Token.render, hcs2]
      rw [this]
      exact classEq_refl _
  rw [if_neg hid] at h
  by_cases hsc : speek s = ';'
  · rw [if_pos hsc, Prod.mk.injEq, Except.ok.injEq] at h
    rw [← h.2, hsc]
    exact classEq_refl _
  rw [if_neg hsc] at h
  by_cases hpr : isPrintableAscii (speek s) = true
  · rw [if_pos hpr] at h
    rw [Prod.mk.injEq, Except.ok.injEq] at h
    rw [← h.2]
    obtain ⟨srem, spos⟩ := s
    cases srem with
    | nil => exact absurd rfl h0
    | cons c0 rest =>
      have : leadCharD (scan_ascii ⟨c0 :: rest, spos⟩).1 = c0 := by
        simp [scan_ascii, sread, leadCharD, Token.render]
      rw [this]
      exact classEq_refl _
  rw [if_neg hpr] at h
  rw [Prod.mk.injEq, Except.ok.injEq] at h
  rw [← h.2]
  obtain ⟨srem, spos⟩ := s
  cases srem with
  | nil => exact absurd rfl h0
  | cons c0 rest =>
    have : leadCharD (scan_bytes ⟨c0 :: rest, spos⟩).1 = c0 := by
      simp [scan_bytes, sread, leadCharD, Token.render]
    rw [this]
    exact classEq_refl _

/-- A boundary obligation transfers along class agreement. -/
theorem boundaryOK_of_classEq {t : Token} {d c : Char} (hcl : classEq d c)
    (hb : boundaryOK t c) : boundaryOK t d := by
  obtain ⟨h1, h2, h3, h4⟩ := hcl
  obtain ⟨b1, b2, b3, b4, b5⟩ := hb
  exact ⟨fun ht => h1.trans (b1 ht), fun p ht => fun hd => (b2 p ht) (h2.mp hd),
    fun p s ht => h3.trans (b3 p s ht), fun p s ht => h3.trans (b4 p s ht),
    fun p n ht => h4.trans (b5 p n ht)⟩

/-- One non-`Eof` step of the fueled scan loop. -/
theorem scanGoF_step (fuel : Nat) (s s' : SState) (t : Token) (acc : List Token)
    (hst : scan_token s = (s', .ok t)) (hne : t ≠ Token.Eof) :
    scanGoF (fuel + 1) s acc = scanGoF fuel s' (t :: acc) := by
  rw [scanGoF, hst]
  cases t <;> first | exact absurd rfl hne | rfl

/-- Soundness of the fueled scan loop: every token of a successful scan is
well-formed and consecutive tokens obey the maximality boundary. -/
theorem scanGoF_sound : ∀ (fuel : Nat) (s : SState) (acc toks : List Token),
    scanGoF fuel s acc = .ok toks →
    (∀ t ∈ acc, TokOK t) →
    List.Chain' (fun a b => boundaryOK a (leadCharD b)) acc.reverse →
    (∀ t, acc.head? = some t → boundaryOK t (speek s)) →
    GoodToks toks
  | 0, s, acc, toks, h => by exact absurd h (by simp [scanGoF])
  | fuel + 1, s, acc, toks, h => by
    intro hok hch hpend
    rcases hst : scan_token s with ⟨s', r⟩
    match r, hst with
    | .error e, hst =>
      rw [scanGoF, hst] at h
      have h2 : (Except.error (ScannerError.scanError
          ("scan_error at " ++ s'.pos.render ++ ": " ++ e.render))
            : Except ScannerError (List Token)) = .ok toks := h
      exact Except.noConfusion h2
    | .ok t, hst =>
      by_cases hne : t = Token.Eof
      · subst hne
        rw [scanGoF, hst] at h
        have h2 : (Except.ok acc.reverse : Except ScannerError (List Token)) = .ok toks := h
        rw [Except.ok.injEq] at h2
        subst h2
        exact ⟨fun t ht => hok t (List.mem_reverse.mp ht), hch⟩
      · rw [scanGoF_step fuel s s' t acc hst hne] at h
        refine scanGoF_sound fuel s' (t :: acc) toks h ?_ ?_ ?_
        · intro x hx
          rcases List.mem_cons.mp hx with rfl | hx
          · exact (scan_token_ok s s' _ hst hne).1
          · exact hok x hx
        · rw [List.reverse_cons, List.chain'_append]
          refine ⟨hch, List.chain'_singleton _, ?_⟩
          intro x hx y hy
          rw [List.getLast?_reverse] at hx
          rw [List.head?_cons, Option.mem_def, Option.some.injEq] at hy
          subst hy
          exact boundaryOK_of_classEq (scan_token_lead s s' _ hst hne)
            (hpend x (Option.mem_def.mp hx))
        · intro x hx
          rw [List.head?_cons, Option.some.injEq] at hx
          subst hx
          exact (scan_token_ok s s' _ hst hne).2

/-- Soundness of `Scanner::scan`. -/
theorem scan_sound (input : String) (toks : List Token) (h : scan input = .ok toks) :
    GoodToks toks := by
  refine scanGoF_sound _ _ [] toks h ?_ ?_ ?_
  · intro t ht; exact absurd ht (List.not_mem_nil t)
  · simp
  · intro t ht; exact Option.noConfusion ht

/-! ### Well-formedness of a parsed collection (towards C1): every value is
the rendering of a boundary-disciplined run of well-formed non-`]` tokens,
every identifier is a non-empty run of uppercase letters, and the
non-emptiness invariants hold. -/

/-- `String.join` distributes over `cons`. -/
theorem sjoin_cons (a : String) (l : List String) :
    String.join (a :: l) = a ++ String.join l := by
  apply String.ext
  rw [String.join_eq, String.join_eq]
  simp

/-- A property value as produced by the parser: the concatenated rendering
of a run of well-formed tokens none of which is a `]`, with the maximality
boundaries between consecutive tokens. -/
def ValueOK (v : String) : Prop :=
  ∃ ts : List Token,
    (∀ t ∈ ts, TokOK t ∧ ∀ p, t ≠ Token.CloseSquare p)
      ∧ List.Chain' (fun a b => boundaryOK a (leadCharD b)) ts
      ∧ v = String.join (ts.map Token.render)

/-- A property identifier as produced by the parser: non-empty, all
uppercase ASCII letters. -/
def IdentOK (s : String) : Prop := s.data ≠ [] ∧ ∀ c ∈ s.data, isUcChar c = true

def PropWF (p : Property) : Prop :=
  IdentOK p.ident ∧ p.values ≠ [] ∧ ∀ v ∈ p.values, ValueOK v

def NodeWF (n : Node) : Prop := ∀ p ∈ n.props, PropWF p

def SeqWF (s : Sequence) : Prop := s.nodes ≠ [] ∧ ∀ n ∈ s.nodes, NodeWF n

def TreeWF : GameTree → Prop
  | .mk s ts => SeqWF s ∧ ∀ c ∈ ts.attach, TreeWF c.1
termination_by t => sizeOf t
decreasing_by
  have := List.sizeOf_lt_of_mem c.2
  simp only [GameTree.mk.sizeOf_spec]
  omega

theorem TreeWF_mk (s : Sequence) (ts : List GameTree) :
    TreeWF (.mk s ts) ↔ (SeqWF s ∧ ∀ c ∈ ts, TreeWF c) := by
  rw [TreeWF]
  constructor
  · rintro ⟨h1, h2⟩
    exact ⟨h1, fun c hc => h2 ⟨c, hc⟩ (List.mem_attach _ _)⟩
  · rintro ⟨h1, h2⟩
    exact ⟨h1, fun c _ => h2 c.1 c.2⟩

def CollWF (c : Collection) : Prop := c.gametrees ≠ [] ∧ ∀ t ∈ c.gametrees, TreeWF t

/-- A non-`]`, non-`Eof` token only moves `pvLoop` one step. -/
theorem pvLoop_step (ctx : PCtx) (t : Token) (rest : List Token) (acc : String)
    (h1 : ∀ p, t ≠ Token.CloseSquare p) (h2 : t ≠ Token.Eof) :
    pvLoop ctx (t :: rest) acc = pvLoop ctx rest (acc ++ t.render) := by
  cases t <;> first | rfl | exact absurd rfl h2 | exact absurd rfl (h1 _)

/-- Characterisation of a successful `pvLoop`: the consumed tokens form a
prefix whose renderings concatenate to the value. -/
theorem pvLoop_spec (ctx : PCtx) : ∀ (rem : List Token) (acc v : String) (r : List Token),
    pvLoop ctx rem acc = .ok (v, r) →
    ∃ ts, rem = ts ++ r ∧ v = acc ++ String.join (ts.map Token.render)
      ∧ ∀ t ∈ ts, ∀ p, t ≠ Token.CloseSquare p
  | [], acc, v, r, h => absurd h (by simp [pvLoop])
  | t :: rest, acc, v, r, h => by
    by_cases hcs : ∃ p, t = Token.CloseSquare p
    · obtain ⟨p, rfl⟩ := hcs
      rw [pvLoop] at h
      have h2 : (Except.ok (acc, Token.CloseSquare p :: rest)
          : Except ParserError (String × List Token)) = .ok (v, r) := h
      rw [Except.ok.injEq, Prod.mk.injEq] at h2
      obtain ⟨rfl, rfl⟩ := h2
      refine ⟨[], rfl, ?_, fun t ht => absurd ht (List.not_mem_nil t)⟩
      show acc = acc ++ String.join []
      rw [show String.join [] = "" from rfl]
      exact (String.append_empty acc).symm
    · push_neg at hcs
      by_cases heof : t = Token.Eof
      · subst heof
        exact absurd h (by simp [pvLoop])
      · rw [pvLoop_step ctx t rest acc (fun p => hcs p) heof] at h
        obtain ⟨ts, hrem, hv, hsafe⟩ := pvLoop_spec ctx rest _ v r h
        refine ⟨t :: ts, by rw [List.cons_append, hrem], ?_, ?_⟩
        · rw [hv, List.map_cons, sjoin_cons, ← String.append_assoc]
        · intro x hx
          rcases List.mem_cons.mp hx with rfl | hx
          · exact fun p => hcs p
          · exact hsafe x hx

theorem parse_propvalue_wf (toks : List Token) (hG : GoodToks toks) (ctx : PCtx)
    (rem : List Token) (v : String) (r : List Token) (hsub : rem <:+ toks)
    (h : parse_propvalue ctx rem = .ok (v, r)) : ValueOK v := by
  simp only [parse_propvalue] at h
  split at h
  · rename_i p hpk
    split at h
    · exact Except.noConfusion h
    · rename_i s rem2 hpv
      split at h
      · rw [Except.ok.injEq, Prod.mk.injEq] at h
        obtain ⟨rfl, rfl⟩ := h
        obtain ⟨rem1, hrem1⟩ : ∃ rem1, rem = Token.OpenSquare p :: rem1 := by
          cases rem with
          | nil => exact absurd hpk (by simp [peekTok])
          | cons t rest =>
            simp only [peekTok] at hpk
            exact ⟨rest, by rw [hpk]⟩
        subst hrem1
        simp only [pread] at hpv
        obtain ⟨ts, hdec, hv, hsafe⟩ := pvLoop_spec ctx rem1 "" _ _ hpv
        obtain ⟨pre, hpre⟩ := hsub
        refine ⟨ts, ?_, ?_, by rw [hv, String.empty_append]⟩
        · intro t ht
          refine ⟨hG.1 t ?_, hsafe t ht⟩
          rw [← hpre, hdec]
          exact List.mem_append_right pre (List.mem_cons_of_mem _ (List.mem_append_left rem2 ht))
        · refine List.Chain'.infix hG.2 ⟨pre ++ [Token.OpenSquare p], rem2, ?_⟩
          rw [← hpre, hdec]
          simp
      · exact Except.noConfusion h
  · exact Except.noConfusion h

theorem parse_propident_wf (toks : List Token) (hG : GoodToks toks) (ctx : PCtx)
    (rem : List Token) (s : String) (r : List Token) (hsub : rem <:+ toks)
    (h : parse_propident ctx rem = .ok (s, r)) : IdentOK s := by
  cases rem with
  | nil => exact absurd h (by simp [parse_propident, pread])
  | cons t rest =>
    cases t
    case UcLetter p str =>
      have h2 : (Except.ok (str, rest) : Except ParserError (String × List Token))
          = .ok (s, r) := h
      rw [Except.ok.injEq, Prod.mk.injEq] at h2
      obtain ⟨rfl, rfl⟩ := h2
      have hmem : Token.UcLetter p str ∈ toks := hsub.subset (List.mem_cons_self _ _)
      exact hG.1 _ hmem
    all_goals exact absurd h (by simp [parse_propident, pread])

theorem valueLoopF_wf (toks : List Token) (hG : GoodToks toks) (ctx : PCtx) :
    ∀ (fuel : Nat) (rem : List Token) (acc vs : List String) (r : List Token),
    rem <:+ toks → valueLoopF ctx fuel rem acc = .ok (vs, r) →
    (∀ v ∈ acc, ValueOK v) → ∀ v ∈ vs, ValueOK v
  | 0, rem, acc, vs, r, _, h, _ => by exact Except.noConfusion h
  | fuel + 1, rem, acc, vs, r, hsub, h, hacc => by
    rw [valueLoopF] at h
    split at h
    · split at h
      · exact Except.noConfusion h
      · rename_i v1 rem1 hpv
        have hsub1 : consume_whitespace rem1 <:+ toks :=
          ((cw_suffix rem1).trans (parse_propvalue_suffix ctx rem v1 rem1 hpv)).trans hsub
        refine valueLoopF_wf toks hG ctx fuel _ _ vs r hsub1 h ?_
        intro v hv
        rcases List.mem_append.mp hv with hl | hr
        · exact hacc v hl
        · rw [List.mem_singleton] at hr
          subst hr
          exact parse_propvalue_wf toks hG ctx rem v rem1 hsub hpv
    · rw [Except.ok.injEq, Prod.mk.injEq] at h
      obtain ⟨rfl, rfl⟩ := h
      exact hacc

theorem parse_property_wf (toks : List Token) (hG : GoodToks toks) (ctx : PCtx)
    (rem : List Token) (p : Property) (r : List Token) (hsub : rem <:+ toks)
    (h : parse_property ctx rem = .ok (p, r)) : PropWF p := by
  simp only [parse_property] at h
  split at h
  · exact Except.noConfusion h
  · rename_i ident rem1 hpi
    split at h
    · exact Except.noConfusion h
    · rename_i values rem3 hvl
      obtain ⟨hlen, heq⟩ := ite_error_ok h
      rw [Prod.mk.injEq] at heq
      obtain ⟨rfl, rfl⟩ := heq
      have hsub1 : consume_whitespace rem1 <:+ toks :=
        ((cw_suffix rem1).trans (parse_propident_suffix ctx rem ident rem1 hpi)).trans hsub
      refine ⟨parse_propident_wf toks hG ctx rem ident rem1 hsub hpi,
        fun hnil => hlen (by simpa using congrArg List.length hnil), ?_⟩
      exact valueLoopF_wf toks hG ctx _ _ [] values rem3 hsub1 hvl
        (fun v hv => absurd hv (List.not_mem_nil v))

theorem propLoopF_wf (toks : List Token) (hG : GoodToks toks) (ctx : PCtx) :
    ∀ (fuel : Nat) (rem : List Token) (acc ps : List Property) (r : List Token),
    rem <:+ toks → propLoopF ctx fuel rem acc = .ok (ps, r) →
    (∀ p ∈ acc, PropWF p) → ∀ p ∈ ps, PropWF p
  | 0, rem, acc, ps, r, _, h, _ => by exact Except.noConfusion h
  | fuel + 1, rem, acc, ps, r, hsub, h, hacc => by
    rw [propLoopF] at h
    split at h
    · split at h
      · exact Except.noConfusion h
      · rename_i p1 rem1 hpp
        have hsub1 : consume_whitespace rem1 <:+ toks :=
          ((cw_suffix rem1).trans (parse_property_suffix ctx rem p1 rem1 hpp)).trans hsub
        refine propLoopF_wf toks hG ctx fuel _ _ ps r hsub1 h ?_
        intro p hp
        rcases List.mem_append.mp hp with hl | hr
        · exact hacc p hl
        · rw [List.mem_singleton] at hr
          subst hr
          exact parse_property_wf toks hG ctx rem p rem1 hsub hpp
    · rw [Except.ok.injEq, Prod.mk.injEq] at h
      obtain ⟨rfl, rfl⟩ := h
      exact hacc

theorem parse_node_wf (toks : List Token) (hG : GoodToks toks) (ctx : PCtx)
    (rem : List Token) (n : Node) (r : List Token) (hsub : rem <:+ toks)
    (h : parse_node ctx rem = .ok (n, r)) : NodeWF n := by
  simp only [parse_node] at h
  split at h
  · exact Except.noConfusion h
  · rename_i props rem3 hp
    rw [Except.ok.injEq, Prod.mk.injEq] at h
    obtain ⟨⟨rfl⟩, _⟩ := h
    have hsub1 : consume_whitespace (pread rem).2 <:+ toks := by
      refine ((cw_suffix _).trans ?_).trans hsub
      cases rem with
      | nil => exact List.suffix_refl _
      | cons t rest => exact List.suffix_cons t rest
    exact propLoopF_wf toks hG ctx _ _ [] props rem3 hsub1 hp
      (fun p hp' => absurd hp' (List.not_mem_nil p))

theorem nodeLoopF_wf (toks : List Token) (hG : GoodToks toks) (ctx : PCtx) :
    ∀ (fuel : Nat) (rem : List Token) (acc ns : List Node) (r : List Token),
    rem <:+ toks → nodeLoopF ctx fuel rem acc = .ok (ns, r) →
    (∀ n ∈ acc, NodeWF n) → ∀ n ∈ ns, NodeWF n
  | 0, rem, acc, ns, r, _, h, _ => by exact Except.noConfusion h
  | fuel + 1, rem, acc, ns, r, hsub, h, hacc => by
    rw [nodeLoopF] at h
    split at h
    · split at h
      · exact Except.noConfusion h
      · rename_i n1 rem1 hn
        have hsub1 : consume_whitespace rem1 <:+ toks :=
          ((cw_suffix rem1).trans (parse_node_suffix ctx rem n1 rem1 hn)).trans hsub
        refine nodeLoopF_wf toks hG ctx fuel _ _ ns r hsub1 h ?_
        intro n hn'
        rcases List.mem_append.mp hn' with hl | hr
        · exact hacc n hl
        · rw [List.mem_singleton] at hr
          subst hr
          exact parse_node_wf toks hG ctx rem n rem1 hsub hn
    · rw [Except.ok.injEq, Prod.mk.injEq] at h
      obtain ⟨rfl, rfl⟩ := h
      exact hacc

theorem parse_sequence_wf (toks : List Token) (hG : GoodToks toks) (ctx : PCtx)
    (rem : List Token) (s : Sequence) (r : List Token) (hsub : rem <:+ toks)
    (h : parse_sequence ctx rem = .ok (s, r)) : SeqWF s := by
  simp only [parse_sequence] at h
  split at h
  · exact Except.noConfusion h
  · rename_i nodes rem1 hn
    obtain ⟨hlen, heq⟩ := ite_error_ok h
    rw [Prod.mk.injEq] at heq
    obtain ⟨rfl, rfl⟩ := heq
    refine ⟨fun hnil => hlen (by simpa using congrArg List.length hnil), ?_⟩
    exact nodeLoopF_wf toks hG ctx _ _ [] nodes rem1 hsub hn
      (fun n hn' => absurd hn' (List.not_mem_nil n))

theorem pg_child_wf (toks : List Token) (hG : GoodToks toks) (ctx : PCtx) : ∀ (fuel : Nat),
    (∀ rem t r, rem <:+ toks → pgF ctx fuel rem = .ok (t, r) → TreeWF t)
    ∧ (∀ rem acc trees r, rem <:+ toks → childLoopF ctx fuel rem acc = .ok (trees, r) →
        (∀ t ∈ acc, TreeWF t) → ∀ t ∈ trees, TreeWF t)
  | 0 =>
    ⟨fun _ _ _ _ h => Except.noConfusion h, fun _ _ _ _ _ h _ => Except.noConfusion h⟩
  | fuel + 1 => by
    obtain ⟨ihp, ihc⟩ := pg_child_wf toks hG ctx fuel
    constructor
    · intro rem t r hsub h
      rw [pgF] at h
      split at h
      · exact Except.noConfusion h
      · rename_i seq rem3 hseq
        split at h
        · exact Except.noConfusion h
        · rename_i trees rem5 hch
          rw [Except.ok.injEq, Prod.mk.injEq] at h
          obtain ⟨rfl, rfl⟩ := h
          have hsub0 : consume_whitespace (pread rem).2 <:+ toks := by
            refine ((cw_suffix _).trans ?_).trans hsub
            cases rem with
            | nil => exact List.suffix_refl _
            | cons t rest => exact List.suffix_cons t rest
          have hsub3 : consume_whitespace rem3 <:+ toks :=
            ((cw_suffix rem3).trans (parse_sequence_suffix ctx _ seq rem3 hseq)).trans hsub0
          rw [TreeWF_mk]
          refine ⟨parse_sequence_wf toks hG ctx _ seq rem3 hsub0 hseq, ?_⟩
          exact ihc _ [] trees _ hsub3 hch (fun t ht => absurd ht (List.not_mem_nil t))
    · intro rem acc trees r hsub h hacc
      rw [childLoopF] at h
      split at h
      · split at h
        · exact Except.noConfusion h
        · rename_i t1 rem1 hpg
          have hsub1 : consume_whitespace rem1 <:+ toks :=
            ((cw_suffix rem1).trans ((pg_child_suffix ctx fuel).1 rem _ rem1 hpg)).trans hsub
          refine ihc _ _ trees r hsub1 h ?_
          intro t ht
          rcases List.mem_append.mp ht with hl | hr
          · exact hacc t hl
          · rw [List.mem_singleton] at hr
            subst hr
            exact ihp _ t rem1 hsub hpg
      · rw [Except.ok.injEq, Prod.mk.injEq] at h
        obtain ⟨rfl, rfl⟩ := h
        exact hacc
      · exact Except.noConfusion h

theorem treeLoopF_wf (toks : List Token) (hG : GoodToks toks) (ctx : PCtx) :
    ∀ (fuel : Nat) (rem : List Token) (acc trees : List GameTree) (r : List Token),
    rem <:+ toks → treeLoopF ctx fuel rem acc = .ok (trees, r) →
    (∀ t ∈ acc, TreeWF t) → ∀ t ∈ trees, TreeWF t
  | 0, _, _, _, _, _, h, _ => Except.noConfusion h
  | fuel + 1, rem, acc, trees, r, hsub, h, hacc => by
    rw [treeLoopF] at h
    split at h
    · split at h
      · exact Except.noConfusion h
      · rename_i t1 rem1 hpg
        have hsub1 : rem1 <:+ toks :=
          (parse_gametree_suffix ctx rem _ rem1 hpg).trans hsub
        refine treeLoopF_wf toks hG ctx fuel _ _ trees r hsub1 h ?_
        intro t ht
        rcases List.mem_append.mp ht with hl | hr
        · exact hacc t hl
        · rw [List.mem_singleton] at hr
          subst hr
          exact (pg_child_wf toks hG ctx (2 * rem.length + 2)).1 rem t rem1 hsub hpg
    · rw [Except.ok.injEq, Prod.mk.injEq] at h
      obtain ⟨rfl, rfl⟩ := h
      exact hacc

theorem skipGarbage_suffix : ∀ (l : List Token), skipGarbage l <:+ l
  | [] => List.suffix_refl []
  | t :: r => by
    cases t <;>
      first
        | exact List.suffix_refl _
        | exact (skipGarbage_suffix r).trans (List.suffix_cons _ r)

theorem parse_wf (toks : List Token) (hG : GoodToks toks) (ctx : PCtx)
    (rem : List Token) (c : Collection) (hsub : rem <:+ toks)
    (h : parse ctx rem = .ok c) : CollWF c := by
  simp only [parse] at h
  split at h
  · exact Except.noConfusion h
  · rename_i gametrees rem3 ht
    obtain ⟨hlen, heq⟩ := ite_error_ok h
    subst heq
    have hsub2 : skipGarbage (consume_whitespace rem) <:+ toks :=
      ((skipGarbage_suffix _).trans (cw_suffix rem)).trans hsub
    refine ⟨fun hnil => hlen (by simpa using congrArg List.length hnil), ?_⟩
    exact treeLoopF_wf toks hG ctx _ _ [] gametrees rem3 hsub2 ht
      (fun t ht' => absurd ht' (List.not_mem_nil t))

/-- Part A of the roundtrip: a successfully parsed input yields a
well-formed collection. -/
theorem parseInput_wf (input : String) (c : Collection)
    (h : parseInput input = .ok c) : CollWF c := by
  simp only [parseInput] at h
  split at h
  · exact Except.noConfusion h
  · rename_i toks hscan
    exact parse_wf toks (scan_sound input toks hscan) ⟨toks⟩ toks c (List.suffix_refl _) h

/-! ### Rescanning a rendered token (towards C1, part B): positions are
re-derived by the scanner, so tokens are compared after erasing them. -/

/-- Erase the position of a token. -/
def Token.strip : Token → Token
  | .Eof => .Eof
  | .Whitespace => .Whitespace
  | .Newline _ => .Newline ⟨0, 0⟩
  | .Identifier _ s => .Identifier ⟨0, 0⟩ s
  | .UcLetter _ s => .UcLetter ⟨0, 0⟩ s
  | .OpenParen _ => .OpenParen ⟨0, 0⟩
  | .CloseParen _ => .CloseParen ⟨0, 0⟩
  | .OpenSquare _ => .OpenSquare ⟨0, 0⟩
  | .CloseSquare _ => .CloseSquare ⟨0, 0⟩
  | .Semicolon _ => .Semicolon ⟨0, 0⟩
  | .Float _ f => .Float ⟨0, 0⟩ f
  | .Integer _ n => .Integer ⟨0, 0⟩ n
  | .Escaped _ s => .Escaped ⟨0, 0⟩ s
  | .Ascii _ s => .Ascii ⟨0, 0⟩ s
  | .Bytes _ s => .Bytes ⟨0, 0⟩ s

theorem render_strip (t : Token) : t.strip.render = t.render := by
  cases t <;> rfl

theorem render_eq_of_strip_eq {u t : Token} (h : u.strip = t.strip) :
    u.render = t.render := by
  rw [← render_strip u, ← render_strip t, h]

theorem tokOK_strip (t : Token) : TokOK (Token.strip t) = TokOK t := by
  cases t <;> rfl

theorem strip_closeSquare {t : Token} {q : Position} (h : t.strip = .CloseSquare q) :
    ∃ r, t = Token.CloseSquare r := by
  cases t <;> first | exact ⟨_, rfl⟩ | exact Token.noConfusion h

theorem strip_eof {t : Token} (h : t.strip = .Eof) : t = Token.Eof := by
  cases t <;> first | rfl | exact Token.noConfusion h

theorem strip_ucLetter {t : Token} {q : Position} {s : String}
    (h : t.strip = .UcLetter q s) : ∃ r, t = Token.UcLetter r s := by
  cases t <;> try exact Token.noConfusion h
  rename_i p str
  rw [Token.strip, Token.UcLetter.injEq] at h
  exact ⟨p, by rw [h.2]⟩

/-- Dispatch facts for an identifier-start character in `scan_token`. -/
theorem identStart_dispatch {c : Char} (h : isIdentStart c = true) :
    c ≠ '\x00' ∧ isWsChar c = false ∧ c ≠ '\n' ∧ c ≠ '\\' ∧ c ≠ '(' ∧ c ≠ ')'
      ∧ c ≠ '[' ∧ c ≠ ']' ∧ isDigitChar c = false ∧ c ≠ ';' := by
  have hdg : isDigitChar c = false := by
    simp only [isIdentStart, decide_eq_true_eq] at h
    simp only [isDigitChar, decide_eq_false_iff_not, not_and, not_le]
    intro h3
    rcases h with ⟨h1, _⟩ | ⟨h1, _⟩ | rfl
    · exact lt_of_lt_of_le (by decide) h1
    · exact lt_of_lt_of_le (by decide) h1
    · exact lt_of_lt_of_le (by decide) (le_refl _)
  have hws : isWsChar c = false := by
    cases hb : isWsChar c
    · rfl
    · rcases wsChar_cases hb with rfl | rfl | rfl <;> revert h <;> decide
  refine ⟨?_, hws, ?_, ?_, ?_, ?_, ?_, ?_, hdg, ?_⟩ <;>
    · intro hc
      subst hc
      revert h
      decide

/-- Dispatch facts for an `Ascii`-class character in `scan_token`. -/
theorem otherAscii_dispatch {c : Char} (h : isOtherAsciiChar c = true) :
    c ≠ '\x00' ∧ isWsChar c = false ∧ c ≠ '\n' ∧ c ≠ '\\' ∧ c ≠ '(' ∧ c ≠ ')'
      ∧ c ≠ '[' ∧ c ≠ ']' ∧ isDigitChar c = false ∧ isIdentStart c = false ∧ c ≠ ';'
      ∧ isPrintableAscii c = true := by
  simp only [isOtherAsciiChar, isStructChar, Bool.and_eq_true, Bool.not_eq_true',
    decide_eq_false_iff_not, decide_eq_true_eq] at h
  obtain ⟨⟨⟨⟨⟨hpr, hws⟩, hbs⟩, hst⟩, hdg⟩, hid⟩ := h
  push_neg at hst
  obtain ⟨h1, h2, h3, h4, h5⟩ := hst
  refine ⟨?_, hws, ?_, hbs, h1, h2, h3, h4, hdg, hid, h5, by
    simpa [isPrintableAscii] using hpr⟩
  · intro hc
    subst hc
    simp only [isPrintableAscii, decide_eq_true_eq] at hpr
    exact absurd hpr.1 (by decide)
  · intro hc
    subst hc
    simp only [isPrintableAscii, decide_eq_true_eq] at hpr
    exact absurd hpr.1 (by decide)

/-- Dispatch facts for a `Bytes`-class character in `scan_token`. -/
theorem bytes_dispatch {c : Char} (h : isBytesChar c = true) :
    c ≠ '\x00' ∧ isWsChar c = false ∧ c ≠ '\n' ∧ c ≠ '\\' ∧ c ≠ '(' ∧ c ≠ ')'
      ∧ c ≠ '[' ∧ c ≠ ']' ∧ isDigitChar c = false ∧ isIdentStart c = false ∧ c ≠ ';'
      ∧ isPrintableAscii c = false := by
  simp only [isBytesChar, isStructChar, Bool.and_eq_true, Bool.not_eq_true',
    decide_eq_false_iff_not, decide_eq_true_eq] at h
  obtain ⟨⟨⟨⟨⟨⟨⟨h0, hws⟩, hnl⟩, hbs⟩, hst⟩, hdg⟩, hid⟩, hpr⟩ := h
  push_neg at hst
  obtain ⟨h1, h2, h3, h4, h5⟩ := hst
  exact ⟨h0, hws, hnl, hbs, h1, h2, h3, h4, hdg, hid, h5, hpr⟩

/-- `scan_whitespace` stops at once when the head is not whitespace. -/
theorem scan_whitespace_stop (l : List Char) (p : Position)
    (h : isWsChar (l.headD '\x00') = false) : scan_whitespace l p = ⟨l, p⟩ := by
  cases l with
  | nil => rfl
  | cons c rest =>
    rw [List.headD_cons] at h
    rw [scan_whitespace, if_neg (by rw [h]; exact Bool.false_ne_true)]

theorem scan_newlines_stop (l : List Char) (p : Position)
    (h : l.headD '\x00' ≠ '\n') : scan_newlines l p = ⟨l, p⟩ := by
  cases l with
  | nil => rfl
  | cons c rest =>
    rw [List.headD_cons] at h
    rw [scan_newlines, if_neg h]

/-- `scanDigitRun` consumes exactly a digit run bounded by a non-digit. -/
theorem scanDigitRun_append : ∀ (l tail : List Char) (p : Position),
    (∀ c ∈ l, isDigitChar c = true) → isDigitChar (tail.headD '\x00') = false →
    ∃ p', scanDigitRun (l ++ tail) p = (l, ⟨tail, p'⟩)
  | [], tail, p, _, htail => by
    refine ⟨p, ?_⟩
    cases tail with
    | nil => rfl
    | cons c rest =>
      rw [List.headD_cons] at htail
      rw [List.nil_append, scanDigitRun, if_neg (by rw [htail]; exact Bool.false_ne_true)]
  | c :: l, tail, p, hl, htail => by
    obtain ⟨p', hp'⟩ := scanDigitRun_append l tail (posAdvance p c)
      (fun x hx => hl x (List.mem_cons_of_mem c hx)) htail
    refine ⟨p', ?_⟩
    rw [List.cons_append, scanDigitRun, if_pos (hl c (List.mem_cons_self c l)), hp']

/-- The `upper'` update of `scanIdentRun` as a boolean conjunction. -/
theorem upperStep (c : Char) (u : Bool) :
    (if c < 'A' ∨ 'Z' < c then false else u) = (u && isUcChar c) := by
  split
  · rename_i hlt
    simp only [isUcChar]
    rcases hlt with hlt | hlt
    · rw [decide_eq_false (by intro ⟨ha, _⟩; exact absurd hlt (not_lt.mpr ha))]
      simp
    · rw [decide_eq_false (by intro ⟨_, hb⟩; exact absurd hlt (not_lt.mpr hb))]
      simp
  · rename_i hlt
    push_neg at hlt
    simp only [isUcChar]
    rw [decide_eq_true (by exact ⟨hlt.1, hlt.2⟩)]
    simp

/-- `scanIdentRun` consumes exactly an identifier run bounded by a
non-identifier character, tracking uppercase-ness of the run. -/
theorem scanIdentRun_append : ∀ (l tail : List Char) (p : Position) (u : Bool),
    (∀ c ∈ l, isIdentChar c = true) → isIdentChar (tail.headD '\x00') = false →
    ∃ p', scanIdentRun (l ++ tail) p u
      = (l, u && l.all (fun c => isUcChar c), ⟨tail, p'⟩)
  | [], tail, p, u, _, htail => by
    refine ⟨p, ?_⟩
    rw [List.all_nil, Bool.and_true]
    cases tail with
    | nil => rfl
    | cons c rest =>
      rw [List.headD_cons] at htail
      rw [List.nil_append, scanIdentRun, if_neg (by rw [htail]; exact Bool.false_ne_true)]
  | c :: l, tail, p, u, hl, htail => by
    obtain ⟨p', hp'⟩ := scanIdentRun_append l tail (posAdvance p c)
      (if c < 'A' ∨ 'Z' < c then false else u)
      (fun x hx => hl x (List.mem_cons_of_mem c hx)) htail
    refine ⟨p', ?_⟩
    rw [List.cons_append, scanIdentRun, if_pos (hl c (List.mem_cons_self c l))]
    dsimp only
    rw [hp', upperStep, List.all_cons, ← Bool.and_assoc]

theorem ucChar_identStart {c : Char} (h : isUcChar c = true) : isIdentStart c = true := by
  simp only [isUcChar, decide_eq_true_eq] at h
  simp only [isIdentStart, decide_eq_true_eq]
  exact Or.inr (Or.inl h)

/-- Rescanning the rendering of a well-formed token (followed by text it
cannot run into) reproduces the token up to its position. -/
theorem scan_token_render (t : Token) (ht : TokOK t) (tail : List Char) (p : Position)
    (hb : boundaryOK t (tail.headD '\x00')) :
    ∃ u p', scan_token ⟨t.render.data ++ tail, p⟩ = (⟨tail, p'⟩, .ok u)
      ∧ u.strip = t.strip := by
  cases t with
  | Eof => exact absurd ht (by simp [TokOK])
  | Float q f => exact absurd ht (by simp [TokOK])
  | Whitespace =>
    have hstop : scan_whitespace tail (posAdvance p ' ') = ⟨tail, posAdvance p ' '⟩ :=
      scan_whitespace_stop tail _ (hb.1 rfl)
    refine ⟨Token.Whitespace, posAdvance p ' ', ?_, rfl⟩
    show scan_token ⟨' ' :: tail, p⟩ = (⟨tail, posAdvance p ' '⟩, .ok Token.Whitespace)
    simp only [scan_token, speek, List.headD_cons]
    rw [if_neg (by decide), if_pos (by decide)]
    show (scan_whitespace (' ' :: tail) p, _) = _
    rw [scan_whitespace, if_pos (by decide), hstop]
  | Newline q =>
    have hstop : scan_newlines tail (posAdvance p '\n') = ⟨tail, posAdvance p '\n'⟩ :=
      scan_newlines_stop tail _ (hb.2.1 q rfl)
    refine ⟨Token.Newline (posAdvance p '\n'), posAdvance p '\n', ?_, rfl⟩
    show scan_token ⟨'\n' :: tail, p⟩ = _
    simp only [scan_token, speek, List.headD_cons]
    rw [if_neg (by decide), if_neg (by decide), if_pos (by decide)]
    show (scan_newlines ('\n' :: tail) p, _) = _
    rw [scan_newlines, if_pos (by decide), hstop]
  | Identifier q s =>
    obtain ⟨hne, hstart, hall, hnotuc⟩ := ht
    obtain ⟨c0, cs, hdata⟩ : ∃ c0 cs, s.data = c0 :: cs := by
      cases hdc : s.data with
      | nil => exact absurd hdc hne
      | cons a b => exact ⟨a, b, rfl⟩
    have hd : isIdentStart c0 = true := by
      rw [hdata] at hstart
      simpa using hstart
    obtain ⟨d0, dws, dnl, dbs, dop, dcp, dos, dcs2, ddg, dsc⟩ := identStart_dispatch hd
    have hbnd : isIdentChar (tail.headD '\x00') = false := hb.2.2.1 q s rfl
    obtain ⟨p', hrun⟩ := scanIdentRun_append s.data tail p true hall hbnd
    refine ⟨Token.Identifier p' s, p', ?_, rfl⟩
    show scan_token ⟨s.data ++ tail, p⟩ = (⟨tail, p'⟩, .ok (Token.Identifier p' s))
    rw [hdata, List.cons_append]
    simp only [scan_token, speek, List.headD_cons]
    rw [if_neg d0, if_neg (by simp [dws]), if_neg dnl, if_neg dbs, if_neg dop,
      if_neg dcp, if_neg dos, if_neg dcs2, if_neg (by simp [ddg]), if_pos hd]
    simp only [scan_identifier]
    rw [show (c0 : Char) :: (cs ++ tail) = s.data ++ tail by rw [hdata, List.cons_append],
      hrun]
    dsimp only
    rw [Bool.true_and, hnotuc]
    rw [if_neg (by exact Bool.false_ne_true)]
  | UcLetter q s =>
    obtain ⟨hne, halluc⟩ := ht
    obtain ⟨c0, cs, hdata⟩ : ∃ c0 cs, s.data = c0 :: cs := by
      cases hdc : s.data with
      | nil => exact absurd hdc hne
      | cons a b => exact ⟨a, b, rfl⟩
    have hd : isIdentStart c0 = true :=
      ucChar_identStart (halluc c0 (hdata ▸ List.mem_cons_self c0 cs))
    obtain ⟨d0, dws, dnl, dbs, dop, dcp, dos, dcs2, ddg, dsc⟩ := identStart_dispatch hd
    have hbnd : isIdentChar (tail.headD '\x00') = false := hb.2.2.2.1 q s rfl
    have hall : ∀ c ∈ s.data, isIdentChar c = true := by
      intro c hc
      simp [isIdentChar, ucChar_identStart (halluc c hc)]
    obtain ⟨p', hrun⟩ := scanIdentRun_append s.data tail p true hall hbnd
    have hup : s.data.all (fun c => isUcChar c) = true :=
      List.all_eq_true.mpr (fun c hc => halluc c hc)
    refine ⟨Token.UcLetter p' s, p', ?_, rfl⟩
    show scan_token ⟨s.data ++ tail, p⟩ = (⟨tail, p'⟩, .ok (Token.UcLetter p' s))
    rw [hdata, List.cons_append]
    simp only [scan_token, speek, List.headD_cons]
    rw [if_neg d0, if_neg (by simp [dws]), if_neg dnl, if_neg dbs, if_neg dop,
      if_neg dcp, if_neg dos, if_neg dcs2, if_neg (by simp [ddg]), if_pos hd]
    simp only [scan_identifier]
    rw [show (c0 : Char) :: (cs ++ tail) = s.data ++ tail by rw [hdata, List.cons_append],
      hrun]
    dsimp only
    rw [Bool.true_and, hup]
    rw [if_pos rfl]
  | Integer q n =>
    obtain ⟨c0, cs, hdata⟩ : ∃ c0 cs, (natRender n).data = c0 :: cs := by
      cases hdc : (natRender n).data with
      | nil => exact absurd hdc (natRender_ne_nil n)
      | cons a b => exact ⟨a, b, rfl⟩
    have hd : isDigitChar c0 = true :=
      natRender_all_digits n c0 (hdata ▸ List.mem_cons_self c0 cs)
    obtain ⟨d0, dws, dnl, dbs, dop, dcp, dos, dcs2⟩ := digit_dispatch hd
    have hbnd : isDigitChar (tail.headD '\x00') = false := hb.2.2.2.2 q n rfl
    obtain ⟨p', hrun⟩ := scanDigitRun_append (natRender n).data tail p
      (natRender_all_digits n) hbnd
    refine ⟨Token.Integer p' n, p', ?_, rfl⟩
    show scan_token ⟨(natRender n).data ++ tail, p⟩ = (⟨tail, p'⟩, .ok (Token.Integer p' n))
    rw [hdata, List.cons_append]
    simp only [scan_token, speek, List.headD_cons]
    rw [if_neg d0, if_neg (by simp [dws]), if_neg dnl, if_neg dbs, if_neg dop,
      if_neg dcp, if_neg dos, if_neg dcs2, if_pos hd]
    simp only [scan_number]
    rw [show (c0 : Char) :: (cs ++ tail) = (natRender n).data ++ tail by
        rw [hdata, List.cons_append], hrun]
    dsimp only
    rw [natRender_roundtrip]
    rw [if_pos (show n < 2 ^ 64 from ht)]
  | Escaped q s =>
    obtain ⟨c1, hdata⟩ := ht
    have hrd : (Token.Escaped q s).render.data = '\\' :: s.data := by
      simp [Token.render]
    refine ⟨Token.Escaped (posAdvance (posAdvance p '\\') c1) (String.mk [c1]),
      posAdvance (posAdvance p '\\') c1, ?_, ?_⟩
    · rw [hrd, hdata, List.cons_append, List.cons_append]
      simp only [scan_token, speek, List.headD_cons]
      rw [if_neg (by decide), if_neg (by decide), if_neg (by decide), if_pos trivial]
      simp only [scan_escaped, sread, List.nil_append]
    · show Token.Escaped _ (String.mk [c1]) = Token.Escaped _ s
      rw [← hdata]
  | OpenParen q =>
    refine ⟨Token.OpenParen p, posAdvance p '(', ?_, rfl⟩
    show scan_token ⟨'(' :: tail, p⟩ = (⟨tail, posAdvance p '('⟩, .ok (Token.OpenParen p))
    simp only [scan_token, speek, List.headD_cons]
    rw [if_neg (by decide), if_neg (by decide), if_neg (by decide), if_neg (by decide),
      if_pos trivial]
    simp only [sread]
  | CloseParen q =>
    refine ⟨Token.CloseParen p, posAdvance p ')', ?_, rfl⟩
    show scan_token ⟨')' :: tail, p⟩ = (⟨tail, posAdvance p ')'⟩, .ok (Token.CloseParen p))
    simp only [scan_token, speek, List.headD_cons]
    rw [if_neg (by decide), if_neg (by decide), if_neg (by decide), if_neg (by decide),
      if_neg (by decide), if_pos trivial]
    simp only [sread]
  | OpenSquare q =>
    refine ⟨Token.OpenSquare p, posAdvance p '[', ?_, rfl⟩
    show scan_token ⟨'[' :: tail, p⟩ = (⟨tail, posAdvance p '['⟩, .ok (Token.OpenSquare p))
    simp only [scan_token, speek, List.headD_cons]
    rw [if_neg (by decide), if_neg (by decide), if_neg (by decide), if_neg (by decide),
      if_neg (by decide), if_neg (by decide), if_pos trivial]
    simp only [sread]
  | CloseSquare q =>
    refine ⟨Token.CloseSquare p, posAdvance p ']', ?_, rfl⟩
    show scan_token ⟨']' :: tail, p⟩ = (⟨tail, posAdvance p ']'⟩, .ok (Token.CloseSquare p))
    simp only [scan_token, speek, List.headD_cons]
    rw [if_neg (by decide), if_neg (by decide), if_neg (by decide), if_neg (by decide),
      if_neg (by decide), if_neg (by decide), if_neg (by decide), if_pos trivial]
    simp only [sread]
  | Semicolon q =>
    refine ⟨Token.Semicolon p, posAdvance p ';', ?_, rfl⟩
    show scan_token ⟨';' :: tail, p⟩ = (⟨tail, posAdvance p ';'⟩, .ok (Token.Semicolon p))
    simp only [scan_token, speek, List.headD_cons]
    rw [if_neg (by decide), if_neg (by decide), if_neg (by decide), if_neg (by decide),
      if_neg (by decide), if_neg (by decide), if_neg (by decide), if_neg (by decide),
      if_neg (by decide), if_neg (by decide), if_pos trivial]
    simp only [sread]
  | Ascii q s =>
    obtain ⟨c1, hdata, hclass⟩ := ht
    obtain ⟨d0, dws, dnl, dbs, dop, dcp, dos, dcs2, ddg, did, dsc, dpr⟩ :=
      otherAscii_dispatch hclass
    refine ⟨Token.Ascii (posAdvance p c1) (String.mk [c1]), posAdvance p c1, ?_, ?_⟩
    · show scan_token ⟨s.data ++ tail, p⟩ = _
      rw [hdata, List.cons_append]
      simp only [scan_token, speek, List.headD_cons]
      rw [if_neg d0, if_neg (by simp [dws]), if_neg dnl, if_neg dbs, if_neg dop,
        if_neg dcp, if_neg dos, if_neg dcs2, if_neg (by simp [ddg]),
        if_neg (by simp [did]), if_neg dsc, if_pos dpr]
      simp only [scan_ascii, sread, List.nil_append]
    · show Token.Ascii _ (String.mk [c1]) = Token.Ascii _ s
      rw [← hdata]
  | Bytes q s =>
    obtain ⟨c1, hdata, hclass⟩ := ht
    obtain ⟨d0, dws, dnl, dbs, dop, dcp, dos, dcs2, ddg, did, dsc, dpr⟩ :=
      bytes_dispatch hclass
    refine ⟨Token.Bytes (posAdvance p c1) (String.mk [c1]), posAdvance p c1, ?_, ?_⟩
    · show scan_token ⟨s.data ++ tail, p⟩ = _
      rw [hdata, List.cons_append]
      simp only [scan_token, speek, List.headD_cons]
      rw [if_neg d0, if_neg (by simp [dws]), if_neg dnl, if_neg dbs, if_neg dop,
        if_neg dcp, if_neg dos, if_neg dcs2, if_neg (by simp [ddg]),
        if_neg (by simp [did]), if_neg dsc, if_neg (by simp [dpr])]
      simp only [scan_bytes, sread, List.nil_append]
    · show Token.Bytes _ (String.mk [c1]) = Token.Bytes _ s
      rw [← hdata]

theorem render_ne_nil {t : Token} (ht : TokOK t) : t.render.data ≠ [] := by
  cases t with
  | Eof => exact absurd ht (by simp [TokOK])
  | Float q f => exact absurd ht (by simp [TokOK])
  | Integer q n => exact natRender_ne_nil n
  | Identifier q s => exact ht.1
  | UcLetter q s => exact ht.1
  | Escaped q s => simp [Token.render]
  | Ascii q s =>
    obtain ⟨c, hdata, _⟩ := ht
    simp [Token.render, hdata]
  | Bytes q s =>
    obtain ⟨c, hdata, _⟩ := ht
    simp [Token.render, hdata]
  | _ => simp [Token.render]

theorem headD_append {l l' : List Char} (h : l ≠ []) (c d : Char) :
    (l ++ l').headD c = l.headD d := by
  cases l with
  | nil => exact absurd rfl h
  | cons a b => rfl

theorem join_render_eq {us ts : List Token}
    (h : List.Forall₂ (fun u t => u.strip = t.strip) us ts) :
    String.join (us.map Token.render) = String.join (ts.map Token.render) := by
  induction h with
  | nil => rfl
  | cons h1 h2 ih =>
    rw [List.map_cons, List.map_cons, sjoin_cons, sjoin_cons,
      render_eq_of_strip_eq h1, ih]

theorem forall₂_safe {us ts : List Token}
    (h : List.Forall₂ (fun u t => u.strip = t.strip) us ts)
    (hts : ∀ t ∈ ts, TokOK t ∧ ∀ r, t ≠ Token.CloseSquare r) :
    ∀ u ∈ us, (∀ r, u ≠ Token.CloseSquare r) ∧ u ≠ Token.Eof := by
  induction h with
  | nil => exact fun u hu => absurd hu (List.not_mem_nil u)
  | cons h1 h2 ih =>
    rename_i u t us' ts'
    intro x hx
    rcases List.mem_cons.mp hx with rfl | hx
    · obtain ⟨htk, hsafe⟩ := hts t (List.mem_cons_self t ts')
      constructor
      · intro r hr
        subst hr
        obtain ⟨r', hr'⟩ := strip_closeSquare h1.symm
        exact hsafe r' hr'
      · intro hr
        subst hr
        have := strip_eof h1.symm
        rw [this] at htk
        exact absurd htk (by simp [TokOK])
    · exact ih (fun t' ht' => hts t' (List.mem_cons_of_mem t ht')) x hx

theorem strip_openParen {t : Token} {q : Position} (h : t.strip = .OpenParen q) :
    ∃ r, t = Token.OpenParen r := by
  cases t <;> first | exact ⟨_, rfl⟩ | exact Token.noConfusion h

theorem strip_closeParen {t : Token} {q : Position} (h : t.strip = .CloseParen q) :
    ∃ r, t = Token.CloseParen r := by
  cases t <;> first | exact ⟨_, rfl⟩ | exact Token.noConfusion h

theorem strip_openSquare {t : Token} {q : Position} (h : t.strip = .OpenSquare q) :
    ∃ r, t = Token.OpenSquare r := by
  cases t <;> first | exact ⟨_, rfl⟩ | exact Token.noConfusion h

theorem strip_semicolon {t : Token} {q : Position} (h : t.strip = .Semicolon q) :
    ∃ r, t = Token.Semicolon r := by
  cases t <;> first | exact ⟨_, rfl⟩ | exact Token.noConfusion h

/-- One fueled-scan step over the rendering of one well-formed token. -/
theorem scan_step_tok (t : Token) (ht : TokOK t) (tail : List Char) (p : Position)
    (hb : boundaryOK t (tail.headD '\x00')) :
    ∃ u p', u.strip = t.strip
      ∧ ∀ (fuel : Nat) (acc : List Token),
        scanGoF (fuel + 1) ⟨t.render.data ++ tail, p⟩ acc
          = scanGoF fuel ⟨tail, p'⟩ (u :: acc) := by
  obtain ⟨u, p', heq, hstrip⟩ := scan_token_render t ht tail p hb
  have hne : u ≠ Token.Eof := by
    intro hr
    subst hr
    have h2 : t = Token.Eof := strip_eof hstrip.symm
    rw [h2] at ht
    exact absurd ht (by simp [TokOK])
  exact ⟨u, p', hstrip, fun fuel acc => scanGoF_step fuel _ _ u acc heq hne⟩

/-- Scanning the concatenated renderings of a boundary-disciplined token run
reproduces the run up to positions. -/
theorem scan_run : ∀ (ts : List Token) (tail : List Char) (p : Position),
    (∀ t ∈ ts, TokOK t) →
    List.Chain' (fun a b => boundaryOK a (leadCharD b)) ts →
    (∀ t, ts.getLast? = some t → boundaryOK t (tail.headD '\x00')) →
    ∃ us q, List.Forall₂ (fun u t => u.strip = t.strip) us ts
      ∧ ∀ (fuel : Nat) (acc : List Token),
        scanGoF (fuel + ts.length) ⟨(String.join (ts.map Token.render)).data ++ tail, p⟩ acc
          = scanGoF fuel ⟨tail, q⟩ (us.reverse ++ acc)
  | [], tail, p, _, _, _ => ⟨[], p, List.Forall₂.nil, fun _ _ => rfl⟩
  | t :: ts', tail, p, hok, hch, hlast => by
    have htok : TokOK t := hok t (List.mem_cons_self t ts')
    have hbt : boundaryOK t (((String.join (ts'.map Token.render)).data ++ tail).headD '\x00') := by
      cases ts' with
      | nil => exact hlast t rfl
      | cons t2 ts2 =>
        have hb2 : boundaryOK t (leadCharD t2) := (List.chain'_cons.mp hch).1
        have hrne : t2.render.data ≠ [] := render_ne_nil (hok t2 (by simp))
        rw [List.map_cons, sjoin_cons]
        rw [show (t2.render ++ String.join (ts2.map Token.render)).data
            = t2.render.data ++ (String.join (ts2.map Token.render)).data from
          String.data_append _ _]
        rw [List.append_assoc, headD_append hrne _ ']']
        exact hb2
    obtain ⟨u, p1, hstrip, hstep⟩ := scan_step_tok t htok
      ((String.join (ts'.map Token.render)).data ++ tail) p hbt
    obtain ⟨us', q, hf2, heq2⟩ := scan_run ts' tail p1
      (fun x hx => hok x (List.mem_cons_of_mem t hx))
      (List.chain'_cons'.mp hch).2
      (by
        intro x hx
        cases ts' with
        | nil => exact absurd hx (by simp)
        | cons t2 ts2 =>
          refine hlast x ?_
          rw [List.getLast?_cons_cons]
          exact hx)
    refine ⟨u :: us', q, List.Forall₂.cons hstrip hf2, fun fuel acc => ?_⟩
    rw [show fuel + (t :: ts').length = (fuel + ts'.length) + 1 by simp [List.length_cons]; omega]
    rw [List.map_cons, sjoin_cons]
    rw [show (t.render ++ String.join (ts'.map Token.render)).data
        = t.render.data ++ (String.join (ts'.map Token.render)).data from String.data_append _ _]
    rw [List.append_assoc, hstep (fuel + ts'.length) acc, heq2 fuel (u :: acc)]
    rw [List.reverse_cons, List.append_assoc]
    rfl

/-! ### Token-list shapes of rendered syntax (towards C1, part B). -/

/-- The token run of one rendered, rescanned property value `[v]`. -/
inductive ValT : String → List Token → Prop where
  | mk (q1 q2 : Position) (us : List Token) (v : String)
      (hsafe : ∀ u ∈ us, (∀ r, u ≠ Token.CloseSquare r) ∧ u ≠ Token.Eof)
      (hv : v = String.join (us.map Token.render)) :
      ValT v (Token.OpenSquare q1 :: (us ++ [Token.CloseSquare q2]))

/-- Concatenated value runs. -/
inductive ValsT : List String → List Token → Prop where
  | nil : ValsT [] []
  | cons {v : String} {l : List Token} {vs : List String} {ls : List Token} :
      ValT v l → ValsT vs ls → ValsT (v :: vs) (l ++ ls)

/-- The token run of one rendered property. -/
inductive PropT : Property → List Token → Prop where
  | mk (q : Position) (pr : Property) (ls : List Token)
      (hne : pr.values ≠ []) (hvs : ValsT pr.values ls) :
      PropT pr (Token.UcLetter q pr.ident :: ls)

inductive PropsT : List Property → List Token → Prop where
  | nil : PropsT [] []
  | cons {pr : Property} {l : List Token} {ps : List Property} {ls : List Token} :
      PropT pr l → PropsT ps ls → PropsT (pr :: ps) (l ++ ls)

/-- The token run of one rendered node. -/
inductive NodeT : Node → List Token → Prop where
  | mk (q : Position) (n : Node) (ls : List Token) (h : PropsT n.props ls) :
      NodeT n (Token.Semicolon q :: ls)

inductive NodesT : List Node → List Token → Prop where
  | nil : NodesT [] []
  | cons {n : Node} {l : List Token} {ns : List Node} {ls : List Token} :
      NodeT n l → NodesT ns ls → NodesT (n :: ns) (l ++ ls)

mutual

/-- The token run of one rendered game tree. -/
inductive TreeT : GameTree → List Token → Prop where
  | mk (q1 q2 : Position) (s : Sequence) (ts : List GameTree) (ls ls' : List Token)
      (hne : s.nodes ≠ []) (hn : NodesT s.nodes ls) (hc : TreesT ts ls') :
      TreeT (GameTree.mk s ts) (Token.OpenParen q1 :: (ls ++ ls' ++ [Token.CloseParen q2]))

/-- Concatenated game-tree runs. -/
inductive TreesT : List GameTree → List Token → Prop where
  | nil : TreesT [] []
  | cons {t : GameTree} {l : List Token} {ts : List GameTree} {ls : List Token} :
      TreeT t l → TreesT ts ls → TreesT (t :: ts) (l ++ ls)

end

theorem boundaryOK_char {c : Char} (h1 : isWsChar c = false) (h2 : c ≠ '\n')
    (h3 : isIdentChar c = false) (h4 : isDigitChar c = false) (t : Token) :
    boundaryOK t c :=
  ⟨fun _ => h1, fun p _ => h2, fun p s _ => h3, fun p s _ => h3, fun p n _ => h4⟩

theorem run_len : ∀ (ts : List Token), (∀ t ∈ ts, TokOK t) →
    ts.length ≤ (String.join (ts.map Token.render)).data.length
  | [], _ => Nat.le_refl 0
  | t :: ts', h => by
    rw [List.map_cons, sjoin_cons, List.length_cons]
    rw [show (t.render ++ String.join (ts'.map Token.render)).data
        = t.render.data ++ (String.join (ts'.map Token.render)).data from
      String.data_append _ _]
    rw [List.length_append]
    have h1 : 1 ≤ t.render.data.length := by
      have h0 := render_ne_nil (h t (List.mem_cons_self t ts'))
      cases hd : t.render.data with
      | nil => exact absurd hd h0
      | cons a b => simp
    have h2 := run_len ts' (fun x hx => h x (List.mem_cons_of_mem t hx))
    omega

theorem scanGoF_eof (m : Nat) (q : Position) (acc : List Token) :
    scanGoF (m + 1) ⟨[], q⟩ acc = .ok acc.reverse := rfl

/-- Scanning one rendered value `[v]`. -/
theorem scan_value_chunk (v : String) (hv : ValueOK v) (tail : List Char) (p : Position) :
    ∃ l q, ValT v l ∧ l.length ≤ ("[" ++ v ++ "]").data.length
      ∧ ∀ (fuel : Nat) (acc : List Token),
        scanGoF (fuel + l.length) ⟨("[" ++ v ++ "]").data ++ tail, p⟩ acc
          = scanGoF fuel ⟨tail, q⟩ (l.reverse ++ acc) := by
  obtain ⟨ts, hts, hch, hveq⟩ := hv
  obtain ⟨u0, p1, hs0, hstep1⟩ := scan_step_tok (Token.OpenSquare ⟨0, 0⟩) trivial
    (v.data ++ ']' :: tail) p ((boundaryOK_nonrun ⟨0, 0⟩ _).2.2.1)
  obtain ⟨q1, rfl⟩ := strip_openSquare hs0
  obtain ⟨us, q2, hf2, hstep2⟩ := scan_run ts (']' :: tail) p1
    (fun t ht => (hts t ht).1) hch (fun t _ => boundaryOK_rbrack t)
  obtain ⟨u2, q3, hs2, hstep3⟩ := scan_step_tok (Token.CloseSquare ⟨0, 0⟩) trivial
    tail q2 ((boundaryOK_nonrun ⟨0, 0⟩ _).2.2.2.1)
  obtain ⟨q4, rfl⟩ := strip_closeSquare hs2
  have hlen : us.length = ts.length := hf2.length_eq
  have hvdata : v.data = (String.join (ts.map Token.render)).data := congrArg String.data hveq
  have htext : ("[" ++ v ++ "]").data = '[' :: (v.data ++ [']']) := by
    rw [String.data_append, String.data_append]
    rfl
  have hrl : ts.length ≤ v.data.length := by
    rw [hvdata]
    exact run_len ts (fun t ht => (hts t ht).1)
  refine ⟨Token.OpenSquare q1 :: (us ++ [Token.CloseSquare q4]), q3,
    ValT.mk q1 q4 us v (forall₂_safe hf2 hts) ?_, ?_, fun fuel acc => ?_⟩
  · rw [hveq]
    exact (join_render_eq hf2).symm
  · have hl : (Token.OpenSquare q1 :: (us ++ [Token.CloseSquare q4])).length
        = ts.length + 2 := by simp [hlen]
    rw [hl, htext]
    simp only [List.length_cons, List.length_append, List.length_nil]
    omega
  · have hl : (Token.OpenSquare q1 :: (us ++ [Token.CloseSquare q4])).length
        = us.length + 2 := by simp
    rw [hl, htext]
    rw [show fuel + (us.length + 2) = (((fuel + 1) + ts.length) + 1) by omega]
    rw [List.cons_append, List.append_assoc]
    rw [show ([']'] : List Char) ++ tail = ']' :: tail from rfl]
    rw [show ('[' : Char) :: (v.data ++ (']' :: tail))
        = (Token.OpenSquare (⟨0, 0⟩ : Position)).render.data ++ (v.data ++ ']' :: tail)
      from rfl]
    rw [hstep1 ((fuel + 1) + ts.length) acc, hvdata,
      hstep2 (fuel + 1) (Token.OpenSquare q1 :: acc)]
    rw [show (']' : Char) :: tail
        = (Token.CloseSquare (⟨0, 0⟩ : Position)).render.data ++ tail from rfl]
    rw [hstep3 fuel (us.reverse ++ (Token.OpenSquare q1 :: acc))]
    have hlist : (Token.OpenSquare q1 :: (us ++ [Token.CloseSquare q4])).reverse ++ acc
        = Token.CloseSquare q4 :: (us.reverse ++ (Token.OpenSquare q1 :: acc)) := by
      simp
    rw [hlist]

/-- Scanning a rendered list of values. -/
theorem scan_values_chunk : ∀ (vs : List String), (∀ v ∈ vs, ValueOK v) →
    ∀ (tail : List Char) (p : Position),
    ∃ l q, ValsT vs l
      ∧ l.length ≤ (String.join (vs.map (fun v => "[" ++ v ++ "]"))).data.length
      ∧ ∀ (fuel : Nat) (acc : List Token),
        scanGoF (fuel + l.length)
          ⟨(String.join (vs.map (fun v => "[" ++ v ++ "]"))).data ++ tail, p⟩ acc
        = scanGoF fuel ⟨tail, q⟩ (l.reverse ++ acc)
  | [], _, tail, p => ⟨[], p, ValsT.nil, by simp, fun _ _ => rfl⟩
  | v :: vs', hwf, tail, p => by
    have htext : (String.join ((v :: vs').map (fun v => "[" ++ v ++ "]"))).data
        = ("[" ++ v ++ "]").data
            ++ (String.join (vs'.map (fun v => "[" ++ v ++ "]"))).data := by
      rw [List.map_cons, sjoin_cons, String.data_append]
    obtain ⟨l1, q1, hrel1, hlen1, heq1⟩ := scan_value_chunk v
      (hwf v (List.mem_cons_self v vs'))
      ((String.join (vs'.map (fun v => "[" ++ v ++ "]"))).data ++ tail) p
    obtain ⟨l2, q2, hrel2, hlen2, heq2⟩ := scan_values_chunk vs'
      (fun x hx => hwf x (List.mem_cons_of_mem v hx)) tail q1
    refine ⟨l1 ++ l2, q2, ValsT.cons hrel1 hrel2, ?_, fun fuel acc => ?_⟩
    · rw [htext]
      simp only [List.length_append]
      omega
    · rw [htext, List.append_assoc]
      rw [show fuel + (l1 ++ l2).length = (fuel + l2.length) + l1.length by
        simp only [List.length_append]; omega]
      rw [heq1 (fuel + l2.length) acc, heq2 fuel (l1.reverse ++ acc)]
      rw [show (l1 ++ l2).reverse ++ acc = l2.reverse ++ (l1.reverse ++ acc) by simp]

/-- Scanning one rendered property. -/
theorem scan_property_chunk (pr : Property) (hwf : PropWF pr) (tail : List Char)
    (p : Position) :
    ∃ l q, PropT pr l ∧ l.length ≤ pr.render.data.length
      ∧ ∀ (fuel : Nat) (acc : List Token),
        scanGoF (fuel + l.length) ⟨pr.render.data ++ tail, p⟩ acc
          = scanGoF fuel ⟨tail, q⟩ (l.reverse ++ acc) := by
  obtain ⟨⟨hidne, hiduc⟩, hvne, hvals⟩ := hwf
  have htext : pr.render.data
      = pr.ident.data ++ (String.join (pr.values.map (fun v => "[" ++ v ++ "]"))).data := by
    rw [Property.render, String.data_append]
  have hjne : (String.join (pr.values.map (fun v => "[" ++ v ++ "]"))).data ≠ [] := by
    cases hvs : pr.values with
    | nil => exact absurd hvs hvne
    | cons v0 vs0 =>
      rw [List.map_cons, sjoin_cons]
      rw [show (("[" ++ v0 ++ "]") ++ String.join (vs0.map (fun v => "[" ++ v ++ "]"))).data
          = ("[" ++ v0 ++ "]").data
              ++ (String.join (vs0.map (fun v => "[" ++ v ++ "]"))).data from
        String.data_append _ _]
      rw [show ("[" ++ v0 ++ "]").data = '[' :: (v0.data ++ [']']) by
        rw [String.data_append, String.data_append]; rfl]
      simp
  have hjhead : (String.join (pr.values.map (fun v => "[" ++ v ++ "]"))).data.headD '\x00'
      = '[' := by
    cases hvs : pr.values with
    | nil => exact absurd hvs hvne
    | cons v0 vs0 =>
      rw [List.map_cons, sjoin_cons]
      rw [show (("[" ++ v0 ++ "]") ++ String.join (vs0.map (fun v => "[" ++ v ++ "]"))).data
          = ("[" ++ v0 ++ "]").data
              ++ (String.join (vs0.map (fun v => "[" ++ v ++ "]"))).data from
        String.data_append _ _]
      rw [show ("[" ++ v0 ++ "]").data = '[' :: (v0.data ++ [']']) by
        rw [String.data_append, String.data_append]; rfl]
      rfl
  have hbnd : boundaryOK (Token.UcLetter ⟨0, 0⟩ pr.ident)
      (((String.join (pr.values.map (fun v => "[" ++ v ++ "]"))).data ++ tail).headD '\x00') := by
    rw [headD_append hjne _ '\x00', hjhead]
    exact boundaryOK_char (by decide) (by decide) (by decide) (by decide) _
  obtain ⟨u0, p1, hs0, hstep1⟩ := scan_step_tok (Token.UcLetter ⟨0, 0⟩ pr.ident)
    ⟨hidne, hiduc⟩
    ((String.join (pr.values.map (fun v => "[" ++ v ++ "]"))).data ++ tail) p hbnd
  obtain ⟨q0, rfl⟩ := strip_ucLetter hs0
  obtain ⟨l2, q2, hrel2, hlen2, heq2⟩ := scan_values_chunk pr.values hvals tail p1
  refine ⟨Token.UcLetter q0 pr.ident :: l2, q2, PropT.mk q0 pr l2 hvne hrel2, ?_,
    fun fuel acc => ?_⟩
  · rw [htext]
    simp only [List.length_cons, List.length_append]
    have : 1 ≤ pr.ident.data.length := by
      cases hd : pr.ident.data with
      | nil => exact absurd hd hidne
      | cons a b => simp
    omega
  · rw [htext, List.append_assoc]
    rw [show fuel + (Token.UcLetter q0 pr.ident :: l2).length
        = (fuel + l2.length) + 1 by simp only [List.length_cons]; omega]
    rw [show pr.ident.data = (Token.UcLetter (⟨0, 0⟩ : Position) pr.ident).render.data
      from rfl]
    rw [hstep1 (fuel + l2.length) acc, heq2 fuel (Token.UcLetter q0 pr.ident :: acc)]
    rw [show (Token.UcLetter q0 pr.ident :: l2).reverse ++ acc
        = l2.reverse ++ (Token.UcLetter q0 pr.ident :: acc) by simp]

/-- Scanning a rendered list of properties. -/
theorem scan_props_chunk : ∀ (ps : List Property), (∀ x ∈ ps, PropWF x) →
    ∀ (tail : List Char) (p : Position),
    ∃ l q, PropsT ps l
      ∧ l.length ≤ (String.join (ps.map (fun x => x.render))).data.length
      ∧ ∀ (fuel : Nat) (acc : List Token),
        scanGoF (fuel + l.length)
          ⟨(String.join (ps.map (fun x => x.render))).data ++ tail, p⟩ acc
        = scanGoF fuel ⟨tail, q⟩ (l.reverse ++ acc)
  | [], _, tail, p => ⟨[], p, PropsT.nil, by simp, fun _ _ => rfl⟩
  | x :: ps', hwf, tail, p => by
    have htext : (String.join ((x :: ps').map (fun x => x.render))).data
        = x.render.data ++ (String.join (ps'.map (fun x => x.render))).data := by
      rw [List.map_cons, sjoin_cons, String.data_append]
    obtain ⟨l1, q1, hrel1, hlen1, heq1⟩ := scan_property_chunk x
      (hwf x (List.mem_cons_self x ps'))
      ((String.join (ps'.map (fun x => x.render))).data ++ tail) p
    obtain ⟨l2, q2, hrel2, hlen2, heq2⟩ := scan_props_chunk ps'
      (fun y hy => hwf y (List.mem_cons_of_mem x hy)) tail q1
    refine ⟨l1 ++ l2, q2, PropsT.cons hrel1 hrel2, ?_, fun fuel acc => ?_⟩
    · rw [htext]
      simp only [List.length_append]
      omega
    · rw [htext, List.append_assoc]
      rw [show fuel + (l1 ++ l2).length = (fuel + l2.length) + l1.length by
        simp only [List.length_append]; omega]
      rw [heq1 (fuel + l2.length) acc, heq2 fuel (l1.reverse ++ acc)]
      rw [show (l1 ++ l2).reverse ++ acc = l2.reverse ++ (l1.reverse ++ acc) by simp]

/-- Scanning one rendered node. -/
theorem scan_node_chunk (n : Node) (hwf : NodeWF n) (tail : List Char) (p : Position) :
    ∃ l q, NodeT n l ∧ l.length ≤ n.render.data.length
      ∧ ∀ (fuel : Nat) (acc : List Token),
        scanGoF (fuel + l.length) ⟨n.render.data ++ tail, p⟩ acc
          = scanGoF fuel ⟨tail, q⟩ (l.reverse ++ acc) := by
  have htext : n.render.data
      = ';' :: (String.join (n.props.map (fun x => x.render))).data := by
    rw [Node.render]
    rw [show (";" ++ String.join (n.props.map (fun x => x.render))).data
        = ";".data ++ (String.join (n.props.map (fun x => x.render))).data from
      String.data_append _ _]
    rfl
  obtain ⟨u0, p1, hs0, hstep1⟩ := scan_step_tok (Token.Semicolon ⟨0, 0⟩) trivial
    ((String.join (n.props.map (fun x => x.render))).data ++ tail) p
    ((boundaryOK_nonrun ⟨0, 0⟩ _).2.2.2.2)
  obtain ⟨q0, rfl⟩ := strip_semicolon hs0
  obtain ⟨l2, q2, hrel2, hlen2, heq2⟩ := scan_props_chunk n.props hwf tail p1
  refine ⟨Token.Semicolon q0 :: l2, q2, NodeT.mk q0 n l2 hrel2, ?_, fun fuel acc => ?_⟩
  · rw [htext]
    simp only [List.length_cons]
    omega
  · rw [htext, List.cons_append]
    rw [show fuel + (Token.Semicolon q0 :: l2).length = (fuel + l2.length) + 1 by
      simp only [List.length_cons]; omega]
    rw [show (';' : Char)
          :: ((String.join (n.props.map (fun x => x.render))).data ++ tail)
        = (Token.Semicolon (⟨0, 0⟩ : Position)).render.data
          ++ ((String.join (n.props.map (fun x => x.render))).data ++ tail) from rfl]
    rw [hstep1 (fuel + l2.length) acc, heq2 fuel (Token.Semicolon q0 :: acc)]
    rw [show (Token.Semicolon q0 :: l2).reverse ++ acc
        = l2.reverse ++ (Token.Semicolon q0 :: acc) by simp]

/-- Scanning a rendered list of nodes. -/
theorem scan_nodes_chunk : ∀ (ns : List Node), (∀ x ∈ ns, NodeWF x) →
    ∀ (tail : List Char) (p : Position),
    ∃ l q, NodesT ns l
      ∧ l.length ≤ (String.join (ns.map (fun x => x.render))).data.length
      ∧ ∀ (fuel : Nat) (acc : List Token),
        scanGoF (fuel + l.length)
          ⟨(String.join (ns.map (fun x => x.render))).data ++ tail, p⟩ acc
        = scanGoF fuel ⟨tail, q⟩ (l.reverse ++ acc)
  | [], _, tail, p => ⟨[], p, NodesT.nil, by simp, fun _ _ => rfl⟩
  | x :: ns', hwf, tail, p => by
    have htext : (String.join ((x :: ns').map (fun x => x.render))).data
        = x.render.data ++ (String.join (ns'.map (fun x => x.render))).data := by
      rw [List.map_cons, sjoin_cons, String.data_append]
    obtain ⟨l1, q1, hrel1, hlen1, heq1⟩ := scan_node_chunk x
      (hwf x (List.mem_cons_self x ns'))
      ((String.join (ns'.map (fun x => x.render))).data ++ tail) p
    obtain ⟨l2, q2, hrel2, hlen2, heq2⟩ := scan_nodes_chunk ns'
      (fun y hy => hwf y (List.mem_cons_of_mem x hy)) tail q1
    refine ⟨l1 ++ l2, q2, NodesT.cons hrel1 hrel2, ?_, fun fuel acc => ?_⟩
    · rw [htext]
      simp only [List.length_append]
      omega
    · rw [htext, List.append_assoc]
      rw [show fuel + (l1 ++ l2).length = (fuel + l2.length) + l1.length by
        simp only [List.length_append]; omega]
      rw [heq1 (fuel + l2.length) acc, heq2 fuel (l1.reverse ++ acc)]
      rw [show (l1 ++ l2).reverse ++ acc = l2.reverse ++ (l1.reverse ++ acc) by simp]

/-- Scanning a rendered list of game trees (given the per-tree property). -/
theorem scan_trees_chunk : ∀ (ts : List GameTree),
    (∀ t ∈ ts, ∀ (tail : List Char) (p : Position),
      ∃ l q, TreeT t l ∧ l.length ≤ t.render.data.length
        ∧ ∀ (fuel : Nat) (acc : List Token),
          scanGoF (fuel + l.length) ⟨t.render.data ++ tail, p⟩ acc
            = scanGoF fuel ⟨tail, q⟩ (l.reverse ++ acc)) →
    ∀ (tail : List Char) (p : Position),
    ∃ l q, TreesT ts l
      ∧ l.length ≤ (String.join (ts.map (fun t => t.render))).data.length
      ∧ ∀ (fuel : Nat) (acc : List Token),
        scanGoF (fuel + l.length)
          ⟨(String.join (ts.map (fun t => t.render))).data ++ tail, p⟩ acc
        = scanGoF fuel ⟨tail, q⟩ (l.reverse ++ acc)
  | [], _, tail, p => ⟨[], p, TreesT.nil, by simp, fun _ _ => rfl⟩
  | t :: ts', hrec, tail, p => by
    have htext : (String.join ((t :: ts').map (fun t => t.render))).data
        = t.render.data ++ (String.join (ts'.map (fun t => t.render))).data := by
      rw [List.map_cons, sjoin_cons, String.data_append]
    obtain ⟨l1, q1, hrel1, hlen1, heq1⟩ := hrec t (List.mem_cons_self t ts')
      ((String.join (ts'.map (fun t => t.render))).data ++ tail) p
    obtain ⟨l2, q2, hrel2, hlen2, heq2⟩ := scan_trees_chunk ts'
      (fun y hy => hrec y (List.mem_cons_of_mem t hy)) tail q1
    refine ⟨l1 ++ l2, q2, TreesT.cons hrel1 hrel2, ?_, fun fuel acc => ?_⟩
    · rw [htext]
      simp only [List.length_append]
      omega
    · rw [htext, List.append_assoc]
      rw [show fuel + (l1 ++ l2).length = (fuel + l2.length) + l1.length by
        simp only [List.length_append]; omega]
      rw [heq1 (fuel + l2.length) acc, heq2 fuel (l1.reverse ++ acc)]
      rw [show (l1 ++ l2).reverse ++ acc = l2.reverse ++ (l1.reverse ++ acc) by simp]

/-- Scanning one rendered game tree. -/
theorem scan_tree_chunk : ∀ (t : GameTree), TreeWF t →
    ∀ (tail : List Char) (p : Position),
    ∃ l q, TreeT t l ∧ l.length ≤ t.render.data.length
      ∧ ∀ (fuel : Nat) (acc : List Token),
        scanGoF (fuel + l.length) ⟨t.render.data ++ tail, p⟩ acc
          = scanGoF fuel ⟨tail, q⟩ (l.reverse ++ acc) := by
  refine GameTree.my_ind ?_
  intro s ts ih hwf tail p
  rw [TreeWF_mk] at hwf
  have htext : (GameTree.mk s ts).render.data
      = '(' :: (s.render.data
          ++ ((String.join (ts.map (fun t => t.render))).data ++ [')'])) := by
    rw [GameTree.render_mk]
    rw [String.data_append, String.data_append, String.data_append]
    simp only [List.append_assoc]
    rfl
  obtain ⟨u0, p1, hs0, hstep1⟩ := scan_step_tok (Token.OpenParen ⟨0, 0⟩) trivial
    (s.render.data ++ ((String.join (ts.map (fun t => t.render))).data ++ ')' :: tail)) p
    ((boundaryOK_nonrun ⟨0, 0⟩ _).1)
  obtain ⟨q0, rfl⟩ := strip_openParen hs0
  have hseq : s.render.data = (String.join (s.nodes.map (fun x => x.render))).data := rfl
  obtain ⟨ln, q1, hrelN, hlenN, heqN⟩ := scan_nodes_chunk s.nodes hwf.1.2
    ((String.join (ts.map (fun t => t.render))).data ++ ')' :: tail) p1
  obtain ⟨lc, q2, hrelC, hlenC, heqC⟩ := scan_trees_chunk ts
    (fun t ht => ih t ht (hwf.2 t ht)) (')' :: tail) q1
  obtain ⟨u3, q3, hs3, hstep3⟩ := scan_step_tok (Token.CloseParen ⟨0, 0⟩) trivial
    tail q2 ((boundaryOK_nonrun ⟨0, 0⟩ _).2.1)
  obtain ⟨q4, rfl⟩ := strip_closeParen hs3
  refine ⟨Token.OpenParen q0 :: (ln ++ lc ++ [Token.CloseParen q4]), q3,
    TreeT.mk q0 q4 s ts ln lc hwf.1.1 hrelN hrelC, ?_, fun fuel acc => ?_⟩
  · rw [htext, hseq]
    simp only [List.length_cons, List.length_append, List.length_nil]
    omega
  · have hl : (Token.OpenParen q0 :: (ln ++ lc ++ [Token.CloseParen q4])).length
        = ln.length + lc.length + 2 := by
      simp only [List.length_cons, List.length_append, List.length_nil]
    rw [hl, htext]
    rw [show fuel + (ln.length + lc.length + 2)
        = ((((fuel + 1) + lc.length) + ln.length) + 1) by omega]
    rw [List.cons_append, List.append_assoc, List.append_assoc]
    rw [show ([')'] : List Char) ++ tail = ')' :: tail from rfl]
    rw [show ('(' : Char) :: (s.render.data
          ++ ((String.join (ts.map (fun t => t.render))).data ++ ')' :: tail))
        = (Token.OpenParen (⟨0, 0⟩ : Position)).render.data
          ++ (s.render.data
            ++ ((String.join (ts.map (fun t => t.render))).data ++ ')' :: tail))
      from rfl]
    rw [hstep1 (((fuel + 1) + lc.length) + ln.length) acc, hseq,
      heqN ((fuel + 1) + lc.length) (Token.OpenParen q0 :: acc),
      heqC (fuel + 1) (ln.reverse ++ (Token.OpenParen q0 :: acc))]
    rw [show (')' : Char) :: tail
        = (Token.CloseParen (⟨0, 0⟩ : Position)).render.data ++ tail from rfl]
    rw [hstep3 fuel (lc.reverse ++ (ln.reverse ++ (Token.OpenParen q0 :: acc)))]
    rw [show (Token.OpenParen q0 :: (ln ++ lc ++ [Token.CloseParen q4])).reverse ++ acc
        = Token.CloseParen q4
            :: (lc.reverse ++ (ln.reverse ++ (Token.OpenParen q0 :: acc))) by simp]

/-- Part B of the roundtrip, scanner side: rescanning a rendered well-formed
collection succeeds and yields game-tree-shaped token runs. -/
theorem scan_collection (c : Collection) (hwf : CollWF c) :
    ∃ toks, scan c.render = .ok toks ∧ TreesT c.gametrees toks := by
  obtain ⟨l, q, hrel, hlen, heq⟩ := scan_trees_chunk c.gametrees
    (fun t ht => scan_tree_chunk t (hwf.2 t ht)) [] ⟨1, 0⟩
  have hdata : c.render.data = (String.join (c.gametrees.map (fun t => t.render))).data := rfl
  refine ⟨l, ?_, hrel⟩
  rw [scan]
  rw [show c.render.data.length + 1 = (c.render.data.length - l.length + 1) + l.length by
    rw [hdata]; omega]
  have heq' := heq (c.render.data.length - l.length + 1) []
  rw [List.append_nil] at heq'
  rw [show (⟨c.render.data, ⟨1, 0⟩⟩ : SState)
      = ⟨(String.join (c.gametrees.map (fun t => t.render))).data, ⟨1, 0⟩⟩ by rw [hdata]]
  rw [heq', scanGoF_eof]
  rw [List.append_nil, List.reverse_reverse]

/-- `consume_whitespace` is the identity when the lookahead is not layout. -/
theorem cw_noop {l : List Token} (h : isWsTok (peekTok l) = false) :
    consume_whitespace l = l := by
  cases l with
  | nil => rfl
  | cons t r =>
    simp only [peekTok] at h
    simp [consume_whitespace, h]

theorem ValT_shape {v : String} {l : List Token} (h : ValT v l) :
    ∃ q rest, l = Token.OpenSquare q :: rest := by
  cases h
  exact ⟨_, _, rfl⟩

theorem PropT_shape {pr : Property} {l : List Token} (h : PropT pr l) :
    ∃ q ls, l = Token.UcLetter q pr.ident :: ls := by
  cases h
  exact ⟨_, _, rfl⟩

theorem NodeT_shape {n : Node} {l : List Token} (h : NodeT n l) :
    ∃ q ls, l = Token.Semicolon q :: ls := by
  cases h
  exact ⟨_, _, rfl⟩

theorem TreeT_head {t : GameTree} {l : List Token} (h : TreeT t l) :
    ∃ q rest, l = Token.OpenParen q :: rest := by
  cases h with
  | mk q1 q2 s ts ls ls' hne hn hc => exact ⟨q1, _, rfl⟩

theorem ValsT_head {vs : List String} {l : List Token} (h : ValsT vs l) :
    l = [] ∨ ∃ q rest, l = Token.OpenSquare q :: rest := by
  cases h with
  | nil => exact Or.inl rfl
  | cons h1 h2 =>
    obtain ⟨q, rest, hq⟩ := ValT_shape h1
    exact Or.inr ⟨q, rest ++ _, by rw [hq]; rfl⟩

theorem PropsT_head {ps : List Property} {l : List Token} (h : PropsT ps l) :
    l = [] ∨ ∃ q s rest, l = Token.UcLetter q s :: rest := by
  cases h with
  | nil => exact Or.inl rfl
  | cons h1 h2 =>
    obtain ⟨q, ls1, hq⟩ := PropT_shape h1
    exact Or.inr ⟨q, _, ls1 ++ _, by rw [hq]; rfl⟩

theorem NodesT_head {ns : List Node} {l : List Token} (h : NodesT ns l) :
    l = [] ∨ ∃ q rest, l = Token.Semicolon q :: rest := by
  cases h with
  | nil => exact Or.inl rfl
  | cons h1 h2 =>
    obtain ⟨q, ls1, hq⟩ := NodeT_shape h1
    exact Or.inr ⟨q, ls1 ++ _, by rw [hq]; rfl⟩

theorem TreesT_head {ts : List GameTree} {l : List Token} (h : TreesT ts l) :
    l = [] ∨ ∃ q rest, l = Token.OpenParen q :: rest := by
  cases h with
  | nil => exact Or.inl rfl
  | cons h1 h2 =>
    obtain ⟨q, rest, hq⟩ := TreeT_head h1
    exact Or.inr ⟨q, rest ++ _, by rw [hq]; rfl⟩

theorem ValsT_len {vs : List String} {l : List Token} (h : ValsT vs l) :
    vs.length ≤ l.length := by
  induction h with
  | nil => exact Nat.le_refl 0
  | cons h1 h2 ih =>
    obtain ⟨q, rest, hq⟩ := ValT_shape h1
    subst hq
    simp only [List.length_cons, List.cons_append, List.length_append]
    omega

theorem PropsT_len {ps : List Property} {l : List Token} (h : PropsT ps l) :
    ps.length ≤ l.length := by
  induction h with
  | nil => exact Nat.le_refl 0
  | cons h1 h2 ih =>
    obtain ⟨q, ls1, hq⟩ := PropT_shape h1
    subst hq
    simp only [List.length_cons, List.cons_append, List.length_append]
    omega

theorem NodesT_len {ns : List Node} {l : List Token} (h : NodesT ns l) :
    ns.length ≤ l.length := by
  induction h with
  | nil => exact Nat.le_refl 0
  | cons h1 h2 ih =>
    obtain ⟨q, ls1, hq⟩ := NodeT_shape h1
    subst hq
    simp only [List.length_cons, List.cons_append, List.length_append]
    omega

theorem TreesT_len : ∀ (ts : List GameTree) (l : List Token), TreesT ts l →
    ts.length ≤ l.length
  | [], l, h => by
    cases h
    exact Nat.le_refl 0
  | t :: ts', l, h => by
    cases h with
    | cons h1 h2 =>
      obtain ⟨q, rest, hq⟩ := TreeT_head h1
      subst hq
      have := TreesT_len ts' _ h2
      simp only [List.length_cons, List.cons_append, List.length_append]
      omega

/-- `pvLoop` over a safe token run stops exactly at the closing `]`. -/
theorem pvLoop_chunk (ctx : PCtx) : ∀ (us : List Token)
    (hsafe : ∀ u ∈ us, (∀ r, u ≠ Token.CloseSquare r) ∧ u ≠ Token.Eof)
    (q : Position) (rem : List Token) (acc : String),
    pvLoop ctx (us ++ Token.CloseSquare q :: rem) acc
      = .ok (acc ++ String.join (us.map Token.render), Token.CloseSquare q :: rem)
  | [], _, q, rem, acc => by
    rw [List.nil_append]
    rw [show String.join ([].map Token.render) = "" from rfl, String.append_empty]
    rfl
  | u :: us', hsafe, q, rem, acc => by
    obtain ⟨hcs, heof⟩ := hsafe u (List.mem_cons_self u us')
    rw [List.cons_append, pvLoop_step ctx u _ acc hcs heof]
    rw [pvLoop_chunk ctx us' (fun x hx => hsafe x (List.mem_cons_of_mem u hx)) q rem
      (acc ++ u.render)]
    rw [List.map_cons, sjoin_cons, ← String.append_assoc]

/-- `parse_propvalue` over one rendered value chunk. -/
theorem parse_propvalue_chunk (ctx : PCtx) {v : String} {l : List Token} (h : ValT v l)
    (rem : List Token) : parse_propvalue ctx (l ++ rem) = .ok (v, rem) := by
  cases h with
  | mk q1 q2 us v hsafe hv =>
    have hpv := pvLoop_chunk ctx us hsafe q2 rem ""
    rw [String.empty_append] at hpv
    rw [List.cons_append, List.append_assoc, List.singleton_append]
    simp only [parse_propvalue, peekTok, pread]
    rw [hpv]
    simp only [peekTok, pread]
    rw [hv]

/-- The value loop over a rendered list of value chunks. -/
theorem valueLoopF_chunk (ctx : PCtx) : ∀ (fuel : Nat) (vs : List String) (l : List Token),
    ValsT vs l → ∀ (rem : List Token) (acc : List String),
    vs.length + 1 ≤ fuel →
    isWsTok (peekTok rem) = false →
    (∀ q, peekTok rem ≠ Token.OpenSquare q) →
    valueLoopF ctx fuel (l ++ rem) acc = .ok (acc ++ vs, rem)
  | 0, vs, l, _, rem, acc, hfuel, _, _ => by omega
  | fuel + 1, vs, l, hrel, rem, acc, hfuel, hws, hos => by
    cases hrel with
    | nil =>
      rw [List.nil_append, List.append_nil, valueLoopF]
      cases hpk : peekTok rem with
      | OpenSquare q => exact absurd hpk (hos q)
      | _ => rfl
    | cons h1 h2 =>
      rename_i v l1 vs' l2
      obtain ⟨q1, rest1, rfl⟩ := ValT_shape h1
      have hcw : consume_whitespace (l2 ++ rem) = l2 ++ rem := by
        refine cw_noop ?_
        rcases ValsT_head h2 with rfl | ⟨q', rest', hq'⟩
        · rw [List.nil_append]
          exact hws
        · rw [hq']
          rfl
      rw [valueLoopF, List.append_assoc, List.cons_append]
      simp only [peekTok]
      rw [← List.cons_append, parse_propvalue_chunk ctx h1 (l2 ++ rem)]
      dsimp only
      rw [hcw]
      rw [valueLoopF_chunk ctx fuel vs' l2 h2 rem (acc ++ [v])
        (by simp only [List.length_cons] at hfuel ⊢; omega) hws hos]
      rw [List.append_assoc, List.singleton_append]

/-- `parse_property` over one rendered property chunk. -/
theorem parse_property_chunk (ctx : PCtx) {pr : Property} {l : List Token} (h : PropT pr l)
    (rem : List Token)
    (hws : isWsTok (peekTok rem) = false)
    (hos : ∀ q, peekTok rem ≠ Token.OpenSquare q) :
    parse_property ctx (l ++ rem) = .ok (pr, rem) := by
  cases h with
  | mk q pr ls hne hvs =>
    have hcw : consume_whitespace (ls ++ rem) = ls ++ rem := by
      refine cw_noop ?_
      rcases ValsT_head hvs with rfl | ⟨q', rest', hq'⟩
      · rw [List.nil_append]
        exact hws
      · rw [hq']
        rfl
    rw [List.cons_append, parse_property]
    rw [show parse_propident ctx (Token.UcLetter q pr.ident :: (ls ++ rem))
        = .ok (pr.ident, ls ++ rem) from rfl]
    dsimp only
    rw [hcw]
    rw [valueLoopF_chunk ctx ((ls ++ rem).length + 1) pr.values ls hvs rem []
      (by have := ValsT_len hvs; simp only [List.length_append]; omega) hws hos]
    dsimp only
    rw [List.nil_append]
    have hlen : ¬(pr.values.length = 0) := by
      intro hz
      exact hne (List.length_eq_zero.mp hz)
    rw [if_neg hlen]

/-- The property loop over a rendered list of property chunks. -/
theorem propLoopF_chunk (ctx : PCtx) : ∀ (fuel : Nat) (ps : List Property) (l : List Token),
    PropsT ps l → ∀ (rem : List Token) (acc : List Property),
    ps.length + 1 ≤ fuel →
    isWsTok (peekTok rem) = false →
    (∀ q s, peekTok rem ≠ Token.UcLetter q s) →
    (∀ q, peekTok rem ≠ Token.OpenSquare q) →
    propLoopF ctx fuel (l ++ rem) acc = .ok (acc ++ ps, rem)
  | 0, ps, l, _, rem, acc, hfuel, _, _, _ => by omega
  | fuel + 1, ps, l, hrel, rem, acc, hfuel, hws, huc, hos => by
    cases hrel with
    | nil =>
      rw [List.nil_append, List.append_nil, propLoopF]
      cases hpk : peekTok rem with
      | UcLetter q s => exact absurd hpk (huc q s)
      | _ => rfl
    | cons h1 h2 =>
      rename_i pr l1 ps' l2
      obtain ⟨q1, ls1, rfl⟩ := PropT_shape h1
      have hws2 : isWsTok (peekTok (l2 ++ rem)) = false := by
        rcases PropsT_head h2 with rfl | ⟨qx, sx, restx, hqx⟩
        · rw [List.nil_append]
          exact hws
        · rw [hqx]
          rfl
      have hos2 : ∀ q, peekTok (l2 ++ rem) ≠ Token.OpenSquare q := by
        rcases PropsT_head h2 with rfl | ⟨qx, sx, restx, hqx⟩
        · rw [List.nil_append]
          exact hos
        · rw [hqx]
          intro q' hh
          exact Token.noConfusion hh
      have hcw : consume_whitespace (l2 ++ rem) = l2 ++ rem := cw_noop hws2
      rw [propLoopF, List.append_assoc, List.cons_append]
      simp only [peekTok]
      rw [← List.cons_append, parse_property_chunk ctx h1 (l2 ++ rem) hws2 hos2]
      dsimp only
      rw [hcw]
      rw [propLoopF_chunk ctx fuel ps' l2 h2 rem (acc ++ [pr])
        (by simp only [List.length_cons] at hfuel ⊢; omega) hws huc hos]
      rw [List.append_assoc, List.singleton_append]

/-- `parse_node` over one rendered node chunk. -/
theorem parse_node_chunk (ctx : PCtx) {n : Node} {l : List Token} (h : NodeT n l)
    (rem : List Token)
    (hws : isWsTok (peekTok rem) = false)
    (huc : ∀ q s, peekTok rem ≠ Token.UcLetter q s)
    (hos : ∀ q, peekTok rem ≠ Token.OpenSquare q) :
    parse_node ctx (l ++ rem) = .ok (n, rem) := by
  cases h with
  | mk q n ls hp =>
    have hcw : consume_whitespace (ls ++ rem) = ls ++ rem := by
      refine cw_noop ?_
      rcases PropsT_head hp with rfl | ⟨qx, sx, restx, hqx⟩
      · rw [List.nil_append]
        exact hws
      · rw [hqx]
        rfl
    rw [List.cons_append, parse_node]
    rw [show (pread (Token.Semicolon q :: (ls ++ rem))).2 = ls ++ rem from rfl]
    rw [hcw]
    rw [propLoopF_chunk ctx ((ls ++ rem).length + 1) n.props ls hp rem []
      (by have := PropsT_len hp; simp only [List.length_append]; omega) hws huc hos]
    rw [List.nil_append]

/-- The node loop over a rendered list of node chunks. -/
theorem nodeLoopF_chunk (ctx : PCtx) : ∀ (fuel : Nat) (ns : List Node) (l : List Token),
    NodesT ns l → ∀ (rem : List Token) (acc : List Node),
    ns.length + 1 ≤ fuel →
    isWsTok (peekTok rem) = false →
    (∀ q, peekTok rem ≠ Token.Semicolon q) →
    (∀ q s, peekTok rem ≠ Token.UcLetter q s) →
    (∀ q, peekTok rem ≠ Token.OpenSquare q) →
    nodeLoopF ctx fuel (l ++ rem) acc = .ok (acc ++ ns, rem)
  | 0, ns, l, _, rem, acc, hfuel, _, _, _, _ => by omega
  | fuel + 1, ns, l, hrel, rem, acc, hfuel, hws, hsc, huc, hos => by
    cases hrel with
    | nil =>
      rw [List.nil_append, List.append_nil, nodeLoopF]
      cases hpk : peekTok rem with
      | Semicolon q => exact absurd hpk (hsc q)
      | _ => rfl
    | cons h1 h2 =>
      rename_i n l1 ns' l2
      obtain ⟨q1, ls1, rfl⟩ := NodeT_shape h1
      have hws2 : isWsTok (peekTok (l2 ++ rem)) = false := by
        rcases NodesT_head h2 with rfl | ⟨qx, restx, hqx⟩
        · rw [List.nil_append]
          exact hws
        · rw [hqx]
          rfl
      have huc2 : ∀ q s, peekTok (l2 ++ rem) ≠ Token.UcLetter q s := by
        rcases NodesT_head h2 with rfl | ⟨qx, restx, hqx⟩
        · rw [List.nil_append]
          exact huc
        · rw [hqx]
          intro q' s' hh
          exact Token.noConfusion hh
      have hos2 : ∀ q, peekTok (l2 ++ rem) ≠ Token.OpenSquare q := by
        rcases NodesT_head h2 with rfl | ⟨qx, restx, hqx⟩
        · rw [List.nil_append]
          exact hos
        · rw [hqx]
          intro q' hh
          exact Token.noConfusion hh
      have hcw : consume_whitespace (l2 ++ rem) = l2 ++ rem := cw_noop hws2
      rw [nodeLoopF, List.append_assoc, List.cons_append]
      simp only [peekTok]
      rw [← List.cons_append, parse_node_chunk ctx h1 (l2 ++ rem) hws2 huc2 hos2]
      dsimp only
      rw [hcw]
      rw [nodeLoopF_chunk ctx fuel ns' l2 h2 rem (acc ++ [n])
        (by simp only [List.length_cons] at hfuel ⊢; omega) hws hsc huc hos]
      rw [List.append_assoc, List.singleton_append]

/-- `parse_sequence` over a rendered non-empty list of node chunks. -/
theorem parse_sequence_chunk (ctx : PCtx) {s : Sequence} {l : List Token}
    (h : NodesT s.nodes l) (hne : s.nodes ≠ []) (rem : List Token)
    (hws : isWsTok (peekTok rem) = false)
    (hsc : ∀ q, peekTok rem ≠ Token.Semicolon q)
    (huc : ∀ q s, peekTok rem ≠ Token.UcLetter q s)
    (hos : ∀ q, peekTok rem ≠ Token.OpenSquare q) :
    parse_sequence ctx (l ++ rem) = .ok (s, rem) := by
  rw [parse_sequence]
  rw [nodeLoopF_chunk ctx ((l ++ rem).length + 1) s.nodes l h rem []
    (by have := NodesT_len h; simp only [List.length_append]; omega) hws hsc huc hos]
  dsimp only
  rw [List.nil_append]
  have hlen : ¬(s.nodes.length = 0) := by
    intro hz
    exact hne (List.length_eq_zero.mp hz)
  rw [if_neg hlen]

/-- `pgF` and `childLoopF` over rendered game-tree chunks. -/
theorem pg_child_chunk (ctx : PCtx) : ∀ (fuel : Nat),
    (∀ (t : GameTree) (l : List Token), TreeT t l → ∀ (rem : List Token),
      2 * l.length ≤ fuel → pgF ctx fuel (l ++ rem) = .ok (t, rem))
    ∧ (∀ (ts : List GameTree) (ls : List Token), TreesT ts ls →
        ∀ (q : Position) (rem : List Token) (acc : List GameTree),
        2 * ls.length + 1 ≤ fuel →
        childLoopF ctx fuel (ls ++ Token.CloseParen q :: rem) acc = .ok (acc ++ ts, rem))
  | 0 => by
    constructor
    · intro t l hrel rem hf
      obtain ⟨q, rest, hq⟩ := TreeT_head hrel
      subst hq
      simp only [List.length_cons] at hf
      omega
    · intro ts ls hrel q rem acc hf
      omega
  | fuel + 1 => by
    obtain ⟨ihp, ihc⟩ := pg_child_chunk ctx fuel
    constructor
    · intro t l hrel rem hf
      cases hrel with
      | mk q1 q2 s ts ls ls' hne hn hc =>
        simp only [List.length_cons, List.length_append, List.length_nil] at hf
        rw [pgF, List.cons_append]
        rw [show (pread (Token.OpenParen q1
            :: ((ls ++ ls' ++ [Token.CloseParen q2]) ++ rem))).2
          = (ls ++ ls' ++ [Token.CloseParen q2]) ++ rem from rfl]
        rw [show (ls ++ ls' ++ [Token.CloseParen q2]) ++ rem
            = ls ++ (ls' ++ Token.CloseParen q2 :: rem) by
          rw [List.append_assoc, List.append_assoc, List.singleton_append]]
        obtain ⟨qq, restq, hls⟩ : ∃ qq restq, ls = Token.Semicolon qq :: restq := by
          rcases NodesT_head hn with h0 | hshape
          · exfalso
            have hlen := NodesT_len hn
            rw [h0] at hlen
            exact hne (List.length_eq_zero.mp (Nat.le_zero.mp (by simpa using hlen)))
          · exact hshape
        have hcw : consume_whitespace (ls ++ (ls' ++ Token.CloseParen q2 :: rem))
            = ls ++ (ls' ++ Token.CloseParen q2 :: rem) := by
          refine cw_noop ?_
          rw [hls]
          rfl
        rw [hcw]
        have hws2 : isWsTok (peekTok (ls' ++ Token.CloseParen q2 :: rem)) = false := by
          rcases TreesT_head hc with rfl | ⟨qx, restx, hqx⟩
          · rw [List.nil_append]
            rfl
          · rw [hqx]
            rfl
        have hsc2 : ∀ q', peekTok (ls' ++ Token.CloseParen q2 :: rem)
            ≠ Token.Semicolon q' := by
          rcases TreesT_head hc with rfl | ⟨qx, restx, hqx⟩
          · rw [List.nil_append]
            intro q' hh
            exact Token.noConfusion hh
          · rw [hqx]
            intro q' hh
            exact Token.noConfusion hh
        have huc2 : ∀ q' s', peekTok (ls' ++ Token.CloseParen q2 :: rem)
            ≠ Token.UcLetter q' s' := by
          rcases TreesT_head hc with rfl | ⟨qx, restx, hqx⟩
          · rw [List.nil_append]
            intro q' s' hh
            exact Token.noConfusion hh
          · rw [hqx]
            intro q' s' hh
            exact Token.noConfusion hh
        have hos2 : ∀ q', peekTok (ls' ++ Token.CloseParen q2 :: rem)
            ≠ Token.OpenSquare q' := by
          rcases TreesT_head hc with rfl | ⟨qx, restx, hqx⟩
          · rw [List.nil_append]
            intro q' hh
            exact Token.noConfusion hh
          · rw [hqx]
            intro q' hh
            exact Token.noConfusion hh
        rw [parse_sequence_chunk ctx hn hne (ls' ++ Token.CloseParen q2 :: rem)
          hws2 hsc2 huc2 hos2]
        dsimp only
        have hcw2 : consume_whitespace (ls' ++ Token.CloseParen q2 :: rem)
            = ls' ++ Token.CloseParen q2 :: rem := cw_noop hws2
        rw [hcw2]
        rw [ihc ts ls' hc q2 rem [] (by omega)]
        rw [List.nil_append]
    · intro ts ls hrel q rem acc hf
      cases hrel with
      | nil =>
        rw [List.nil_append, List.append_nil, childLoopF]
        rfl
      | cons h1 h2 =>
        rename_i t l1 ts' l2
        obtain ⟨q1, rest1, rfl⟩ := TreeT_head h1
        have hlen1 : ((Token.OpenParen q1 :: rest1) ++ l2).length
            = rest1.length + 1 + l2.length := by
          simp only [List.cons_append, List.length_cons, List.length_append]
          omega
        rw [hlen1] at hf
        rw [childLoopF, List.append_assoc, List.cons_append]
        simp only [peekTok]
        rw [← List.cons_append,
          ihp t _ h1 (l2 ++ Token.CloseParen q :: rem)
            (by simp only [List.length_cons]; omega)]
        dsimp only
        have hcw : consume_whitespace (l2 ++ Token.CloseParen q :: rem)
            = l2 ++ Token.CloseParen q :: rem := by
          refine cw_noop ?_
          rcases TreesT_head h2 with rfl | ⟨qx, restx, hqx⟩
          · rw [List.nil_append]
            rfl
          · rw [hqx]
            rfl
        rw [hcw]
        rw [ihc ts' l2 h2 q rem (acc ++ [t]) (by omega)]
        rw [List.append_assoc, List.singleton_append]

/-- The game-tree loop over rendered tree chunks. -/
theorem treeLoopF_chunk (ctx : PCtx) : ∀ (fuel : Nat) (ts : List GameTree) (l : List Token),
    TreesT ts l → ∀ (rem : List Token) (acc : List GameTree),
    ts.length + 1 ≤ fuel →
    (∀ q, peekTok rem ≠ Token.OpenParen q) →
    treeLoopF ctx fuel (l ++ rem) acc = .ok (acc ++ ts, rem)
  | 0, ts, l, _, rem, acc, hfuel, _ => by omega
  | fuel + 1, ts, l, hrel, rem, acc, hfuel, hop => by
    cases hrel with
    | nil =>
      rw [List.nil_append, List.append_nil, treeLoopF]
      cases hpk : peekTok rem with
      | OpenParen q => exact absurd hpk (hop q)
      | _ => rfl
    | cons h1 h2 =>
      rename_i t l1 ts' l2
      obtain ⟨q1, rest1, rfl⟩ := TreeT_head h1
      rw [treeLoopF, List.append_assoc, List.cons_append]
      simp only [peekTok]
      rw [← List.cons_append]
      rw [show parse_gametree ctx ((Token.OpenParen q1 :: rest1) ++ (l2 ++ rem))
          = pgF ctx (2 * ((Token.OpenParen q1 :: rest1) ++ (l2 ++ rem)).length + 2)
              ((Token.OpenParen q1 :: rest1) ++ (l2 ++ rem)) from rfl]
      rw [(pg_child_chunk ctx _).1 t _ h1 (l2 ++ rem)
        (by simp only [List.cons_append, List.length_cons, List.length_append]; omega)]
      dsimp only
      rw [treeLoopF_chunk ctx fuel ts' l2 h2 rem (acc ++ [t])
        (by simp only [List.length_cons] at hfuel ⊢; omega) hop]
      rw [List.append_assoc, List.singleton_append]

/-- Part B of the roundtrip, parser side: parsing the rescanned token list of
a rendered collection returns exactly the collection. -/
theorem parse_chunk (ctx : PCtx) (c : Collection) (toks : List Token)
    (hrel : TreesT c.gametrees toks) (hne : c.gametrees ≠ []) :
    parse ctx toks = .ok c := by
  have htoks_ne : toks ≠ [] := by
    intro h0
    have hl := TreesT_len c.gametrees toks hrel
    rw [h0] at hl
    exact hne (by simpa using hl)
  rcases TreesT_head hrel with h0 | ⟨q0, rest0, htoks⟩
  · exact absurd h0 htoks_ne
  · have hcw : consume_whitespace toks = toks := by
      refine cw_noop ?_
      rw [htoks]
      rfl
    have hsg : skipGarbage toks = toks := by
      rw [htoks]
      rfl
    simp only [parse, hcw, hsg]
    have htl := treeLoopF_chunk ctx (toks.length + 1) c.gametrees toks hrel [] []
      (by have := TreesT_len c.gametrees toks hrel; omega)
      (by intro q hh; exact Token.noConfusion hh)
    rw [List.append_nil] at htl
    rw [htl]
    dsimp only
    rw [List.nil_append]
    have hlen : ¬(c.gametrees.length = 0) := by
      intro hz
      exact hne (List.length_eq_zero.mp hz)
    rw [if_neg hlen]

/-- C1: rendering a successfully parsed collection and parsing it again
returns exactly the same collection (display/parse roundtrip). -/
theorem c1_roundtrip (input : String) (c : Collection)
    (h : parseInput input = .ok c) : parseInput c.render = .ok c := by
  have hwf := parseInput_wf input c h
  obtain ⟨toks2, hscan2, hrel⟩ := scan_collection c hwf
  simp only [parseInput]
  rw [hscan2]
  exact parse_chunk ⟨toks2⟩ c toks2 hrel hwf.1

/-- Witness for C1 at `(;B[aa])`. -/
theorem c1_roundtrip_witness :
    parseInput "(;B[aa])" = .ok ⟨[GameTree.mk ⟨[⟨[⟨"B", ["aa"]⟩]⟩]⟩ []]⟩
      ∧ parseInput (Collection.render ⟨[GameTree.mk ⟨[⟨[⟨"B", ["aa"]⟩]⟩]⟩ []]⟩)
        = .ok ⟨[GameTree.mk ⟨[⟨[⟨"B", ["aa"]⟩]⟩]⟩ []]⟩ :=
  ⟨rfl, c1_roundtrip "(;B[aa])" _ rfl⟩

end Sgf
